import Mathlib

/-!
Shallow embedding of the `tetra-tools` repository (srs-4l, basic, gomen crates)
together with proofs about its placement engine, board predicates, broken-board
encoding, base64 codec and solver interface.

Boards, position vectors and bit streams are modelled as `Nat` with explicit
`% 2 ^ 64` masking wherever the Rust code relies on 64-bit wrap-around.
-/

set_option maxRecDepth 10000
set_option maxHeartbeats 1000000
set_option synthInstance.maxHeartbeats 1000000
set_option synthInstance.maxSize 3000

namespace T4

/-- Tetromino shapes, `src/srs-4l/src/gameplay.rs` (`enum Shape`). -/
inductive Shape where
  | I | J | L | O | S | T | Z
deriving DecidableEq

/-- Orientations, `src/srs-4l/src/gameplay.rs` (`enum Orientation`). -/
inductive Orient where
  | North | East | South | West
deriving DecidableEq, Fintype

/-- Rotation systems, `src/srs-4l/src/gameplay.rs` (`enum Physics`). -/
inductive Physics where
  | SRS | Jstris | Tetrio
deriving DecidableEq

/-- Numeric representation of a shape (`Shape as u8`). -/
def Shape.toNat : Shape → Nat
  | .I => 0 | .J => 1 | .L => 2 | .O => 3 | .S => 4 | .T => 5 | .Z => 6

/-- Numeric representation of an orientation (`Orientation as u8`). -/
def Orient.toNat : Orient → Nat
  | .North => 0 | .East => 1 | .South => 2 | .West => 3

/-- `Orientation::cw`. -/
def Orient.cw : Orient → Orient
  | .North => .East | .East => .South | .South => .West | .West => .North

/-- `Orientation::ccw`. -/
def Orient.ccw : Orient → Orient
  | .North => .West | .East => .North | .South => .East | .West => .South

/-- `Orientation::half`. -/
def Orient.half : Orient → Orient
  | .North => .South | .East => .West | .South => .North | .West => .East

/-- `Orientation::canonical`: symmetry class representative per shape. -/
def Orient.canonical (o : Orient) (s : Shape) : Orient :=
  match s, o with
  | .O, _ => .North
  | .I, .North => .North | .I, .East => .East | .I, .South => .North | .I, .West => .East
  | .S, .North => .North | .S, .East => .East | .S, .South => .North | .S, .West => .East
  | .Z, .North => .North | .Z, .East => .East | .Z, .South => .North | .Z, .West => .East
  | _, o => o

/-- `Shape::try_from(u8)`. -/
def Shape.tryFrom : Nat → Option Shape
  | 0 => some .I | 1 => some .J | 2 => some .L | 3 => some .O
  | 4 => some .S | 5 => some .T | 6 => some .Z | _ => none

/-- `Orientation::try_from(u8)`. -/
def Orient.tryFrom : Nat → Option Orient
  | 0 => some .North | 1 => some .East | 2 => some .South | 3 => some .West
  | _ => none

/-- A piece: shape, bounding-box column and row (i8 in Rust, `Int` here),
and orientation (`struct Piece`). -/
structure Piece where
  shape : Shape
  col : Int
  row : Int
  orientation : Orient
deriving DecidableEq

/-- `PIECE_SHAPES`: bitboard of each shape at origin, per orientation. -/
def PIECE_SHAPES (s : Shape) (o : Orient) : Nat :=
  match s, o with
  | .I, .North => 0b1111
  | .I, .East  => 0b1000000000100000000010000000001
  | .I, .South => 0b1111
  | .I, .West  => 0b1000000000100000000010000000001
  | .J, .North => 0b10000000111
  | .J, .East  => 0b1100000000010000000001
  | .J, .South => 0b1110000000100
  | .J, .West  => 0b1000000000100000000011
  | .L, .North => 0b1000000000111
  | .L, .East  => 0b100000000010000000011
  | .L, .South => 0b1110000000001
  | .L, .West  => 0b1100000000100000000010
  | .O, _      => 0b110000000011
  | .S, .North => 0b1100000000011
  | .S, .East  => 0b100000000110000000010
  | .S, .South => 0b1100000000011
  | .S, .West  => 0b100000000110000000010
  | .T, .North => 0b100000000111
  | .T, .East  => 0b100000000110000000001
  | .T, .South => 0b1110000000010
  | .T, .West  => 0b1000000000110000000010
  | .Z, .North => 0b110000000110
  | .Z, .East  => 0b1000000000110000000001
  | .Z, .South => 0b110000000110
  | .Z, .West  => 0b1000000000110000000001

/-- `PIECE_MAX_COLS`: the maximum in-bounds column per shape and orientation. -/
def PIECE_MAX_COLS (s : Shape) (o : Orient) : Int :=
  match s, o with
  | .I, .North => 6 | .I, .East => 9 | .I, .South => 6 | .I, .West => 9
  | .O, _ => 8
  | _, .North => 7 | _, .East => 8 | _, .South => 7 | _, .West => 8

/-- `BOARD_MASK`: the bottom 40 bits. -/
def BOARD_MASK : Nat := 0xFFFFFFFFFF

/-- Cast of an `i8`-held value to `u16` as done by `as` in `Piece::pack`. -/
def toU16 (i : Int) : Nat := (i % 65536).toNat

/-- `Piece::pack`: 2 bits orientation, 3 bits shape, 4 bits column, 4 bits row. -/
def Piece.pack (p : Piece) : Nat :=
  ((p.orientation.toNat <<< 12) |||
   (p.shape.toNat <<< 8) |||
   (toU16 p.col <<< 4) |||
   (toU16 p.row <<< 0)) % 65536

/-- `Piece::unpack`.  Mirrors the Rust bit extraction exactly, including the
`(val & 0x000F) >> 4` used for the row field.  The `unreachable!` branches of
the Rust `match` cannot fire on inputs produced by `pack`, and are mapped to
the corresponding first variants here so that the function stays total. -/
def Piece.unpack (val : Nat) : Piece :=
  let orientation :=
    match (val &&& 0xF000) >>> 12 with
    | 0 => Orient.North | 1 => Orient.East | 2 => Orient.South | _ => Orient.West
  let kind :=
    match (val &&& 0x0F00) >>> 8 with
    | 0 => Shape.I | 1 => Shape.J | 2 => Shape.L | 3 => Shape.O
    | 4 => Shape.S | 5 => Shape.T | _ => Shape.Z
  let col : Int := ((val &&& 0x00F0) >>> 4 : Nat)
  let row : Int := ((val &&& 0x000F) >>> 4 : Nat)
  { shape := kind, col := col, row := row, orientation := orientation }

/-- `Piece::as_bits`: the piece's minoes as a 64-bit word
(`PIECE_SHAPES[shape][orientation] << (row * 10 + col)`).  The Rust shift is
a u64 shift, hence the `% 2 ^ 64`; it is only ever invoked with
`row * 10 + col ≥ 0`, which `Int.toNat` reflects. -/
def Piece.asBits (p : Piece) : Nat :=
  (PIECE_SHAPES p.shape p.orientation <<< (p.row * 10 + p.col).toNat) % 2 ^ 64

/-- `Piece::as_board`: minoes restricted to the bottom four rows. -/
def Piece.asBoard (p : Piece) : Nat :=
  p.asBits &&& BOARD_MASK

/-- `Piece::collides_in`. -/
def Piece.collidesIn (p : Piece) (board : Nat) : Bool :=
  p.asBits &&& board ≠ 0

/-- `Piece::in_bounds`. -/
def Piece.inBounds (p : Piece) : Bool :=
  0 ≤ p.col && p.col ≤ PIECE_MAX_COLS p.shape p.orientation && 0 ≤ p.row && p.row ≤ 5

/-- `Piece::down`: shift down once, or stay put. -/
def Piece.down (p : Piece) (board : Nat) : Piece :=
  let q : Piece := { p with row := p.row - 1 }
  if p.row - 1 < 0 || q.collidesIn board then p else q

/-- `Piece::can_place`: in bounds, within the bottom four rows, and resting. -/
def Piece.canPlace (p : Piece) (board : Nat) : Bool :=
  (p.asBits &&& BOARD_MASK ≠ 0) && (p.asBits &&& (2 ^ 64 - 1 - BOARD_MASK) = 0)
    && (p.down board = p)

/-- One iteration of the line-sorting loop in `Piece::place`: the state is
`(unordered, ordered, complete, completeShift)`. -/
def placeStep : Nat × Nat × Nat × Nat → Nat × Nat × Nat × Nat
  | (u, ord, comp, cshift) =>
    let thisLine := (u >>> 30) &&& 0b1111111111
    let u := (u <<< 10) % 2 ^ 64
    if thisLine = 0b1111111111 then
      (u, ord, ((comp <<< 10) ||| thisLine) % 2 ^ 64, cshift + 10)
    else
      (u, ((ord <<< 10) ||| thisLine) % 2 ^ 64, comp, cshift)

/-- The body of `Piece::place` after the piece's bits are merged in:
move full rows to the bottom, keeping the other rows in order. -/
def sortFullRows (unordered : Nat) : Nat :=
  let s := placeStep (placeStep (placeStep (placeStep (unordered, 0, 0, 0))))
  ((s.2.1 <<< s.2.2.2) ||| s.2.2.1) % 2 ^ 64

/-- `Piece::place`: merge the minoes and move full lines to the bottom. -/
def Piece.place (p : Piece) (board : Nat) : Nat :=
  sortFullRows (board ||| p.asBits)

/-- The combined word computed inside `Board::has_isolated_cell`, with
`!full` embedded as xor against the all-ones 64-bit word. -/
def isoWord (b : Nat) : Nat :=
  let full := (b >>> 30) &&& (b >>> 20) &&& (b >>> 10) &&& b
  let notEmpty := (b >>> 30) ||| (b >>> 20) ||| (b >>> 10) ||| b
  let leftBounded := ((b <<< 1) % 2 ^ 64) ||| 0x40100401
  let rightBounded := (b >>> 1) ||| 0x8020080200
  let boundedCells := (leftBounded &&& rightBounded) ||| b
  let bounded := (boundedCells >>> 30) &&& (boundedCells >>> 20)
      &&& (boundedCells >>> 10) &&& boundedCells
  notEmpty &&& ((2 ^ 64 - 1) ^^^ full) &&& bounded

/-- `Board::has_isolated_cell`: whether the combined word is nonzero. -/
def hasIsolatedCell (b : Nat) : Bool := isoWord b ≠ 0

/-- Column `c` of board `b` is non-empty, has an empty cell, and every empty
cell in it is bounded on both horizontal sides by filled cells or walls. -/
def isolatedColumn (b : Nat) (c : Nat) : Prop :=
  (∃ r < 4, b.testBit (10 * r + c)) ∧
  (∃ r < 4, ¬ b.testBit (10 * r + c)) ∧
  ∀ r < 4, ¬ b.testBit (10 * r + c) →
    (c = 0 ∨ b.testBit (10 * r + (c - 1))) ∧ (c = 9 ∨ b.testBit (10 * r + (c + 1)))

/-- Some column of `b` is an isolated column. -/
def isolatedSpec (b : Nat) : Prop := ∃ c < 10, isolatedColumn b c

/-- The claim's wording of an isolated column: it requires only an empty
cell, not also a filled one.  Kept separate to compare against the code. -/
def claimIsolatedColumn (b : Nat) (c : Nat) : Prop :=
  (∃ r < 4, ¬ b.testBit (10 * r + c)) ∧
  ∀ r < 4, ¬ b.testBit (10 * r + c) →
    (c = 0 ∨ b.testBit (10 * r + (c - 1))) ∧ (c = 9 ∨ b.testBit (10 * r + (c + 1)))

/-- The claim's wording of `has_isolated_cell`'s specification. -/
def claimIsolatedSpec (b : Nat) : Prop := ∃ c < 10, claimIsolatedColumn b c

/-! ## The vector placement engine, `src/srs-4l/src/vector.rs` -/

/-- `FULL_10`: one full row. -/
def FULL10 : Nat := 0x3FF

/-- `FULL_60`: six full rows. -/
def FULL60 : Nat := 0xFFFFFFFFFFFFFFF

/-- `replicate_row`: copy a 10-bit row into all six rows. -/
def replicateRow (row : Nat) : Nat :=
  row ||| (row <<< 10) ||| (row <<< 20) ||| (row <<< 30) ||| (row <<< 40) ||| (row <<< 50)

/-- `LEFT_50`: every position except the rightmost column. -/
def LEFT50 : Nat := replicateRow 0b0111111111

/-- `RIGHT_50`: every position except the leftmost column. -/
def RIGHT50 : Nat := replicateRow 0b1111111110

/-- `SPAWN`: all twenty positions of the fifth and sixth rows. -/
def SPAWN : Nat := (FULL10 <<< 50) ||| (FULL10 <<< 40)

/-- `u64::rotate_left` for rotation amounts below 64. -/
def rotl (x r : Nat) : Nat := ((x <<< r) ||| (x >>> (64 - r))) % 2 ^ 64

/-- `u64::rotate_right` for rotation amounts below 64. -/
def rotr (x r : Nat) : Nat := ((x >>> r) ||| ((x <<< (64 - r)) % 2 ^ 64)) % 2 ^ 64

/-- `PVec::or_down`. -/
def orDown (x viable : Nat) : Nat := x ||| ((x >>> 10) &&& viable)

/-- `PVec::or_left`. -/
def orLeft (x viable : Nat) : Nat := x ||| ((x >>> 1) &&& LEFT50 &&& viable)

/-- `PVec::or_right`. -/
def orRight (x viable : Nat) : Nat := x ||| (((x <<< 1) % 2 ^ 64) &&& RIGHT50 &&& viable)

/-- One pass of the loop body of `PVec::flood_fill`. -/
def floodStep (x viable : Nat) : Nat := orRight (orLeft (orDown x viable) viable) viable

/-- `PVec::flood_fill`, with explicit fuel.  The Rust loop runs until the
vector stops changing; each productive pass adds at least one of the at most
60 position bits, so 61 passes always reach the fixed point (proved below as
`floodFill_fixed`). -/
def floodFill : Nat → Nat → Nat → Nat
  | 0, x, _ => x
  | fuel + 1, x, viable =>
    let next := floodStep x viable
    if next = x then x else floodFill fuel next viable

/-- `Collision`: collision data for one shape in one orientation. -/
structure Collision where
  shifts : List Nat
  mask : Nat
  placeableShift : Nat

/-- `Collision::make` from the mino coordinates `(column, row)`. -/
def Collision.make (minoes : List (Nat × Nat)) : Collision where
  shifts := minoes.map (fun m => m.1 + m.2 * 10)
  mask := replicateRow (minoes.foldl (fun acc m => acc &&& (FULL10 >>> m.1)) FULL10)
  placeableShift := 24 + 10 * minoes.foldl (fun acc m => max acc m.2) 0

/-- `Collision::viable`: positions where the piece would overlap nothing. -/
def Collision.viable (c : Collision) (board : Nat) : Nat :=
  ((2 ^ 64 - 1) ^^^ c.shifts.foldl (fun acc s => acc ||| (board >>> s)) 0) &&& c.mask

/-- `Collision::placeable`: grounded positions that do not peek out the top. -/
def Collision.placeable (c : Collision) (reachable : Nat) : Nat :=
  let grounded := reachable &&& ((2 ^ 64 - 1) ^^^ ((reachable <<< 10) % 2 ^ 64))
  ((grounded <<< c.placeableShift) % 2 ^ 64) >>> c.placeableShift

/-- The mino tables of `COLLISION`, per shape and orientation. -/
def COLLISION_MINOES (s : Shape) (o : Orient) : List (Nat × Nat) :=
  match s, o with
  | .I, .North => [(0,0),(1,0),(2,0),(3,0)]
  | .I, .East  => [(0,0),(0,1),(0,2),(0,3)]
  | .I, .South => [(0,0),(1,0),(2,0),(3,0)]
  | .I, .West  => [(0,0),(0,1),(0,2),(0,3)]
  | .J, .North => [(0,0),(1,0),(2,0),(0,1)]
  | .J, .East  => [(0,0),(0,1),(0,2),(1,2)]
  | .J, .South => [(2,0),(0,1),(1,1),(2,1)]
  | .J, .West  => [(0,0),(1,0),(1,1),(1,2)]
  | .L, .North => [(0,0),(1,0),(2,0),(2,1)]
  | .L, .East  => [(0,0),(1,0),(0,1),(0,2)]
  | .L, .South => [(0,0),(0,1),(1,1),(2,1)]
  | .L, .West  => [(1,0),(1,1),(0,2),(1,2)]
  | .O, _      => [(0,0),(1,0),(0,1),(1,1)]
  | .S, .North => [(0,0),(1,0),(1,1),(2,1)]
  | .S, .East  => [(1,0),(0,1),(1,1),(0,2)]
  | .S, .South => [(0,0),(1,0),(1,1),(2,1)]
  | .S, .West  => [(1,0),(0,1),(1,1),(0,2)]
  | .T, .North => [(0,0),(1,0),(2,0),(1,1)]
  | .T, .East  => [(0,0),(0,1),(1,1),(0,2)]
  | .T, .South => [(1,0),(0,1),(1,1),(2,1)]
  | .T, .West  => [(1,0),(0,1),(1,1),(1,2)]
  | .Z, .North => [(1,0),(2,0),(0,1),(1,1)]
  | .Z, .East  => [(0,0),(0,1),(1,1),(1,2)]
  | .Z, .South => [(1,0),(2,0),(0,1),(1,1)]
  | .Z, .West  => [(0,0),(0,1),(1,1),(1,2)]

/-- The `COLLISION` static. -/
def COLLISION (s : Shape) (o : Orient) : Collision :=
  Collision.make (COLLISION_MINOES s o)

/-- `shift_left_signed` on u64. -/
def shiftLeftSigned (n : Nat) (by_ : Int) : Nat :=
  if 0 ≤ by_ then (n <<< by_.toNat) % 2 ^ 64 else n >>> (-by_).toNat

/-- `make_one` inside `Kicks::make`: compile one kick offset `(Δcol, Δrow)`
into a rotation amount and a wrap-killing mask. -/
def makeOne (offset : Int × Int) : Nat × Nat :=
  let rowMask := shiftLeftSigned FULL10 offset.1 &&& FULL10
  let boardMask := shiftLeftSigned (replicateRow rowMask) (offset.2 * 10) &&& FULL60
  (((offset.1 + offset.2 * 10 + 64) % 64).toNat, boardMask)

/-- Compile a list of kick offsets as `Kicks::make` does. -/
def kickData (offsets : List (Int × Int)) : List (Nat × Nat) :=
  offsets.map makeOne

/-- `Kicks::do_kicks` over the compiled `(rotate, mask)` list: positions that
succeed at a kick are removed from consideration for the following kicks. -/
def doKicks : List (Nat × Nat) → Nat → Nat → Nat
  | [], _, _ => 0
  | (r, m) :: rest, from_, viable =>
    let kicked := rotl from_ r &&& m &&& viable
    kicked ||| doKicks rest (from_ ^^^ rotr kicked r) viable

/-- One of the `Kicks` statics: quarter- and half-rotation offsets indexed by
initial orientation. -/
structure KickTable where
  cw : Orient → List (Int × Int)
  half : Orient → List (Int × Int)
  ccw : Orient → List (Int × Int)

/-- `SRS_I`. -/
def SRS_I : KickTable where
  cw
    | .North => [(2,-2),(0,-2),(3,-2),(0,-3),(3,0)]
    | .East  => [(-2,1),(-3,1),(0,1),(-3,3),(0,0)]
    | .South => [(1,-1),(3,-1),(0,-1),(3,0),(0,-3)]
    | .West  => [(-1,2),(0,2),(-3,2),(0,0),(-3,3)]
  half | _ => []
  ccw
    | .North => [(1,-2),(0,-2),(3,-2),(0,0),(3,-3)]
    | .East  => [(-2,2),(0,2),(-3,2),(0,3),(-3,0)]
    | .South => [(2,-1),(3,-1),(0,-1),(3,-3),(0,0)]
    | .West  => [(-1,1),(-3,1),(0,1),(-3,0),(0,3)]

/-- `SRS_JLSTZ`. -/
def SRS_JLSTZ : KickTable where
  cw
    | .North => [(1,-1),(0,-1),(0,0),(1,-3),(0,-3)]
    | .East  => [(-1,0),(0,0),(0,-1),(-1,2),(0,2)]
    | .South => [(0,0),(1,0),(1,1),(0,-2),(1,-2)]
    | .West  => [(0,1),(-1,1),(-1,0),(0,3),(-1,3)]
  half | _ => []
  ccw
    | .North => [(0,-1),(1,-1),(1,0),(0,-3),(1,-3)]
    | .East  => [(-1,1),(0,1),(0,0),(-1,3),(0,3)]
    | .South => [(1,0),(0,0),(0,1),(1,-2),(0,-2)]
    | .West  => [(0,0),(-1,0),(-1,-1),(0,2),(-1,2)]

/-- `SRS_O`: no kicks at all. -/
def SRS_O : KickTable where
  cw | _ => []
  half | _ => []
  ccw | _ => []

/-- The Jstris half-rotation offsets shared by `JSTRIS_I` and `JSTRIS_JLSTZ`. -/
def JSTRIS_HALF : Orient → List (Int × Int)
  | .North => [(0,-1),(0,0)]
  | .East  => [(-1,0),(0,0)]
  | .South => [(0,1),(0,0)]
  | .West  => [(1,0),(0,0)]

/-- `JSTRIS_I`: SRS I kicks plus two half-rotation offsets. -/
def JSTRIS_I : KickTable where
  cw
    | .North => [(2,-2),(0,-2),(3,-2),(0,-3),(3,0)]
    | .East  => [(-2,1),(-3,1),(0,1),(-3,3),(0,0)]
    | .South => [(1,-1),(3,-1),(0,-1),(3,0),(0,-3)]
    | .West  => [(-1,2),(0,2),(-3,2),(0,0),(-3,3)]
  half := JSTRIS_HALF
  ccw
    | .North => [(1,-2),(0,-2),(3,-2),(0,0),(3,-3)]
    | .East  => [(-2,2),(0,2),(-3,2),(0,3),(-3,0)]
    | .South => [(2,-1),(3,-1),(0,-1),(3,-3),(0,0)]
    | .West  => [(-1,1),(-3,1),(0,1),(-3,0),(0,3)]

/-- `JSTRIS_JLSTZ`: SRS JLSTZ kicks plus two half-rotation offsets. -/
def JSTRIS_JLSTZ : KickTable where
  cw
    | .North => [(1,-1),(0,-1),(0,0),(1,-3),(0,-3)]
    | .East  => [(-1,0),(0,0),(0,-1),(-1,2),(0,2)]
    | .South => [(0,0),(1,0),(1,1),(0,-2),(1,-2)]
    | .West  => [(0,1),(-1,1),(-1,0),(0,3),(-1,3)]
  half := JSTRIS_HALF
  ccw
    | .North => [(0,-1),(1,-1),(1,0),(0,-3),(1,-3)]
    | .East  => [(-1,1),(0,1),(0,0),(-1,3),(0,3)]
    | .South => [(1,0),(0,0),(0,1),(1,-2),(0,-2)]
    | .West  => [(0,0),(-1,0),(-1,-1),(0,2),(-1,2)]

/-- `TETRIO_I`: SRS+ kicks, not rotationally inverted like the SRS I data. -/
def TETRIO_I : KickTable where
  cw
    | .North => [(2,-2),(3,-2),(0,-2),(0,-3),(3,0)]
    | .East  => [(-2,1),(-3,1),(0,1),(-3,3),(0,0)]
    | .South => [(1,-1),(3,-1),(0,-1),(3,0),(0,-3)]
    | .West  => [(-1,2),(0,2),(-3,2),(0,0),(-3,3)]
  half
    | .North => [(0,-1),(0,0),(1,0),(-1,0),(1,-1),(-1,-1)]
    | .East  => [(0,1),(0,0),(-1,0),(1,0),(-1,1),(1,1)]
    | .South => [(-1,0),(0,0),(0,2),(0,1),(-1,2),(-1,1)]
    | .West  => [(1,0),(0,0),(0,2),(0,1),(1,2),(1,1)]
  ccw
    | .North => [(1,-2),(0,-2),(3,-2),(3,-3),(0,0)]
    | .East  => [(-2,2),(-3,2),(0,2),(-3,0),(0,3)]
    | .South => [(2,-1),(0,-1),(3,-1),(0,0),(3,-3)]
    | .West  => [(-1,1),(0,1),(-3,1),(0,3),(-3,0)]

/-- `TETRIO_JLSTZ`: Jstris JLSTZ kicks with six half-rotation offsets. -/
def TETRIO_JLSTZ : KickTable where
  cw
    | .North => [(1,-1),(0,-1),(0,0),(1,-3),(0,-3)]
    | .East  => [(-1,0),(0,0),(0,-1),(-1,2),(0,2)]
    | .South => [(0,0),(1,0),(1,1),(0,-2),(1,-2)]
    | .West  => [(0,1),(-1,1),(-1,0),(0,3),(-1,3)]
  half
    | .North => [(0,-1),(0,0),(1,0),(-1,0),(1,-1),(-1,-1)]
    | .East  => [(-1,0),(0,0),(0,2),(0,1),(-1,2),(-1,1)]
    | .South => [(0,1),(0,0),(-1,0),(1,0),(-1,1),(1,1)]
    | .West  => [(1,0),(0,0),(0,2),(0,1),(1,2),(1,1)]
  ccw
    | .North => [(0,-1),(1,-1),(1,0),(0,-3),(1,-3)]
    | .East  => [(-1,1),(0,1),(0,0),(-1,3),(0,3)]
    | .South => [(1,0),(0,0),(0,1),(1,-2),(0,-2)]
    | .West  => [(0,0),(-1,0),(-1,-1),(0,2),(-1,2)]

/-- The kick table used by `PlacementMachine::step` for one physics and
shape.  The O shape never reaches the machine (`Placements::place` handles O
by a shortcut), so `SRS_O` (which has no kicks) stands in for it. -/
def kicksFor : Physics → Shape → KickTable
  | _, .O => SRS_O
  | .SRS, .I => SRS_I
  | .SRS, _ => SRS_JLSTZ
  | .Jstris, .I => JSTRIS_I
  | .Jstris, _ => JSTRIS_JLSTZ
  | .Tetrio, .I => TETRIO_I
  | .Tetrio, _ => TETRIO_JLSTZ

/-- The `PlacementMachine` state: viable and reachable position vectors and
dirty flags per orientation. -/
structure MState where
  viab : Orient → Nat
  reach : Orient → Nat
  dirty : Orient → Bool

/-- Pointwise update of an orientation-indexed table. -/
def updFn {α : Type} (f : Orient → α) (o : Orient) (v : α) : Orient → α :=
  fun x => if x = o then v else f x

/-- `PlacementMachine::any_dirty`. -/
def MState.anyDirty (st : MState) : Bool :=
  st.dirty .North || st.dirty .East || st.dirty .South || st.dirty .West

/-- The merge performed on a kick target inside `PlacementMachine::step`:
if the kicks found new positions, absorb them and mark the target dirty. -/
def MState.merge (st : MState) (t : Orient) (more : Nat) : MState :=
  if st.reach t &&& more = more then st
  else { st with reach := updFn st.reach t (st.reach t ||| more),
                 dirty := updFn st.dirty t true }

/-- `PlacementMachine::step` for one orientation. -/
def MState.step (phys : Physics) (shape : Shape) (st : MState) (o : Orient) : MState :=
  if st.dirty o then
    let r := floodFill 61 (st.reach o) (st.viab o)
    let st := { st with reach := updFn st.reach o r }
    let t := kicksFor phys shape
    let m90 := doKicks (kickData (t.cw o)) r (st.viab o.cw)
    let m180 := doKicks (kickData (t.half o)) r (st.viab o.half)
    let m270 := doKicks (kickData (t.ccw o)) r (st.viab o.ccw)
    let st := st.merge o.cw m90
    let st := st.merge o.half m180
    let st := st.merge o.ccw m270
    { st with dirty := updFn st.dirty o false }
  else st

/-- One pass of the `while machine.any_dirty()` loop body. -/
def MState.pass (phys : Physics) (shape : Shape) (st : MState) : MState :=
  ((((st.step phys shape .North).step phys shape .East).step phys shape
      .South).step phys shape .West)

/-- The `while machine.any_dirty()` loop, with explicit fuel.  Every pass
taken while a dirty flag remains strictly decreases a measure bounded by
1204, so fuel 1300 always reaches the fixed point (proved below as
`runMachine_finished`). -/
def runMachine (phys : Physics) (shape : Shape) : Nat → MState → MState
  | 0, st => st
  | fuel + 1, st =>
    if st.anyDirty then runMachine phys shape fuel (st.pass phys shape) else st

/-- The machine's initial state for a board and shape. -/
def initState (board : Nat) (shape : Shape) : MState where
  viab o := (COLLISION shape o).viable board
  reach o := SPAWN &&& (COLLISION shape o).viable board
  dirty _ := true

/-- `Placements`: the result of the search. -/
structure Placements where
  shape : Shape
  board : Nat
  pos : Orient → Nat

/-- `Placements::place`: the O shortcut, or the machine run to completion
followed by the placeable extraction. -/
def place (board : Nat) (shape : Shape) (physics : Physics) : Placements :=
  if shape = .O then
    let viable := (COLLISION .O .North).viable board
    let reachable := floodFill 61 (SPAWN &&& viable) viable
    let placeable := (COLLISION .O .North).placeable reachable
    { shape := shape, board := board, pos := fun _ => placeable }
  else
    let final := runMachine physics shape 1300 (initState board shape)
    { shape := shape, board := board,
      pos := fun o => (COLLISION shape o).placeable (final.reach o) }

/-- The set of `(piece, resulting board)` pairs a `Placements` value stands
for: one pair per set position bit, exactly as the iterator yields them. -/
def Placements.pairs (pl : Placements) : Set (Piece × Nat) :=
  { x | ∃ o cell, (pl.pos o).testBit cell ∧
      x = (⟨pl.shape, (cell % 10 : Nat), (cell / 10 : Nat), o⟩,
           Piece.place ⟨pl.shape, (cell % 10 : Nat), (cell / 10 : Nat), o⟩ pl.board) }

/-! ### Specification-level reachability for the machine

`kickResult` is the per-source-position semantics of `do_kicks`: each source
bit tries the compiled kick offsets in order and lands at the first target
that is inside the wrap mask and viable.  `Reach` is the closure of the
spawn positions under single-step movements and kicks, the specification
the machine computes. -/

/-- First-fit kick outcome for a single source position `p`. -/
def kickResult : List (Nat × Nat) → Nat → Nat → Option Nat
  | [], _, _ => none
  | (r, m) :: rest, p, viable =>
    let q := (p + r) % 64
    if m.testBit q && viable.testBit q then some q
    else kickResult rest p viable

/-- Bitwise containment of position vectors. -/
def bsub (x y : Nat) : Prop := ∀ p, x.testBit p = true → y.testBit p = true

/-- Positions reachable from spawn by moves down, left, right and by kicks,
for a fixed kick table and per-orientation viable vectors. -/
inductive Reach (kt : KickTable) (viab : Orient → Nat) : Orient → Nat → Prop where
  | spawn (o : Orient) (p : Nat) :
      (SPAWN &&& viab o).testBit p = true → Reach kt viab o p
  | down (o : Orient) (p : Nat) :
      Reach kt viab o (p + 10) → (viab o).testBit p = true → Reach kt viab o p
  | left (o : Orient) (p : Nat) :
      Reach kt viab o (p + 1) → LEFT50.testBit p = true →
      (viab o).testBit p = true → Reach kt viab o p
  | right (o : Orient) (p : Nat) :
      Reach kt viab o p → RIGHT50.testBit (p + 1) = true →
      (viab o).testBit (p + 1) = true → Reach kt viab o (p + 1)
  | cw (o : Orient) (p q : Nat) :
      Reach kt viab o p →
      kickResult (kickData (kt.cw o)) p (viab o.cw) = some q → Reach kt viab o.cw q
  | half (o : Orient) (p q : Nat) :
      Reach kt viab o p →
      kickResult (kickData (kt.half o)) p (viab o.half) = some q → Reach kt viab o.half q
  | ccw (o : Orient) (p q : Nat) :
      Reach kt viab o p →
      kickResult (kickData (kt.ccw o)) p (viab o.ccw) = some q → Reach kt viab o.ccw q

/-- The machine invariant: viable and reachable vectors fit in 60 bits and
reachable positions are viable. -/
def MInv (st : MState) : Prop :=
  ∀ o, st.viab o < 2 ^ 60 ∧ st.reach o < 2 ^ 60 ∧ bsub (st.reach o) (st.viab o)

/-- Machine soundness: every recorded reachable position is in the closure. -/
def MSound (kt : KickTable) (viab : Orient → Nat) (st : MState) : Prop :=
  ∀ o p, (st.reach o).testBit p = true → Reach kt viab o p

/-- At-rest closure: a non-dirty orientation is flood-closed and its
outgoing kicks are already contained in the target orientations. -/
def MRest (kt : KickTable) (st : MState) : Prop :=
  ∀ o, st.dirty o = false →
    floodStep (st.reach o) (st.viab o) = st.reach o ∧
    bsub (doKicks (kickData (kt.cw o)) (st.reach o) (st.viab o.cw)) (st.reach o.cw) ∧
    bsub (doKicks (kickData (kt.half o)) (st.reach o) (st.viab o.half)) (st.reach o.half) ∧
    bsub (doKicks (kickData (kt.ccw o)) (st.reach o) (st.viab o.ccw)) (st.reach o.ccw)

/-- Number of set bits among the 60 position bits. -/
def bitCard (x : Nat) : Nat :=
  ((Finset.range 60).filter (fun i => x.testBit i)).card

/-- One orientation's contribution to the termination measure. -/
def oTerm (st : MState) (o : Orient) : Nat :=
  5 * (60 - bitCard (st.reach o)) + (if st.dirty o then 1 else 0)

/-- The termination measure of the machine loop. -/
def mMeasure (st : MState) : Nat :=
  oTerm st .North + oTerm st .East + oTerm st .South + oTerm st .West

/-! ## Placement iteration (`impl Iterator / DoubleEndedIterator for Placements`) -/

/-- `u64::trailing_zeros`, written with fuel equal to the bit width
(`ctz 64 0 = 64`, matching Rust). -/
def ctz : Nat → Nat → Nat
  | 0, _ => 0
  | fuel + 1, n => if n % 2 = 1 then 0 else 1 + ctz fuel (n / 2)

/-- Index of the most significant set bit, with fuel: for nonzero `n < 2 ^ 64`
this equals Rust's `63 - n.leading_zeros()`. -/
def msbAux : Nat → Nat → Nat
  | 0, _ => 0
  | fuel + 1, n => if n < 2 then 0 else 1 + msbAux fuel (n / 2)

/-- `63 - leading_zeros` for nonzero words. -/
def msb (n : Nat) : Nat := msbAux 64 n

/-- Replace one orientation's position vector. -/
def Placements.setPos (pl : Placements) (o : Orient) (v : Nat) : Placements :=
  { pl with pos := updFn pl.pos o v }

/-- The body of `Placements::next`, walking the given orientation order. -/
def Placements.nextFrom (pl : Placements) : List Orient → Option ((Piece × Nat) × Placements)
  | [] => none
  | o :: rest =>
    let x := pl.pos o
    if x ≠ 0 then
      let cell := ctz 64 x
      let piece : Piece := ⟨pl.shape, (cell % 10 : Nat), (cell / 10 : Nat), o⟩
      some ((piece, piece.place pl.board), pl.setPos o (x ^^^ (1 <<< cell)))
    else pl.nextFrom rest

/-- `Placements::next`: orientations `N, E, S, W`, lowest bit first, with
`col = cell % 10` and `row = cell / 10`. -/
def Placements.next (pl : Placements) : Option ((Piece × Nat) × Placements) :=
  pl.nextFrom [.North, .East, .South, .West]

/-- The body of `Placements::next_back`, walking the given orientation
order.  Mirrors the source exactly: the piece is built with
`col = cell / 10` and `row = cell % 10`. -/
def Placements.nextBackFrom (pl : Placements) :
    List Orient → Option ((Piece × Nat) × Placements)
  | [] => none
  | o :: rest =>
    let x := pl.pos o
    if x ≠ 0 then
      let cell := msb x
      let piece : Piece := ⟨pl.shape, (cell / 10 : Nat), (cell % 10 : Nat), o⟩
      some ((piece, piece.place pl.board), pl.setPos o (x ^^^ (1 <<< cell)))
    else pl.nextBackFrom rest

/-- `Placements::next_back`: orientations `W, S, E, N`, highest bit first. -/
def Placements.nextBack (pl : Placements) : Option ((Piece × Nat) × Placements) :=
  pl.nextBackFrom [.West, .South, .East, .North]

/-- Drain the iterator forwards (fuel bounds the number of items). -/
def drainFwd : Nat → Placements → List (Piece × Nat)
  | 0, _ => []
  | fuel + 1, pl =>
    match pl.next with
    | none => []
    | some (x, pl2) => x :: drainFwd fuel pl2

/-- Drain the iterator backwards (fuel bounds the number of items). -/
def drainBack : Nat → Placements → List (Piece × Nat)
  | 0, _ => []
  | fuel + 1, pl =>
    match pl.nextBack with
    | none => []
    | some (x, pl2) => x :: drainBack fuel pl2

/-- `Placements::size_hint`: total popcount of the four position vectors,
written with the same fueled bit count used elsewhere in this file. -/
def natOnes : Nat → Nat → Nat
  | 0, _ => 0
  | fuel + 1, n => n % 2 + natOnes fuel (n / 2)

/-- `u64::count_ones`. -/
def countOnes64 (n : Nat) : Nat := natOnes 64 n

/-- `Placements::len`. -/
def Placements.len (pl : Placements) : Nat :=
  countOnes64 (pl.pos .North) + countOnes64 (pl.pos .East)
    + countOnes64 (pl.pos .South) + countOnes64 (pl.pos .West)

/-! ## Base64 bit-string codec, `src/basic/src/base64.rs` -/

/-- `bitvec` little-endian load: bit 0 of the slice is the value's bit 0. -/
def loadLE : List Bool → Nat
  | [] => 0
  | b :: t => (if b then 1 else 0) + 2 * loadLE t

/-- `bitvec` little-endian store of the given number of low bits. -/
def storeLE : Nat → Nat → List Bool
  | 0, _ => []
  | w + 1, v => (v % 2 == 1) :: storeLE w (v / 2)

/-- `ENCODE_TABLE`. -/
def ENCODE_TABLE : List Char :=
  ['A','B','C','D','E','F','G','H','I','J','K','L','M','N','O','P',
   'Q','R','S','T','U','V','W','X','Y','Z','a','b','c','d','e','f',
   'g','h','i','j','k','l','m','n','o','p','q','r','s','t','u','v',
   'w','x','y','z','0','1','2','3','4','5','6','7','8','9','-','_']

/-- Look up the output character for a 6-bit group. -/
def encodeChar (n : Nat) : Char := ENCODE_TABLE.getD n 'A'

/-- `DECODE_TABLE`, as a lookup on the character's code point (the Rust input
is bytes; code points above 255 fall off the table and decode as 255,
i.e. invalid). -/
def DECODE_TABLE : List Nat :=
  [255, 255, 255, 255, 255, 255, 255, 255, 255, 255, 255, 255, 255, 255, 255, 255,
   255, 255, 255, 255, 255, 255, 255, 255, 255, 255, 255, 255, 255, 255, 255, 255,
   255, 255, 255, 255, 255, 255, 255, 255, 255, 255, 255, 255, 255, 62, 255, 255,
   52, 53, 54, 55, 56, 57, 58, 59, 60, 61, 255, 255, 255, 255, 255, 255,
   255, 0, 1, 2, 3, 4, 5, 6, 7, 8, 9, 10, 11, 12, 13, 14,
   15, 16, 17, 18, 19, 20, 21, 22, 23, 24, 25, 255, 255, 255, 255, 63,
   255, 26, 27, 28, 29, 30, 31, 32, 33, 34, 35, 36, 37, 38, 39, 40,
   41, 42, 43, 44, 45, 46, 47, 48, 49, 50, 51, 255, 255, 255, 255, 255]

/-- Look up a character in `DECODE_TABLE` (everything past index 127 in the
Rust table is 255, so the list only spells out the first half). -/
def decodeByte (c : Char) : Nat := DECODE_TABLE.getD c.toNat 255

/-- The tail-character value for a final group of fewer than 6 bits, as in
`base64_encode`.  The lengths 0 and ≥ 6 never reach this match. -/
def tailCode (tail : List Bool) : Nat :=
  match tail.length with
  | 5 => loadLE tail
  | 4 => loadLE tail + 32
  | 3 => loadLE tail + 32 + 16
  | 2 => loadLE tail + 32 + 16 + 8
  | 1 => loadLE tail + 32 + 16 + 8 + 4
  | _ => 0

/-- `base64_encode`: whole 6-bit groups, then `.` and one tail character when
bits remain. -/
def base64Encode : List Bool → List Char
  | b0 :: b1 :: b2 :: b3 :: b4 :: b5 :: rest =>
    encodeChar (loadLE [b0, b1, b2, b3, b4, b5]) :: base64Encode rest
  | [] => []
  | tail => ['.', encodeChar (tailCode tail)]

/-- `base64_decode`. -/
def base64Decode : List Char → Option (List Bool)
  | [] => some []
  | c :: rest =>
    if c = '.' then
      match rest with
      | [t] =>
        let tail := decodeByte t
        if tail ≤ 31 then some (storeLE 5 tail)
        else if tail ≤ 47 then some (storeLE 4 (tail - 32))
        else if tail ≤ 55 then some (storeLE 3 (tail - 48))
        else if tail ≤ 59 then some (storeLE 2 (tail - 56))
        else if tail ≤ 61 then some (storeLE 1 (tail - 60))
        else none
      | _ => none
    else
      let d := decodeByte c
      if d = 255 then none
      else (base64Decode rest).map (fun v => storeLE 6 d ++ v)

/-! ## BrokenBoard, `src/srs-4l/src/brokenboard.rs` -/

/-- `BrokenPiece`. -/
structure BrokenPiece where
  lowMino : Nat
  shape : Shape
  orientation : Orient
  rows : Nat
deriving DecidableEq

/-- Injective numeric key realizing the derived lexicographic `Ord` on
`(low_mino, shape, orientation, rows)` for in-range fields. -/
def BrokenPiece.key (p : BrokenPiece) : Nat :=
  ((p.lowMino * 8 + p.shape.toNat) * 4 + p.orientation.toNat) * 16 + p.rows

/-- Insert into a list sorted by `key`. -/
def insertPiece (x : BrokenPiece) : List BrokenPiece → List BrokenPiece
  | [] => [x]
  | y :: t => if x.key ≤ y.key then x :: y :: t else y :: insertPiece x t

/-- `sort_unstable` on the pieces list (insertion sort; the order is total,
so stability is irrelevant). -/
def sortPieces (l : List BrokenPiece) : List BrokenPiece :=
  l.foldr insertPiece []

/-- `BrokenBoard`. -/
structure BrokenBoard where
  board : Nat
  clearedRows : Nat
  pieces : List BrokenPiece
deriving DecidableEq

/-- `BrokenBoard::empty`. -/
def BrokenBoard.empty : BrokenBoard := { board := 0, clearedRows := 0, pieces := [] }

/-- One iteration (for row index `row`) of the loop in
`BrokenBoard::from_garbage`; the state is `(board, cleared, complete, shift)`. -/
def fromGarbageStep (garbage row : Nat) : Nat × Nat × Nat × Nat → Nat × Nat × Nat × Nat
  | (board, cleared, comp, cshift) =>
    let thisLine := (garbage >>> (row * 10)) &&& 0x3FF
    if thisLine = 0x3FF then
      (board, cleared ||| (1 <<< row), ((comp <<< 10) ||| 0x3FF) % 2 ^ 64, cshift + 10)
    else
      (((board <<< 10) % 2 ^ 64) ||| thisLine, cleared, comp, cshift)

/-- `BrokenBoard::from_garbage` (rows visited from 3 down to 0). -/
def BrokenBoard.fromGarbage (garbage : Nat) : BrokenBoard :=
  let s := fromGarbageStep garbage 0 (fromGarbageStep garbage 1
    (fromGarbageStep garbage 2 (fromGarbageStep garbage 3 (0, 0, 0, 0))))
  { board := ((s.1 <<< s.2.2.2) % 2 ^ 64) ||| s.2.2.1,
    clearedRows := s.2.1,
    pieces := [] }

/-- One iteration of the loop in `BrokenBoard::to_broken_bitboard`; the state
is `(old, new)`. -/
def toBrokenStep (cleared row : Nat) : Nat × Nat → Nat × Nat
  | (old, new) =>
    if cleared.testBit row then
      (old >>> 10, (((new <<< 10) ||| 0x3FF) % 2 ^ 64))
    else
      (old, (((new <<< 10) ||| ((old >>> (10 * row)) &&& 0x3FF)) % 2 ^ 64))

/-- `BrokenBoard::to_broken_bitboard` (rows visited from 3 down to 0). -/
def BrokenBoard.toBrokenBitboard (bb : BrokenBoard) : Nat :=
  (toBrokenStep bb.clearedRows 0 (toBrokenStep bb.clearedRows 1
    (toBrokenStep bb.clearedRows 2 (toBrokenStep bb.clearedRows 3
      (bb.board, 0))))).2

/-- `u8::count_ones`. -/
def countOnes8 (n : Nat) : Nat := natOnes 8 n

/-- One iteration (row index `row`) of the rows/cleared loop in
`BrokenBoard::place`; the state is `(rowMask, rows, newCleared)`. -/
def placeRowsStep (cleared minoes field row : Nat) : Nat × Nat × Nat → Nat × Nat × Nat
  | (rowMask, rows, newCleared) =>
    if cleared.testBit row then
      (rowMask, rows, newCleared ||| (1 <<< row))
    else
      let rows2 := if minoes &&& rowMask ≠ 0 then rows ||| (1 <<< row) else rows
      let newCleared2 :=
        if field &&& rowMask = rowMask then newCleared ||| (1 <<< row) else newCleared
      ((rowMask <<< 10) % 2 ^ 64, rows2, newCleared2)

/-- `BrokenBoard::place`.  `rows.trailing_zeros()` is a `u8` count in Rust,
hence the fuel 8 there. -/
def BrokenBoard.place (bb : BrokenBoard) (piece : Piece) : BrokenBoard :=
  let board2 := piece.place bb.board
  let clearedCount := countOnes8 bb.clearedRows
  let minoes := piece.asBoard >>> (clearedCount * 10)
  let field := (bb.board >>> (clearedCount * 10)) ||| minoes
  let s := placeRowsStep bb.clearedRows minoes field 3
    (placeRowsStep bb.clearedRows minoes field 2
      (placeRowsStep bb.clearedRows minoes field 1
        (placeRowsStep bb.clearedRows minoes field 0 (0x3FF, 0, 0))))
  let rows := s.2.1
  let lowMino := ctz 64 minoes % 10 + ctz 8 rows * 10
  let newPiece : BrokenPiece :=
    { lowMino := lowMino, shape := piece.shape,
      orientation := piece.orientation.canonical piece.shape, rows := rows }
  { board := board2, clearedRows := s.2.2, pieces := sortPieces (newPiece :: bb.pieces) }

/-- One iteration of the loop in `BrokenPiece::board`; the state is
`(connected, broken)`. -/
def brokenPieceStep (prows row : Nat) : Nat × Nat → Nat × Nat
  | (connected, broken) =>
    if prows.testBit row then
      (connected >>> 10, broken ||| (((0x3FF &&& connected) <<< (row * 10)) % 2 ^ 64))
    else (connected, broken)

/-- `BrokenPiece::board`: scatter the connected shape across the piece's
rows.  The function ends with `assert_eq!(connected, 0)`, which panics
(also in release builds) when the piece's `rows` mask has fewer set bits
than the shape pattern spans; that divergence is modelled by `none`. -/
def BrokenPiece.board (p : BrokenPiece) : Option Nat :=
  let connected := PIECE_SHAPES p.shape p.orientation
  let connected := ((connected >>> ctz 64 connected) <<< (p.lowMino % 10)) % 2 ^ 64
  let s := brokenPieceStep p.rows 3 (brokenPieceStep p.rows 2
    (brokenPieceStep p.rows 1 (brokenPieceStep p.rows 0 (connected, 0))))
  if s.1 = 0 then some s.2 else none

/-- The `take_while` count of full rows from the bottom in
`BrokenBoard::is_valid`. -/
def fullLineCount (b : Nat) : Nat :=
  if b &&& 0x3FF = 0x3FF then
    if b &&& (0x3FF <<< 10) = 0x3FF <<< 10 then
      if b &&& (0x3FF <<< 20) = 0x3FF <<< 20 then
        if b &&& (0x3FF <<< 30) = 0x3FF <<< 30 then 4 else 3
      else 2
    else 1
  else 0

/-- The piece containment-and-disjointness loop of `BrokenBoard::is_valid`.
Each iteration first evaluates `piece.board()` (whose assertion may panic,
modelled by `none`), then tests containment and removes the piece. -/
def piecesFit : Nat → List BrokenPiece → Option Bool
  | _, [] => some true
  | board, p :: rest =>
    match p.board with
    | none => none
    | some pb => if board &&& pb = pb then piecesFit (board ^^^ pb) rest else some false

/-- `BrokenBoard::is_valid`.  The two board-level checks return `false`
before any `BrokenPiece::board` assertion can run; the pieces loop may
panic, modelled by `none`. -/
def BrokenBoard.isValid (bb : BrokenBoard) : Option Bool :=
  if bb.board = (BrokenBoard.fromGarbage bb.board).board then
    if fullLineCount bb.board = countOnes8 bb.clearedRows then
      piecesFit bb.toBrokenBitboard bb.pieces
    else some false
  else some false

/-- The 15-bit block for one piece in `BrokenBoard::encode`. -/
def encodePiece (p : BrokenPiece) : List Bool :=
  storeLE 6 p.lowMino ++ storeLE 3 p.shape.toNat
    ++ storeLE 2 p.orientation.toNat ++ storeLE 4 p.rows

/-- `BrokenBoard::encode`: 8-bit magic 4, 40 bits of board, 4 bits of
cleared-row mask, then 15 bits per piece. -/
def BrokenBoard.encode (bb : BrokenBoard) : List Bool :=
  storeLE 8 4 ++ storeLE 40 bb.board ++ storeLE 4 bb.clearedRows
    ++ (bb.pieces.map encodePiece).flatten

/-- The piece-parsing loop of `BrokenBoard::decode`.  The fuel only bounds
the iteration count; each pass consumes 15 bits, so fuel equal to the input
length always suffices. -/
def decodePieces : Nat → List Bool → Option (List BrokenPiece)
  | _, [] => some []
  | 0, _ => none
  | fuel + 1, l =>
    if l.length < 15 then none
    else
      match Shape.tryFrom (loadLE ((l.drop 6).take 3)),
            Orient.tryFrom (loadLE ((l.drop 9).take 2)) with
      | some sh, some ori =>
        (decodePieces fuel (l.drop 15)).map fun rest =>
          { lowMino := loadLE (l.take 6), shape := sh, orientation := ori,
            rows := loadLE ((l.drop 11).take 4) } :: rest
      | _, _ => none

/-- `BrokenBoard::decode`.  The outer `Option` models divergence: `none`
when the final `is_valid` call panics in a `BrokenPiece::board` assertion;
`some none` is the function's own `None` (bad length, magic, fields, or a
board that fails validation). -/
def BrokenBoard.decode (l : List Bool) : Option (Option BrokenBoard) :=
  if l.length < 52 ∨ 202 < l.length then some none
  else if loadLE (l.take 8) ≠ 4 then some none
  else
    match decodePieces l.length (l.drop 52) with
    | none => some none
    | some ps =>
      let bb : BrokenBoard :=
        { board := loadLE ((l.drop 8).take 40),
          clearedRows := loadLE ((l.drop 48).take 4),
          pieces := ps }
      bb.isValid.map fun v => if v then some bb else none

/-! ## Solver interface, `src/gomen/src/lib.rs` -/

/-- `parse_shape`. -/
def parseShape (c : Char) : Option Shape :=
  match c with
  | 'I' => some .I | 'J' => some .J | 'L' => some .L | 'O' => some .O
  | 'S' => some .S | 'T' => some .T | 'Z' => some .Z
  | _ => none

/-- The shape collection inside `Queue::add_bag`
(`shapes.chars().map(parse_shape).collect::<Option<Vec<Shape>>>()`). -/
def addBagShapes (shapes : List Char) : Option (List Shape) :=
  shapes.mapM parseShape

/-- `Queue::add_bag` calls `.unwrap()` on `addBagShapes`; it panics exactly
when that option is `none`. -/
def addBagPanics (shapes : List Char) : Bool :=
  (addBagShapes shapes).isNone

/-- The physics-tag match in `Solver::solve`. -/
def parsePhysics (s : String) : Option Physics :=
  match s with
  | "SRS" => some .SRS
  | "Jstris" => some .Jstris
  | "TETRIO" => some .Tetrio
  | _ => none

/-- The control flow of `Solver::solve` around the physics tag: an unknown
tag returns the empty string before any solving happens; the remainder of
the computation is abstracted as `rest`. -/
def solveResult (rest : Physics → String) (physics : String) : String :=
  match parsePhysics physics with
  | none => ""
  | some p => rest p

/-- The derived lexicographic order on `BrokenPiece` (by `low_mino`, then
shape, orientation and rows, each by its discriminant). -/
def pieceLexLe (a b : BrokenPiece) : Prop :=
  a.lowMino < b.lowMino ∨ (a.lowMino = b.lowMino ∧
    (a.shape.toNat < b.shape.toNat ∨ (a.shape.toNat = b.shape.toNat ∧
      (a.orientation.toNat < b.orientation.toNat ∨
        (a.orientation.toNat = b.orientation.toNat ∧ a.rows ≤ b.rows)))))

instance (a b : BrokenPiece) : Decidable (pieceLexLe a b) :=
  show Decidable (a.lowMino < b.lowMino ∨ (a.lowMino = b.lowMino ∧
      (a.shape.toNat < b.shape.toNat ∨ (a.shape.toNat = b.shape.toNat ∧
        (a.orientation.toNat < b.orientation.toNat ∨
          (a.orientation.toNat = b.orientation.toNat ∧ a.rows ≤ b.rows))))))
    from inferInstance

/-- A pieces list sorted in the derived order. -/
def piecesSorted : List BrokenPiece → Prop
  | [] => True
  | [_] => True
  | a :: b :: t => pieceLexLe a b ∧ piecesSorted (b :: t)

/-- The final state of the rows/cleared loop in `BrokenBoard::place`. -/
def placeState (cleared minoes field : Nat) : Nat × Nat × Nat :=
  placeRowsStep cleared minoes field 3 (placeRowsStep cleared minoes field 2
    (placeRowsStep cleared minoes field 1
      (placeRowsStep cleared minoes field 0 (0x3FF, 0, 0))))

/-- The `BrokenPiece` that `BrokenBoard::place` appends. -/
def placeNewPiece (bb : BrokenBoard) (p : Piece) : BrokenPiece :=
  let clearedCount := countOnes8 bb.clearedRows
  let minoes := p.asBoard >>> (clearedCount * 10)
  let field := (bb.board >>> (clearedCount * 10)) ||| minoes
  let s := placeState bb.clearedRows minoes field
  { lowMino := ctz 64 minoes % 10 + ctz 8 s.2.1 * 10,
    shape := p.shape, orientation := p.orientation.canonical p.shape,
    rows := s.2.1 }

/-- A pieces list sorted by the numeric key, the order `sort_unstable` uses. -/
def keySorted : List BrokenPiece → Prop
  | [] => True
  | [_] => True
  | a :: b :: t => a.key ≤ b.key ∧ keySorted (b :: t)

instance piecesSortedDec : ∀ l : List BrokenPiece, Decidable (piecesSorted l)
  | [] => inferInstanceAs (Decidable True)
  | [_] => inferInstanceAs (Decidable True)
  | a :: b :: t =>
    have : Decidable (piecesSorted (b :: t)) := piecesSortedDec (b :: t)
    inferInstanceAs (Decidable (pieceLexLe a b ∧ piecesSorted (b :: t)))

/-- Constructibility by sequences of `place` calls that respect
`Piece::place`'s documented preconditions (the debug-asserted programmer
obligations of spec section 7): the piece is fully in bounds
(`Piece::in_bounds`), satisfies `Piece::can_place` (within the bottom four
rows and resting), and does not overlap any filled cell of the board. -/
inductive Constructible : BrokenBoard → Prop where
  | empty : Constructible BrokenBoard.empty
  | garbage (g : Nat) : Constructible (BrokenBoard.fromGarbage g)
  | place (bb : BrokenBoard) (p : Piece) :
      Constructible bb → p.inBounds = true →
      p.canPlace bb.board = true → bb.board &&& p.asBits = 0 →
      Constructible (bb.place p)

/-- One row of a board, in proofs about the row-sorting loops. -/
def rowOf (b i : Nat) : Nat := (b >>> (10 * i)) &&& 0x3FF

/-- The four rows of a board, bottom row first. -/
def rowsOf (b : Nat) : List Nat := [rowOf b 0, rowOf b 1, rowOf b 2, rowOf b 3]

/-- Pack a list of 10-bit rows back into a board, bottom row first. -/
def packRows : List Nat → Nat
  | [] => 0
  | r :: t => r + 1024 * packRows t

/-- The bit mask of full rows. -/
def fullMaskSpec : List Nat → Nat
  | [] => 0
  | r :: t => (if r = 1023 then 1 else 0) + 2 * fullMaskSpec t

/-- Rows rearranged as the sorting loops do: the full rows at the bottom,
then the remaining rows in their original order. -/
def sortedRowsSpec (rows : List Nat) : List Nat :=
  List.replicate (rows.length - (rows.filter (fun r => !(r == 1023))).length) 1023
    ++ rows.filter (fun r => !(r == 1023))

/-- The unrolled loop of `BrokenBoard::from_garbage` as a fold over row
indices, for reasoning about it uniformly. -/
def garbRunF (g : Nat) : List Nat → Nat × Nat × Nat × Nat → Nat × Nat × Nat × Nat
  | [], s => s
  | r :: t, s => garbRunF g t (fromGarbageStep g r s)

/-- The unrolled loop of `Piece::place` as an iterated step, for reasoning
about it uniformly. -/
def placeRun : Nat → Nat × Nat × Nat × Nat → Nat × Nat × Nat × Nat
  | 0, s => s
  | n + 1, s => placeRun n (placeStep s)


/-! ### Specification-level piece semantics for the placement engine

These definitions follow the specification's words, not the bit-twiddling
source: a piece lives at integer bounding-box coordinates, a position is
viable when the piece teleported there stays inside the ten columns and the
six position rows and overlaps no filled cell, movements are single steps
left, right and down, and a rotation tries its kick offsets in order and
lands at the first viable one. -/

/-- Spec-level viability: the position is one of the 10×6 grid positions,
every mino stays inside the ten columns, and no mino overlaps a filled
cell of the board. -/
def specViable (board : Nat) (shape : Shape) (o : Orient) (col row : Int) : Bool :=
  decide (0 ≤ col) && decide (0 ≤ row) && decide (row < 6) &&
  (COLLISION_MINOES shape o).all (fun m =>
    decide (col + (m.1 : Int) < 10) &&
    !board.testBit (col + (m.1 : Int) + 10 * (row + (m.2 : Int))).toNat)

/-- Spec-level kick: try the offsets in order, landing at the first viable
target position. -/
def firstKick (board : Nat) (shape : Shape) (t : Orient) (col row : Int) :
    List (Int × Int) → Option (Int × Int)
  | [] => none
  | off :: rest =>
    if specViable board shape t (col + off.1) (row + off.2) then
      some (col + off.1, row + off.2)
    else firstKick board shape t col row rest

/-- Spec-level reachability: from a viable spawn position (any column, rows
4 and 5) by single-step movements down, left and right, and by rotations
with kicks from the physics' table for the shape. -/
inductive SpecReach (board : Nat) (phys : Physics) (shape : Shape) :
    Orient → Int → Int → Prop where
  | spawn (o : Orient) (col row : Int) : (row = 4 ∨ row = 5) →
      specViable board shape o col row = true → SpecReach board phys shape o col row
  | down (o : Orient) (col row : Int) : SpecReach board phys shape o col (row + 1) →
      specViable board shape o col row = true → SpecReach board phys shape o col row
  | left (o : Orient) (col row : Int) : SpecReach board phys shape o (col + 1) row →
      specViable board shape o col row = true → SpecReach board phys shape o col row
  | right (o : Orient) (col row : Int) : SpecReach board phys shape o (col - 1) row →
      specViable board shape o col row = true → SpecReach board phys shape o col row
  | cw (o : Orient) (col row col2 row2 : Int) :
      SpecReach board phys shape o col row →
      firstKick board shape o.cw col row ((kicksFor phys shape).cw o)
        = some (col2, row2) →
      SpecReach board phys shape o.cw col2 row2
  | half (o : Orient) (col row col2 row2 : Int) :
      SpecReach board phys shape o col row →
      firstKick board shape o.half col row ((kicksFor phys shape).half o)
        = some (col2, row2) →
      SpecReach board phys shape o.half col2 row2
  | ccw (o : Orient) (col row col2 row2 : Int) :
      SpecReach board phys shape o col row →
      firstKick board shape o.ccw col row ((kicksFor phys shape).ccw o)
        = some (col2, row2) →
      SpecReach board phys shape o.ccw col2 row2

/-- Spec-level placeability: reachable, entirely within the bottom four
rows, and resting on a filled cell or the bottom of the board (the position
one row down is not viable). -/
def specPlaceable (board : Nat) (phys : Physics) (shape : Shape) (o : Orient)
    (col row : Int) : Prop :=
  SpecReach board phys shape o col row ∧
  (∀ m ∈ COLLISION_MINOES shape o, row + (m.2 : Int) < 4) ∧
  specViable board shape o col (row - 1) = false

/-- The seven kick-offset components used by every table. -/
def kickRange : List Int := [-3, -2, -1, 0, 1, 2, 3]

/-! ## Theorems -/

def htOf (s : Shape) (o : Orient) : Nat :=
  match s, o with
  | .I, .North => 1 | .I, .East => 4 | .I, .South => 1 | .I, .West => 4
  | .O, _ => 2
  | _, .North => 2 | _, .South => 2
  | _, .East => 3 | _, .West => 3

def toBrokenRun (cleared : Nat) : List Nat → Nat × Nat → Nat × Nat
  | [], s => s
  | r :: t, s => toBrokenStep cleared r (toBrokenRun cleared t s)

def brokenRowsSpec (cleared b0 : Nat) : List Nat → List Nat
  | [] => []
  | r :: t =>
    (if cleared.testBit r then 1023
     else rowOf b0 (r + (t.filter (fun x => cleared.testBit x)).length)) ::
      brokenRowsSpec cleared b0 t

def placeRowsRun (cleared minoes field : Nat) : List Nat → Nat × Nat × Nat → Nat × Nat × Nat
  | [], s => s
  | r :: t, s => placeRowsRun cleared minoes field t (placeRowsStep cleared minoes field r s)

def prSpecRows (cleared minoes : Nat) : List Nat → Nat → Nat
  | [], _ => 0
  | r :: t, k =>
    if cleared.testBit r then prSpecRows cleared minoes t k
    else (if rowOf minoes k ≠ 0 then 1 <<< r else 0) ||| prSpecRows cleared minoes t (k + 1)

def prSpecClear (cleared field : Nat) : List Nat → Nat → Nat
  | [], _ => 0
  | r :: t, k =>
    if cleared.testBit r then (1 <<< r) ||| prSpecClear cleared field t k
    else (if rowOf field k = 1023 then 1 <<< r else 0) ||| prSpecClear cleared field t (k + 1)

def scatterRun (prows : Nat) : List Nat → Nat × Nat → Nat × Nat
  | [], s => s
  | r :: t, s => brokenPieceStep prows r (scatterRun prows t s)

def scatterSpecD (prows C0 : Nat) : List Nat → Nat
  | [] => 0
  | r :: t =>
    (if prows.testBit r then
      (rowOf C0 ((t.filter (fun x => prows.testBit x)).length)) <<< (10 * r)
     else 0) ||| scatterSpecD prows C0 t

def pieceBrokenRows (cleared minoes : Nat) : List Nat → Nat → List Nat
  | [], _ => []
  | r :: t, k =>
    if cleared.testBit r then 0 :: pieceBrokenRows cleared minoes t k
    else rowOf minoes k :: pieceBrokenRows cleared minoes t (k + 1)

def scatEntries (R C : Nat) : List Nat → Nat → List Nat
  | [], _ => []
  | r :: t, i =>
    if R.testBit r then rowOf C i :: scatEntries R C t (i + 1)
    else 0 :: scatEntries R C t i

def rowsBitsOk (cleared minoes R : Nat) : List Nat → Nat → Prop
  | [], _ => True
  | r :: t, k =>
    if cleared.testBit r then
      R.testBit r = false ∧ rowsBitsOk cleared minoes R t k
    else
      (R.testBit r = true ↔ rowOf minoes k ≠ 0) ∧ rowsBitsOk cleared minoes R t (k + 1)

def clearOk (cleared field R : Nat) : List Nat → Nat → Prop
  | [], _ => True
  | r :: t, k =>
    if cleared.testBit r then (R.testBit r = true) ∧ clearOk cleared field R t k
    else ((R.testBit r = true ↔ rowOf field k = 1023) ∧ clearOk cleared field R t (k + 1))

def newBrokenRows (cleared field : Nat) : List Nat → Nat → List Nat
  | [], _ => []
  | r :: t, k =>
    if cleared.testBit r then 1023 :: newBrokenRows cleared field t k
    else rowOf field k :: newBrokenRows cleared field t (k + 1)

def botRows (C field : Nat) : List Nat → List Nat
  | [] => []
  | j :: t => (if j < C then 1023 else rowOf field (j - C)) :: botRows C field t

def rowPopSum (l : List Nat) : Nat := (l.map (natOnes 10)).sum

/-- C8: `Piece::unpack` is not a left inverse of `Piece::pack`: the row field
is extracted with `(val & 0x000F) >> 4` instead of `(val & 0x000F) >> 0`, so
every piece with a nonzero row comes back with row 0.  The freshly spawned
I piece (row 4) packs to 4 and unpacks to a piece with row 0. -/
theorem C8_pack_unpack_bug :
    Piece.pack ⟨.I, 0, 4, .North⟩ = 4 ∧
    Piece.pack ⟨.I, 0, 4, .North⟩ < 16384 ∧
    Piece.unpack (Piece.pack ⟨.I, 0, 4, .North⟩) = ⟨.I, 0, 0, .North⟩ ∧
    Piece.unpack (Piece.pack ⟨.I, 0, 4, .North⟩) ≠ ⟨.I, 0, 4, .North⟩ := by
  refine ⟨rfl, by decide, rfl, by decide⟩

/-- C9: `Placements::next_back` swaps the decoding of column and row
(`col = cell / 10`, `row = cell % 10`, where `next` uses `col = cell % 10`,
`row = cell / 10`).  On a placement set holding the single position bit 12,
forward iteration yields the piece at column 2, row 1, while backward
iteration yields a different piece at column 1, row 2, so the two directions
do not traverse the same set of pairs. -/
theorem C9_next_back_bug :
    (drainFwd 8 ⟨.T, 0, fun o => match o with | .North => 4096 | _ => 0⟩).map Prod.fst
        = [⟨.T, 2, 1, .North⟩] ∧
    (drainBack 8 ⟨.T, 0, fun o => match o with | .North => 4096 | _ => 0⟩).map Prod.fst
        = [⟨.T, 1, 2, .North⟩] ∧
    (drainBack 8 ⟨.T, 0, fun o => match o with | .North => 4096 | _ => 0⟩).reverse
        ≠ drainFwd 8 ⟨.T, 0, fun o => match o with | .North => 4096 | _ => 0⟩ := by
  refine ⟨by decide, by decide, by decide⟩

/-- C10 counterexample: a queue-description string with an invalid shape
character does not produce a null result --- `Queue::add_bag` unwraps the
failed parse and panics. -/
theorem C10_invalid_shape_panics :
    parseShape 'X' = none ∧ addBagPanics ['X'] = true := by
  decide

/-- C10 amended: an invalid physics tag makes `Solver::solve` return the
empty string, whatever the rest of the computation would do; an invalid
shape character, however, panics in `Queue::add_bag` (see the
counterexample). -/
theorem C10_amended_thm :
    (∀ (rest : Physics → String) (s : String),
        parsePhysics s = none → solveResult rest s = "") ∧
    addBagPanics ['X'] = true := by
  constructor
  · intro rest s h
    simp [solveResult, h]
  · decide

/-- Witness for C10: the concrete physics tag "gravity" is rejected. -/
theorem C10_amended_witness :
    solveResult (fun _ => "nonempty") "gravity" = "" :=
  C10_amended_thm.1 (fun _ => "nonempty") "gravity" rfl

/-! ### Base64 round trip (C3) -/

/-- `loadLE` produces a value below `2 ^ length`. -/
theorem loadLE_lt (l : List Bool) : loadLE l < 2 ^ l.length := by
  induction l with
  | nil => simp [loadLE]
  | cons b t ih =>
    simp only [loadLE, List.length_cons, pow_succ]
    cases b <;> simp <;> omega

/-- `storeLE` inverts `loadLE` at the list's own length. -/
theorem storeLE_loadLE (l : List Bool) : storeLE l.length (loadLE l) = l := by
  induction l with
  | nil => rfl
  | cons b t ih =>
    simp only [List.length_cons, storeLE, loadLE]
    cases b
    · have h1 : (0 + 2 * loadLE t) % 2 = 0 := by omega
      have h2 : (0 + 2 * loadLE t) / 2 = loadLE t := by omega
      show ((0 + 2 * loadLE t) % 2 == 1) :: storeLE t.length ((0 + 2 * loadLE t) / 2)
          = false :: t
      rw [h1, h2, ih]
      rfl
    · have h1 : (1 + 2 * loadLE t) % 2 = 1 := by omega
      have h2 : (1 + 2 * loadLE t) / 2 = loadLE t := by omega
      show ((1 + 2 * loadLE t) % 2 == 1) :: storeLE t.length ((1 + 2 * loadLE t) / 2)
          = true :: t
      rw [h1, h2, ih]
      rfl

/-- Decoding inverts encoding on every 6-bit group value. -/
theorem decodeByte_encodeChar : ∀ n : Fin 64, decodeByte (encodeChar n.val) = n.val := by
  decide

/-- No 6-bit group encodes to the separator character. -/
theorem encodeChar_ne_dot : ∀ n : Fin 64, encodeChar n.val ≠ '.' := by
  decide

/-- The encoder on a six-bit-or-longer input peels one whole group. -/
theorem base64Encode_cons6 (b0 b1 b2 b3 b4 b5 : Bool) (rest : List Bool) :
    base64Encode (b0 :: b1 :: b2 :: b3 :: b4 :: b5 :: rest)
      = encodeChar (loadLE [b0, b1, b2, b3, b4, b5]) :: base64Encode rest := by
  rfl

/-- Unfolding of the decoder on a non-separator character. -/
theorem base64Decode_cons (c : Char) (rest : List Char) (hc : c ≠ '.') :
    base64Decode (c :: rest)
      = if decodeByte c = 255 then none
        else (base64Decode rest).map (fun w => storeLE 6 (decodeByte c) ++ w) := by
  simp only [base64Decode, if_neg hc]

/-- Round trip for inputs shorter than one whole group. -/
theorem base64_roundTrip_short :
    ∀ v : List Bool, v.length < 6 → base64Decode (base64Encode v) = some v := by
  intro v
  match v with
  | [] => intro _; rfl
  | [a] => revert a; decide
  | [a, b] => revert a b; decide
  | [a, b, c] => revert a b c; decide
  | [a, b, c, d] => revert a b c d; decide
  | [a, b, c, d, e] => revert a b c d e; decide
  | b0 :: b1 :: b2 :: b3 :: b4 :: b5 :: rest =>
    intro h
    simp only [List.length_cons] at h
    omega

/-- The base64 round trip, by strong induction on the bit-vector length. -/
theorem base64_roundTrip (v : List Bool) : base64Decode (base64Encode v) = some v := by
  suffices h : ∀ (n : Nat) (v : List Bool), v.length ≤ n →
      base64Decode (base64Encode v) = some v from h v.length v le_rfl
  intro n
  induction n with
  | zero =>
    intro v hv
    have : v = [] := List.length_eq_zero.mp (Nat.le_zero.mp hv)
    subst this; rfl
  | succ n ih =>
    intro v hv
    match v with
    | [] => rfl
    | [a] => exact base64_roundTrip_short [a] (by simp)
    | [a, b] => exact base64_roundTrip_short [a, b] (by simp)
    | [a, b, c] => exact base64_roundTrip_short [a, b, c] (by simp)
    | [a, b, c, d] => exact base64_roundTrip_short [a, b, c, d] (by simp)
    | [a, b, c, d, e] => exact base64_roundTrip_short [a, b, c, d, e] (by simp)
    | b0 :: b1 :: b2 :: b3 :: b4 :: b5 :: rest =>
      have hrest : rest.length ≤ n := by
        simp only [List.length_cons] at hv; omega
      have hlt : loadLE [b0, b1, b2, b3, b4, b5] < 64 := by
        have := loadLE_lt [b0, b1, b2, b3, b4, b5]; simpa using this
      have hne : encodeChar (loadLE [b0, b1, b2, b3, b4, b5]) ≠ '.' :=
        encodeChar_ne_dot ⟨_, hlt⟩
      have hdec : decodeByte (encodeChar (loadLE [b0, b1, b2, b3, b4, b5]))
          = loadLE [b0, b1, b2, b3, b4, b5] :=
        decodeByte_encodeChar ⟨_, hlt⟩
      have hstore : storeLE 6 (loadLE [b0, b1, b2, b3, b4, b5]) = [b0, b1, b2, b3, b4, b5] :=
        storeLE_loadLE [b0, b1, b2, b3, b4, b5]
      rw [base64Encode_cons6, base64Decode_cons _ _ hne, hdec,
        if_neg (show loadLE [b0, b1, b2, b3, b4, b5] ≠ 255 by omega), ih rest hrest]
      simp [hstore]

/-- Encoder shape for inputs shorter than one whole group. -/
theorem base64Encode_shape_short :
    ∀ v : List Bool, v.length < 6 →
      base64Encode v
        = base64Encode (v.take (6 * (v.length / 6)))
          ++ (if v.length % 6 = 0 then []
              else ['.', encodeChar (tailCode (v.drop (6 * (v.length / 6))))]) := by
  intro v
  match v with
  | [] => intro _; rfl
  | [a] => revert a; decide
  | [a, b] => revert a b; decide
  | [a, b, c] => revert a b c; decide
  | [a, b, c, d] => revert a b c d; decide
  | [a, b, c, d, e] => revert a b c d e; decide
  | b0 :: b1 :: b2 :: b3 :: b4 :: b5 :: rest =>
    intro h
    simp only [List.length_cons] at h
    omega

/-- The shape of the encoder output: whole 6-bit groups, then (only when the
length is not a multiple of 6) a dot and one tail character. -/
theorem base64Encode_shape (v : List Bool) :
    base64Encode v
      = base64Encode (v.take (6 * (v.length / 6)))
        ++ (if v.length % 6 = 0 then []
            else ['.', encodeChar (tailCode (v.drop (6 * (v.length / 6))))]) := by
  suffices h : ∀ (n : Nat) (v : List Bool), v.length ≤ n →
      base64Encode v
        = base64Encode (v.take (6 * (v.length / 6)))
          ++ (if v.length % 6 = 0 then []
              else ['.', encodeChar (tailCode (v.drop (6 * (v.length / 6))))]) from
    h v.length v le_rfl
  intro n
  induction n with
  | zero =>
    intro v hv
    have : v = [] := List.length_eq_zero.mp (Nat.le_zero.mp hv)
    subst this; rfl
  | succ n ih =>
    intro v hv
    match v with
    | [] => rfl
    | [a] => exact base64Encode_shape_short [a] (by simp)
    | [a, b] => exact base64Encode_shape_short [a, b] (by simp)
    | [a, b, c] => exact base64Encode_shape_short [a, b, c] (by simp)
    | [a, b, c, d] => exact base64Encode_shape_short [a, b, c, d] (by simp)
    | [a, b, c, d, e] => exact base64Encode_shape_short [a, b, c, d, e] (by simp)
    | b0 :: b1 :: b2 :: b3 :: b4 :: b5 :: rest =>
      have hrest : rest.length ≤ n := by
        simp only [List.length_cons] at hv; omega
      have hlen : (b0 :: b1 :: b2 :: b3 :: b4 :: b5 :: rest).length = 6 + rest.length := by
        simp only [List.length_cons]; omega
      have hdiv : 6 * ((6 + rest.length) / 6) = 6 + 6 * (rest.length / 6) := by omega
      have hmod : (6 + rest.length) % 6 = rest.length % 6 := by omega
      rw [hlen, hdiv, hmod]
      have hsix : 6 + 6 * (rest.length / 6)
          = (6 * (rest.length / 6) + 1 + 1 + 1 + 1 + 1) + 1 := by omega
      have htake : (b0 :: b1 :: b2 :: b3 :: b4 :: b5 :: rest).take (6 + 6 * (rest.length / 6))
          = b0 :: b1 :: b2 :: b3 :: b4 :: b5 :: rest.take (6 * (rest.length / 6)) := by
        rw [hsix]
        simp only [List.take_succ_cons]
      have hdrop : (b0 :: b1 :: b2 :: b3 :: b4 :: b5 :: rest).drop (6 + 6 * (rest.length / 6))
          = rest.drop (6 * (rest.length / 6)) := by
        rw [hsix]
        simp only [List.drop_succ_cons]
      rw [htake, hdrop, base64Encode_cons6, base64Encode_cons6, ih rest hrest]
      by_cases hm : rest.length % 6 = 0 <;> simp [hm]

/-- C3: the codec round-trips every bit vector of length at most 10000, the
whole 6-bit groups are drawn from the 64-character alphabet, and a dot plus
one tail character is appended exactly when the length is not a multiple of
six. -/
theorem C3_base64_roundtrip (v : List Bool) (h : v.length ≤ 10000) :
    base64Decode (base64Encode v) = some v ∧
    base64Encode v
      = base64Encode (v.take (6 * (v.length / 6)))
        ++ (if v.length % 6 = 0 then []
            else ['.', encodeChar (tailCode (v.drop (6 * (v.length / 6))))]) ∧
    ∀ c ∈ base64Encode (v.take (6 * (v.length / 6))), c ∈ ENCODE_TABLE := by
  refine ⟨base64_roundTrip v, base64Encode_shape v, ?_⟩
  clear h
  have hw6 : (v.take (6 * (v.length / 6))).length % 6 = 0 := by
    rw [List.length_take]
    have hle : 6 * (v.length / 6) ≤ v.length := by
      have := Nat.div_mul_le_self v.length 6; omega
    rw [Nat.min_eq_left hle]
    exact Nat.mul_mod_right 6 _
  generalize v.take (6 * (v.length / 6)) = w at hw6 ⊢
  suffices h : ∀ (n : Nat) (w : List Bool), w.length ≤ n → w.length % 6 = 0 →
      ∀ c ∈ base64Encode w, c ∈ ENCODE_TABLE from h w.length w le_rfl hw6
  intro n
  induction n with
  | zero =>
    intro w hw _
    have : w = [] := List.length_eq_zero.mp (Nat.le_zero.mp hw)
    subst this; intro c hc; cases hc
  | succ n ih =>
    intro w hw h6 c hc
    match w with
    | [] => cases hc
    | [a] => simp at h6
    | [a, b] => simp at h6
    | [a, b, c1] => simp at h6
    | [a, b, c1, d] => simp at h6
    | [a, b, c1, d, e] => simp at h6
    | b0 :: b1 :: b2 :: b3 :: b4 :: b5 :: rest =>
      have hrest : rest.length ≤ n := by
        simp only [List.length_cons] at hw; omega
      have hrest6 : rest.length % 6 = 0 := by
        simp only [List.length_cons] at h6; omega
      rw [show base64Encode (b0 :: b1 :: b2 :: b3 :: b4 :: b5 :: rest)
          = encodeChar (loadLE [b0, b1, b2, b3, b4, b5]) :: base64Encode rest from rfl] at hc
      rcases List.mem_cons.mp hc with hc | hc
      · have hlt : loadLE [b0, b1, b2, b3, b4, b5] < 64 := by
          have := loadLE_lt [b0, b1, b2, b3, b4, b5]; simpa using this
        have htab : ∀ m : Fin 64, encodeChar m.val ∈ ENCODE_TABLE := by decide
        exact hc ▸ htab ⟨_, hlt⟩
      · exact ih rest hrest hrest6 c hc

/-- Witness for C3 at the one-bit vector `[true]`. -/
theorem C3_base64_roundtrip_witness :
    base64Decode (base64Encode [true]) = some [true] :=
  (C3_base64_roundtrip [true] (by decide)).1


/-! ### Board predicate `has_isolated_cell` (C7) -/

/-- Bounded existential over the four rows, expanded. -/
theorem bex_lt_four {P : Nat → Prop} : (∃ r < 4, P r) ↔ P 0 ∨ P 1 ∨ P 2 ∨ P 3 := by
  constructor
  · rintro ⟨r, hr, h⟩
    interval_cases r <;> tauto
  · rintro (h | h | h | h)
    exacts [⟨0, by omega, h⟩, ⟨1, by omega, h⟩, ⟨2, by omega, h⟩, ⟨3, by omega, h⟩]

/-- Bounded universal over the four rows, expanded. -/
theorem ball_lt_four {P : Nat → Prop} : (∀ r < 4, P r) ↔ P 0 ∧ P 1 ∧ P 2 ∧ P 3 := by
  constructor
  · intro h; exact ⟨h 0 (by omega), h 1 (by omega), h 2 (by omega), h 3 (by omega)⟩
  · rintro ⟨h0, h1, h2, h3⟩ r hr
    interval_cases r <;> assumption

/-- The bits of the left-wall mask. -/
theorem testBit_mask1 (j : Nat) :
    Nat.testBit 0x40100401 j = decide (j = 0 ∨ j = 10 ∨ j = 20 ∨ j = 30) := by
  by_cases h : j < 31
  · interval_cases j <;> decide
  · have h1 : (0x40100401 : Nat) < 2 ^ j :=
      lt_of_lt_of_le (show (0x40100401 : Nat) < 2 ^ 31 by norm_num)
        (Nat.pow_le_pow_right (by norm_num) (by omega))
    rw [Nat.testBit_lt_two_pow h1]
    symm
    rw [decide_eq_false_iff_not]
    omega

/-- The bits of the right-wall mask. -/
theorem testBit_mask2 (j : Nat) :
    Nat.testBit 0x8020080200 j = decide (j = 9 ∨ j = 19 ∨ j = 29 ∨ j = 39) := by
  by_cases h : j < 40
  · interval_cases j <;> decide
  · have h1 : (0x8020080200 : Nat) < 2 ^ j :=
      lt_of_lt_of_le (show (0x8020080200 : Nat) < 2 ^ 40 by norm_num)
        (Nat.pow_le_pow_right (by norm_num) (by omega))
    rw [Nat.testBit_lt_two_pow h1]
    symm
    rw [decide_eq_false_iff_not]
    omega

/-- Bits of a 64-bit-truncated left shift by one. -/
theorem testBit_shl1_mod (b j : Nat) :
    ((b <<< 1) % 2 ^ 64).testBit j
      = (decide (j < 64) && decide (1 ≤ j) && b.testBit (j - 1)) := by
  rw [Nat.testBit_mod_two_pow, Nat.testBit_shiftLeft]
  by_cases h1 : j < 64 <;> by_cases h2 : 1 ≤ j <;> simp [h1, h2]

/-- A nonzero word has a set bit. -/
theorem exists_testBit_of_ne_zero {x : Nat} (h : x ≠ 0) : ∃ i, x.testBit i = true := by
  by_contra hc
  push_neg at hc
  refine h (Nat.eq_of_testBit_eq fun i => ?_)
  rw [Nat.zero_testBit]
  exact Bool.not_eq_true (x.testBit i) ▸ hc i

/-- Per-column characterization of the combined word inside
`has_isolated_cell`: bit `c` is set exactly when column `c` is non-empty,
non-full, and has every empty cell bounded on both sides. -/
theorem isoWord_col (b : Nat) :
    ∀ c, c < 10 → ((isoWord b).testBit c = true ↔ isolatedColumn b c) := by
  intro c hc
  interval_cases c
  · simp only [isoWord, Nat.testBit_and, Nat.testBit_or, Nat.testBit_xor,
      Nat.testBit_shiftRight, testBit_shl1_mod, Nat.testBit_two_pow_sub_one,
      testBit_mask1, testBit_mask2, isolatedColumn, bex_lt_four, ball_lt_four]
    norm_num [-Nat.testBit_zero]
    generalize b.testBit 0 = x0
    generalize b.testBit 1 = x1
    generalize b.testBit 10 = x10
    generalize b.testBit 11 = x11
    generalize b.testBit 20 = x20
    generalize b.testBit 21 = x21
    generalize b.testBit 30 = x30
    generalize b.testBit 31 = x31
    revert x0 x1 x10 x11 x20 x21 x30 x31
    decide
  · simp only [isoWord, Nat.testBit_and, Nat.testBit_or, Nat.testBit_xor,
      Nat.testBit_shiftRight, testBit_shl1_mod, Nat.testBit_two_pow_sub_one,
      testBit_mask1, testBit_mask2, isolatedColumn, bex_lt_four, ball_lt_four]
    norm_num [-Nat.testBit_zero]
    generalize b.testBit 0 = x0
    generalize b.testBit 1 = x1
    generalize b.testBit 2 = x2
    generalize b.testBit 10 = x10
    generalize b.testBit 11 = x11
    generalize b.testBit 12 = x12
    generalize b.testBit 20 = x20
    generalize b.testBit 21 = x21
    generalize b.testBit 22 = x22
    generalize b.testBit 30 = x30
    generalize b.testBit 31 = x31
    generalize b.testBit 32 = x32
    revert x0 x1 x2 x10 x11 x12 x20 x21 x22 x30 x31 x32
    decide
  · simp only [isoWord, Nat.testBit_and, Nat.testBit_or, Nat.testBit_xor,
      Nat.testBit_shiftRight, testBit_shl1_mod, Nat.testBit_two_pow_sub_one,
      testBit_mask1, testBit_mask2, isolatedColumn, bex_lt_four, ball_lt_four]
    norm_num [-Nat.testBit_zero]
    generalize b.testBit 1 = x1
    generalize b.testBit 2 = x2
    generalize b.testBit 3 = x3
    generalize b.testBit 11 = x11
    generalize b.testBit 12 = x12
    generalize b.testBit 13 = x13
    generalize b.testBit 21 = x21
    generalize b.testBit 22 = x22
    generalize b.testBit 23 = x23
    generalize b.testBit 31 = x31
    generalize b.testBit 32 = x32
    generalize b.testBit 33 = x33
    revert x1 x2 x3 x11 x12 x13 x21 x22 x23 x31 x32 x33
    decide
  · simp only [isoWord, Nat.testBit_and, Nat.testBit_or, Nat.testBit_xor,
      Nat.testBit_shiftRight, testBit_shl1_mod, Nat.testBit_two_pow_sub_one,
      testBit_mask1, testBit_mask2, isolatedColumn, bex_lt_four, ball_lt_four]
    norm_num [-Nat.testBit_zero]
    generalize b.testBit 2 = x2
    generalize b.testBit 3 = x3
    generalize b.testBit 4 = x4
    generalize b.testBit 12 = x12
    generalize b.testBit 13 = x13
    generalize b.testBit 14 = x14
    generalize b.testBit 22 = x22
    generalize b.testBit 23 = x23
    generalize b.testBit 24 = x24
    generalize b.testBit 32 = x32
    generalize b.testBit 33 = x33
    generalize b.testBit 34 = x34
    revert x2 x3 x4 x12 x13 x14 x22 x23 x24 x32 x33 x34
    decide
  · simp only [isoWord, Nat.testBit_and, Nat.testBit_or, Nat.testBit_xor,
      Nat.testBit_shiftRight, testBit_shl1_mod, Nat.testBit_two_pow_sub_one,
      testBit_mask1, testBit_mask2, isolatedColumn, bex_lt_four, ball_lt_four]
    norm_num [-Nat.testBit_zero]
    generalize b.testBit 3 = x3
    generalize b.testBit 4 = x4
    generalize b.testBit 5 = x5
    generalize b.testBit 13 = x13
    generalize b.testBit 14 = x14
    generalize b.testBit 15 = x15
    generalize b.testBit 23 = x23
    generalize b.testBit 24 = x24
    generalize b.testBit 25 = x25
    generalize b.testBit 33 = x33
    generalize b.testBit 34 = x34
    generalize b.testBit 35 = x35
    revert x3 x4 x5 x13 x14 x15 x23 x24 x25 x33 x34 x35
    decide
  · simp only [isoWord, Nat.testBit_and, Nat.testBit_or, Nat.testBit_xor,
      Nat.testBit_shiftRight, testBit_shl1_mod, Nat.testBit_two_pow_sub_one,
      testBit_mask1, testBit_mask2, isolatedColumn, bex_lt_four, ball_lt_four]
    norm_num [-Nat.testBit_zero]
    generalize b.testBit 4 = x4
    generalize b.testBit 5 = x5
    generalize b.testBit 6 = x6
    generalize b.testBit 14 = x14
    generalize b.testBit 15 = x15
    generalize b.testBit 16 = x16
    generalize b.testBit 24 = x24
    generalize b.testBit 25 = x25
    generalize b.testBit 26 = x26
    generalize b.testBit 34 = x34
    generalize b.testBit 35 = x35
    generalize b.testBit 36 = x36
    revert x4 x5 x6 x14 x15 x16 x24 x25 x26 x34 x35 x36
    decide
  · simp only [isoWord, Nat.testBit_and, Nat.testBit_or, Nat.testBit_xor,
      Nat.testBit_shiftRight, testBit_shl1_mod, Nat.testBit_two_pow_sub_one,
      testBit_mask1, testBit_mask2, isolatedColumn, bex_lt_four, ball_lt_four]
    norm_num [-Nat.testBit_zero]
    generalize b.testBit 5 = x5
    generalize b.testBit 6 = x6
    generalize b.testBit 7 = x7
    generalize b.testBit 15 = x15
    generalize b.testBit 16 = x16
    generalize b.testBit 17 = x17
    generalize b.testBit 25 = x25
    generalize b.testBit 26 = x26
    generalize b.testBit 27 = x27
    generalize b.testBit 35 = x35
    generalize b.testBit 36 = x36
    generalize b.testBit 37 = x37
    revert x5 x6 x7 x15 x16 x17 x25 x26 x27 x35 x36 x37
    decide
  · simp only [isoWord, Nat.testBit_and, Nat.testBit_or, Nat.testBit_xor,
      Nat.testBit_shiftRight, testBit_shl1_mod, Nat.testBit_two_pow_sub_one,
      testBit_mask1, testBit_mask2, isolatedColumn, bex_lt_four, ball_lt_four]
    norm_num [-Nat.testBit_zero]
    generalize b.testBit 6 = x6
    generalize b.testBit 7 = x7
    generalize b.testBit 8 = x8
    generalize b.testBit 16 = x16
    generalize b.testBit 17 = x17
    generalize b.testBit 18 = x18
    generalize b.testBit 26 = x26
    generalize b.testBit 27 = x27
    generalize b.testBit 28 = x28
    generalize b.testBit 36 = x36
    generalize b.testBit 37 = x37
    generalize b.testBit 38 = x38
    revert x6 x7 x8 x16 x17 x18 x26 x27 x28 x36 x37 x38
    decide
  · simp only [isoWord, Nat.testBit_and, Nat.testBit_or, Nat.testBit_xor,
      Nat.testBit_shiftRight, testBit_shl1_mod, Nat.testBit_two_pow_sub_one,
      testBit_mask1, testBit_mask2, isolatedColumn, bex_lt_four, ball_lt_four]
    norm_num [-Nat.testBit_zero]
    generalize b.testBit 7 = x7
    generalize b.testBit 8 = x8
    generalize b.testBit 9 = x9
    generalize b.testBit 17 = x17
    generalize b.testBit 18 = x18
    generalize b.testBit 19 = x19
    generalize b.testBit 27 = x27
    generalize b.testBit 28 = x28
    generalize b.testBit 29 = x29
    generalize b.testBit 37 = x37
    generalize b.testBit 38 = x38
    generalize b.testBit 39 = x39
    revert x7 x8 x9 x17 x18 x19 x27 x28 x29 x37 x38 x39
    decide
  · simp only [isoWord, Nat.testBit_and, Nat.testBit_or, Nat.testBit_xor,
      Nat.testBit_shiftRight, testBit_shl1_mod, Nat.testBit_two_pow_sub_one,
      testBit_mask1, testBit_mask2, isolatedColumn, bex_lt_four, ball_lt_four]
    norm_num [-Nat.testBit_zero]
    generalize b.testBit 8 = x8
    generalize b.testBit 9 = x9
    generalize b.testBit 18 = x18
    generalize b.testBit 19 = x19
    generalize b.testBit 28 = x28
    generalize b.testBit 29 = x29
    generalize b.testBit 38 = x38
    generalize b.testBit 39 = x39
    revert x8 x9 x18 x19 x28 x29 x38 x39
    decide


/-- Bits 10 and above of the combined word are clear on a 40-bit board. -/
theorem isoWord_high (b : Nat) (hb : b < 2 ^ 40) (i : Nat) (hi : 10 ≤ i) :
    (isoWord b).testBit i = false := by
  have hbc : ∀ j, 40 ≤ j →
      (((((b <<< 1) % 2 ^ 64) ||| 0x40100401) &&& ((b >>> 1) ||| 0x8020080200)) ||| b).testBit j
        = false := by
    intro j hj
    have hbig : ∀ k, 40 ≤ k → b.testBit k = false := fun k hk =>
      Nat.testBit_lt_two_pow
        (lt_of_lt_of_le hb (Nat.pow_le_pow_right (by norm_num) hk))
    have hm2 : Nat.testBit 0x8020080200 j = false := by
      rw [testBit_mask2, decide_eq_false_iff_not]
      omega
    simp [Nat.testBit_or, Nat.testBit_and, Nat.testBit_shiftRight, hm2,
      hbig j hj, hbig (1 + j) (by omega)]
  simp only [isoWord, Nat.testBit_and, Nat.testBit_shiftRight]
  rw [hbc (30 + i) (by omega)]
  simp

/-- C7 counterexample: on the board whose columns 0 and 2 are full and whose
column 1 is completely empty, every empty cell of column 1 is bounded on
both sides, so the claim's predicate holds, yet `has_isolated_cell` returns
false (the code additionally requires the column to contain a filled cell:
a completely empty bounded column can still be filled by a vertical I
piece). -/
theorem C7_claim_counterexample :
    hasIsolatedCell 0x140501405 = false ∧ claimIsolatedSpec 0x140501405 := by
  constructor
  · decide
  · unfold claimIsolatedSpec claimIsolatedColumn
    decide

/-- C7 amended: on a 40-bit board, `has_isolated_cell` returns true iff some
column contains at least one empty cell and at least one filled cell, and
every empty cell of that column is bounded on both horizontal sides by
filled cells or walls. -/
theorem C7_amended (b : Nat) (hb : b < 2 ^ 40) :
    hasIsolatedCell b = true ↔ isolatedSpec b := by
  rw [show hasIsolatedCell b = decide (isoWord b ≠ 0) from rfl, decide_eq_true_iff]
  constructor
  · intro hne
    obtain ⟨i, hi⟩ := exists_testBit_of_ne_zero hne
    by_cases hilt : i < 10
    · exact ⟨i, hilt, (isoWord_col b i hilt).mp hi⟩
    · rw [isoWord_high b hb i (by omega)] at hi
      cases hi
  · rintro ⟨c, hc, hcol⟩ h0
    have hbit := (isoWord_col b c hc).mpr hcol
    rw [h0, Nat.zero_testBit] at hbit
    cases hbit

/-- Witness for C7 at a concrete board: one filled cell at the bottom of
column 0, column 1 full. -/
theorem C7_amended_witness : isolatedSpec 0x80200803 :=
  (C7_amended 0x80200803 (by norm_num)).mp (by decide)


/-! ### Flood-fill theory -/

theorem bsub_refl (x : Nat) : bsub x x := fun _ h => h

theorem bsub_trans {x y z : Nat} (h1 : bsub x y) (h2 : bsub y z) : bsub x z :=
  fun p hp => h2 p (h1 p hp)

theorem bsub_lor_left (x y : Nat) : bsub x (x ||| y) := by
  intro p hp
  simp [Nat.testBit_or, hp]

theorem bsub_lor_of (x y z : Nat) (h1 : bsub x z) (h2 : bsub y z) : bsub (x ||| y) z := by
  intro p hp
  rw [Nat.testBit_or] at hp
  rcases Bool.or_eq_true_iff.mp hp with h | h
  exacts [h1 p h, h2 p h]

/-- Equal words from mutual containment. -/
theorem bsub_antisymm {x y : Nat} (h1 : bsub x y) (h2 : bsub y x) : x = y := by
  refine Nat.eq_of_testBit_eq fun i => ?_
  cases hx : x.testBit i
  · cases hy : y.testBit i
    · rfl
    · rw [h2 i hy] at hx; cases hx
  · rw [h1 i hx]

theorem orDown_subset (x v : Nat) : bsub x (orDown x v) := bsub_lor_left _ _

theorem orLeft_subset (x v : Nat) : bsub x (orLeft x v) := bsub_lor_left _ _

theorem orRight_subset (x v : Nat) : bsub x (orRight x v) := bsub_lor_left _ _

theorem floodStep_subset (x v : Nat) : bsub x (floodStep x v) :=
  bsub_trans (orDown_subset x v)
    (bsub_trans (orLeft_subset _ v) (orRight_subset _ v))

theorem floodFill_subset (fuel x v : Nat) : bsub x (floodFill fuel x v) := by
  induction fuel generalizing x with
  | zero => exact bsub_refl x
  | succ fuel ih =>
    rw [floodFill]
    split
    · exact bsub_refl x
    · exact bsub_trans (floodStep_subset x v) (ih (floodStep x v))

/-- The new positions of a flood step are viable, so the step stays inside
`x ∪ v`. -/
theorem orDown_in (x v : Nat) : bsub (orDown x v) (x ||| v) := by
  intro p hp
  rw [orDown, Nat.testBit_or, Nat.testBit_and] at hp
  rw [Nat.testBit_or]
  rcases Bool.or_eq_true_iff.mp hp with h | h
  · simp [h]
  · simp [(Bool.and_eq_true _ _).mp h |>.2]

theorem orLeft_in (x v : Nat) : bsub (orLeft x v) (x ||| v) := by
  intro p hp
  rw [orLeft, Nat.testBit_or, Nat.testBit_and] at hp
  rw [Nat.testBit_or]
  rcases Bool.or_eq_true_iff.mp hp with h | h
  · simp [h]
  · simp [(Bool.and_eq_true _ _).mp h |>.2]

theorem orRight_in (x v : Nat) : bsub (orRight x v) (x ||| v) := by
  intro p hp
  rw [orRight, Nat.testBit_or, Nat.testBit_and] at hp
  rw [Nat.testBit_or]
  rcases Bool.or_eq_true_iff.mp hp with h | h
  · simp [h]
  · simp [(Bool.and_eq_true _ _).mp h |>.2]

theorem bsub_lt {x y : Nat} {n : Nat} (h : bsub x y) (hy : y < 2 ^ n) : x < 2 ^ n := by
  refine Nat.lt_pow_two_of_testBit x fun i hi => ?_
  cases hx : x.testBit i
  · rfl
  · have := h i hx
    rw [Nat.testBit_lt_two_pow (lt_of_lt_of_le hy (Nat.pow_le_pow_right (by norm_num) hi))]
      at this
    cases this

theorem floodStep_in (x v : Nat) : bsub (floodStep x v) (x ||| v) := by
  intro p hp
  rw [Nat.testBit_or]
  have h3 := orRight_in _ v p hp
  rw [Nat.testBit_or] at h3
  rcases Bool.or_eq_true_iff.mp h3 with h3 | h3
  · have h2 := orLeft_in _ v p h3
    rw [Nat.testBit_or] at h2
    rcases Bool.or_eq_true_iff.mp h2 with h2 | h2
    · have h1 := orDown_in x v p h2
      rw [Nat.testBit_or] at h1
      exact h1
    · simp [h2]
  · simp [h3]

theorem floodStep_lt (x v : Nat) (hx : x < 2 ^ 60) (hv : v < 2 ^ 60) :
    floodStep x v < 2 ^ 60 :=
  bsub_lt (floodStep_in x v) (Nat.or_lt_two_pow hx hv)

theorem floodStep_viab (x v : Nat) (hx : bsub x v) : bsub (floodStep x v) v := by
  have h1 := orDown_in x v
  have h2 := orLeft_in (orDown x v) v
  have h3 := orRight_in (orLeft (orDown x v) v) v
  refine bsub_trans h3 (bsub_lor_of _ _ _ (bsub_trans h2 ?_) (bsub_refl _))
  exact bsub_lor_of _ _ _ (bsub_trans h1 (bsub_lor_of _ _ _ hx (bsub_refl _))) (bsub_refl _)

theorem floodFill_lt (fuel x v : Nat) (hx : x < 2 ^ 60) (hv : v < 2 ^ 60) :
    floodFill fuel x v < 2 ^ 60 := by
  induction fuel generalizing x with
  | zero => exact hx
  | succ fuel ih =>
    rw [floodFill]
    split
    · exact hx
    · exact ih _ (floodStep_lt x v hx hv)

theorem floodFill_viab (fuel x v : Nat) (hx : bsub x v) : bsub (floodFill fuel x v) v := by
  induction fuel generalizing x with
  | zero => exact hx
  | succ fuel ih =>
    rw [floodFill]
    split
    · exact hx
    · exact ih _ (floodStep_viab x v hx)

theorem bitCard_le (x : Nat) : bitCard x ≤ 60 := by
  have := Finset.card_filter_le (Finset.range 60) (fun i => x.testBit i)
  simpa [bitCard] using this

theorem bitCard_mono {x y : Nat} (h : bsub x y) : bitCard x ≤ bitCard y := by
  refine Finset.card_le_card fun i hi => ?_
  rw [Finset.mem_filter] at hi ⊢
  exact ⟨hi.1, h i hi.2⟩

theorem bitCard_strict {x y : Nat} (h : bsub x y) (hne : x ≠ y) (hy : y < 2 ^ 60) :
    bitCard x < bitCard y := by
  obtain ⟨i, hi⟩ := Nat.ne_implies_bit_diff hne
  have hxi : x.testBit i = false := by
    cases hx : x.testBit i
    · rfl
    · rw [hx, h i hx] at hi; cases hi rfl
  have hyi : y.testBit i = true := by
    cases hyb : y.testBit i
    · rw [hxi, hyb] at hi; cases hi rfl
    · rfl
  have hi60 : i < 60 := by
    by_contra hge
    rw [Nat.testBit_lt_two_pow
      (lt_of_lt_of_le hy (Nat.pow_le_pow_right (by norm_num) (by omega)))] at hyi
    cases hyi
  refine Finset.card_lt_card ⟨fun j hj => ?_, fun hall => ?_⟩
  · rw [Finset.mem_filter] at hj ⊢
    exact ⟨hj.1, h j hj.2⟩
  · have := hall (Finset.mem_filter.mpr ⟨Finset.mem_range.mpr hi60, hyi⟩)
    rw [Finset.mem_filter] at this
    rw [this.2] at hxi
    cases hxi

/-- Enough fuel always reaches the flood-fill fixed point. -/
theorem floodFill_fixed_aux :
    ∀ (fuel x v : Nat), x < 2 ^ 60 → v < 2 ^ 60 → 60 - bitCard x < fuel →
      floodStep (floodFill fuel x v) v = floodFill fuel x v := by
  intro fuel
  induction fuel with
  | zero => intro x v _ _ h; omega
  | succ fuel ih =>
    intro x v hx hv hm
    rw [floodFill]
    split
    · assumption
    · rename_i hne
      refine ih _ v (floodStep_lt x v hx hv) hv ?_
      have hstrict : bitCard x < bitCard (floodStep x v) :=
        bitCard_strict (floodStep_subset x v) (Ne.symm hne) (floodStep_lt x v hx hv)
      have := bitCard_le (floodStep x v)
      omega

/-- With fuel 61, `floodFill` computes the same fixed point as the Rust
`while` loop. -/
theorem floodFill_fixed (x v : Nat) (hx : x < 2 ^ 60) (hv : v < 2 ^ 60) :
    floodStep (floodFill 61 x v) v = floodFill 61 x v := by
  refine floodFill_fixed_aux 61 x v hx hv ?_
  omega

/-! ### Soundness of the flood fill for the reachability closure -/

theorem orDown_sound {kt viab o} {x : Nat}
    (hx : ∀ p, x.testBit p = true → Reach kt viab o p) :
    ∀ p, (orDown x (viab o)).testBit p = true → Reach kt viab o p := by
  intro p hp
  rw [orDown, Nat.testBit_or] at hp
  rcases Bool.or_eq_true_iff.mp hp with h | h
  · exact hx p h
  · rw [Nat.testBit_and, Nat.testBit_shiftRight] at h
    obtain ⟨h1, h2⟩ := (Bool.and_eq_true _ _).mp h
    rw [Nat.add_comm] at h1
    exact Reach.down o p (hx (p + 10) h1) h2

theorem orLeft_sound {kt viab o} {x : Nat}
    (hx : ∀ p, x.testBit p = true → Reach kt viab o p) :
    ∀ p, (orLeft x (viab o)).testBit p = true → Reach kt viab o p := by
  intro p hp
  rw [orLeft, Nat.testBit_or] at hp
  rcases Bool.or_eq_true_iff.mp hp with h | h
  · exact hx p h
  · rw [Nat.testBit_and, Nat.testBit_and, Nat.testBit_shiftRight] at h
    have h3 := ((Bool.and_eq_true _ _).mp h).2
    have h12 := ((Bool.and_eq_true _ _).mp h).1
    have h1 := ((Bool.and_eq_true _ _).mp h12).1
    have h2 := ((Bool.and_eq_true _ _).mp h12).2
    rw [Nat.add_comm] at h1
    exact Reach.left o p (hx (p + 1) h1) h2 h3

theorem orRight_sound {kt viab o} {x : Nat}
    (hx : ∀ p, x.testBit p = true → Reach kt viab o p) :
    ∀ p, (orRight x (viab o)).testBit p = true → Reach kt viab o p := by
  intro p hp
  rw [orRight, Nat.testBit_or] at hp
  rcases Bool.or_eq_true_iff.mp hp with h | h
  · exact hx p h
  · rw [Nat.testBit_and, Nat.testBit_and, testBit_shl1_mod] at h
    have h3 := ((Bool.and_eq_true _ _).mp h).2
    have h12 := ((Bool.and_eq_true _ _).mp h).1
    have h1 := ((Bool.and_eq_true _ _).mp h12).1
    have h2 := ((Bool.and_eq_true _ _).mp h12).2
    have hsrc := ((Bool.and_eq_true _ _).mp h1).2
    have hp1 := ((Bool.and_eq_true _ _).mp ((Bool.and_eq_true _ _).mp h1).1).2
    have hge : 1 ≤ p := of_decide_eq_true hp1
    have hrw : p - 1 + 1 = p := by omega
    have := Reach.right o (p - 1) (hx (p - 1) hsrc) (by rw [hrw]; exact h2)
      (by rw [hrw]; exact h3)
    rwa [hrw] at this

theorem floodStep_sound {kt viab o} {x : Nat}
    (hx : ∀ p, x.testBit p = true → Reach kt viab o p) :
    ∀ p, (floodStep x (viab o)).testBit p = true → Reach kt viab o p :=
  orRight_sound (orLeft_sound (orDown_sound hx))

theorem floodFill_sound {kt viab o} (fuel : Nat) {x : Nat}
    (hx : ∀ p, x.testBit p = true → Reach kt viab o p) :
    ∀ p, (floodFill fuel x (viab o)).testBit p = true → Reach kt viab o p := by
  induction fuel generalizing x with
  | zero => exact hx
  | succ fuel ih =>
    rw [floodFill]
    split
    · exact hx
    · exact ih (floodStep_sound hx)

/-! ### The kick-vector characterization -/

theorem rotl_lt (x r : Nat) : rotl x r < 2 ^ 64 := by
  rw [rotl]
  exact Nat.mod_lt _ (by norm_num)

theorem rotr_lt (x r : Nat) : rotr x r < 2 ^ 64 := by
  rw [rotr]
  exact Nat.mod_lt _ (by norm_num)

theorem rotl_testBit {x : Nat} (hx : x < 2 ^ 64) {r : Nat} (hr : r < 64) {q : Nat}
    (hq : q < 64) : (rotl x r).testBit q = x.testBit ((q + 64 - r) % 64) := by
  rw [rotl, Nat.testBit_mod_two_pow, Nat.testBit_or, Nat.testBit_shiftLeft,
    Nat.testBit_shiftRight]
  by_cases hrq : r ≤ q
  · have h1 : (q + 64 - r) % 64 = q - r := by omega
    have h2 : x.testBit (64 - r + q) = false :=
      Nat.testBit_lt_two_pow
        (lt_of_lt_of_le hx (Nat.pow_le_pow_right (by norm_num) (by omega)))
    simp [hrq, hq, h1, h2]
  · have h1 : (q + 64 - r) % 64 = 64 - r + q := by omega
    simp [hrq, hq, h1]

theorem rotr_testBit {x : Nat} (hx : x < 2 ^ 64) {r : Nat} (hr : r < 64) {p : Nat}
    (hp : p < 64) : (rotr x r).testBit p = x.testBit ((p + r) % 64) := by
  rw [rotr, Nat.testBit_mod_two_pow, Nat.testBit_or, Nat.testBit_mod_two_pow,
    Nat.testBit_shiftLeft, Nat.testBit_shiftRight]
  by_cases hc : p + r < 64
  · have h1 : (p + r) % 64 = r + p := by omega
    have h2 : ¬ (64 - r ≤ p) := by omega
    simp [hp, h1, h2]
  · have h1 : x.testBit (r + p) = false :=
      Nat.testBit_lt_two_pow
        (lt_of_lt_of_le hx (Nat.pow_le_pow_right (by norm_num) (by omega)))
    have h2 : 64 - r ≤ p := by omega
    have h3 : p - (64 - r) = (p + r) % 64 := by omega
    simp [hp, h1, h2, h3]

theorem kicked_le (from_ r m v : Nat) : rotl from_ r &&& m &&& v < 2 ^ 64 :=
  lt_of_le_of_lt (le_trans Nat.and_le_left Nat.and_le_left) (rotl_lt from_ r)

/-- The per-position, first-fit semantics of `do_kicks`. -/
theorem doKicks_testBit (data : List (Nat × Nat)) (hdata : ∀ rm ∈ data, rm.1 < 64) :
    ∀ (from_ v : Nat), from_ < 2 ^ 64 → ∀ q,
      ((doKicks data from_ v).testBit q = true ↔
        ∃ p, p < 64 ∧ from_.testBit p = true ∧ kickResult data p v = some q) := by
  induction data with
  | nil =>
    intro from_ v _ q
    simp [doKicks, kickResult]
  | cons rm rest ih =>
    obtain ⟨r, m⟩ := rm
    have hr : r < 64 := hdata (r, m) (by simp)
    intro from_ v hfrom q
    have hrest : ∀ rm ∈ rest, rm.1 < 64 := fun x hx => hdata x (by simp [hx])
    rw [doKicks]
    set kicked := rotl from_ r &&& m &&& v with hkicked
    set from2 := from_ ^^^ rotr kicked r with hfrom2
    have hklt : kicked < 2 ^ 64 := kicked_le from_ r m v
    have hf2lt : from2 < 2 ^ 64 := Nat.xor_lt_two_pow hfrom (rotr_lt kicked r)
    have hkick_tb : ∀ q2, q2 < 64 → kicked.testBit q2
        = (from_.testBit ((q2 + 64 - r) % 64) && (m.testBit q2 && v.testBit q2)) := by
      intro q2 hq2
      rw [hkicked, Nat.testBit_and, Nat.testBit_and, rotl_testBit hfrom hr hq2,
        Bool.and_assoc]
    have hrotr_tb : ∀ p, p < 64 → (rotr kicked r).testBit p
        = (from_.testBit p && (m.testBit ((p + r) % 64) && v.testBit ((p + r) % 64))) := by
      intro p hp
      rw [rotr_testBit hklt hr hp, hkick_tb _ (Nat.mod_lt _ (by norm_num))]
      have : ((p + r) % 64 + 64 - r) % 64 = p := by omega
      rw [this]
    have hfrom2_tb : ∀ p, p < 64 → from2.testBit p
        = (from_.testBit p && !(m.testBit ((p + r) % 64) && v.testBit ((p + r) % 64))) := by
      intro p hp
      rw [hfrom2, Nat.testBit_xor, hrotr_tb p hp]
      cases from_.testBit p <;>
        cases (m.testBit ((p + r) % 64) && v.testBit ((p + r) % 64)) <;> rfl
    constructor
    · intro hq
      rw [Nat.testBit_or] at hq
      rcases Bool.or_eq_true_iff.mp hq with h | h
      · have hq64 : q < 64 := by
          by_contra hc
          rw [Nat.testBit_lt_two_pow
            (lt_of_lt_of_le hklt (Nat.pow_le_pow_right (by norm_num) (by omega)))] at h
          cases h
        rw [hkick_tb q hq64] at h
        obtain ⟨h1, h2⟩ := (Bool.and_eq_true _ _).mp h
        refine ⟨(q + 64 - r) % 64, Nat.mod_lt _ (by norm_num), h1, ?_⟩
        rw [kickResult]
        have hqr : ((q + 64 - r) % 64 + r) % 64 = q := by omega
        rw [hqr, h2]
        rfl
      · obtain ⟨p, hp64, hptb, hpk⟩ := (ih hrest from2 v hf2lt q).mp h
        rw [hfrom2_tb p hp64] at hptb
        obtain ⟨h1, h2⟩ := (Bool.and_eq_true _ _).mp hptb
        refine ⟨p, hp64, h1, ?_⟩
        rw [kickResult]
        rw [Bool.not_eq_true'] at h2
        rw [h2]
        exact hpk
    · rintro ⟨p, hp64, hptb, hpk⟩
      rw [kickResult] at hpk
      rw [Nat.testBit_or]
      by_cases hs : (m.testBit ((p + r) % 64) && v.testBit ((p + r) % 64)) = true
      · rw [if_pos hs] at hpk
        obtain rfl := Option.some.inj hpk
        have hq64 : (p + r) % 64 < 64 := Nat.mod_lt _ (by norm_num)
        rw [hkick_tb _ hq64]
        have hqr : ((p + r) % 64 + 64 - r) % 64 = p := by omega
        rw [hqr, hptb, hs]
        simp
      · rw [if_neg hs] at hpk
        have hsf : (m.testBit ((p + r) % 64) && v.testBit ((p + r) % 64)) = false := by
          cases hm : (m.testBit ((p + r) % 64) && v.testBit ((p + r) % 64))
          · rfl
          · exact absurd hm hs
        have : from2.testBit p = true := by
          rw [hfrom2_tb p hp64, hptb, hsf]
          rfl
        rw [(ih hrest from2 v hf2lt q).mpr ⟨p, hp64, this, hpk⟩]
        simp

theorem doKicks_viab (data : List (Nat × Nat)) (from_ v : Nat) :
    bsub (doKicks data from_ v) v := by
  induction data generalizing from_ with
  | nil => intro p hp; simp [doKicks] at hp
  | cons rm rest ih =>
    obtain ⟨r, m⟩ := rm
    intro p hp
    rw [doKicks, Nat.testBit_or] at hp
    rcases Bool.or_eq_true_iff.mp hp with h | h
    · rw [Nat.testBit_and] at h
      exact ((Bool.and_eq_true _ _).mp h).2
    · exact ih _ p h

/-- Every compiled kick rotation amount is below 64. -/
theorem kickData_rot_lt (offsets : List (Int × Int)) :
    ∀ rm ∈ kickData offsets, rm.1 < 64 := by
  intro rm hrm
  obtain ⟨off, _, rfl⟩ := List.mem_map.mp hrm
  simp only [makeOne]
  omega

/-! ### Machine step lemmas -/

theorem orient_facts :
    ∀ o : Orient, o.cw ≠ o ∧ o.half ≠ o ∧ o.ccw ≠ o ∧
      o.cw ≠ o.half ∧ o.cw ≠ o.ccw ∧ o.half ≠ o.ccw := by
  decide

theorem land_eq_iff (x y : Nat) : x &&& y = y ↔ bsub y x := by
  constructor
  · intro h p hp
    have hh : (x &&& y).testBit p = true := by rw [h]; exact hp
    rw [Nat.testBit_and] at hh
    exact ((Bool.and_eq_true _ _).mp hh).1
  · intro h
    refine Nat.eq_of_testBit_eq fun i => ?_
    rw [Nat.testBit_and]
    cases hy : y.testBit i
    · simp
    · simp [h i hy]

theorem merge_viab (st : MState) (t : Orient) (more : Nat) :
    (st.merge t more).viab = st.viab := by
  rw [MState.merge]
  split <;> rfl

theorem merge_reach_other (st : MState) (t : Orient) (more : Nat) (o : Orient)
    (h : o ≠ t) : (st.merge t more).reach o = st.reach o := by
  rw [MState.merge]
  split
  · rfl
  · show updFn st.reach t _ o = _
    rw [updFn, if_neg h]

theorem merge_dirty_other (st : MState) (t : Orient) (more : Nat) (o : Orient)
    (h : o ≠ t) : (st.merge t more).dirty o = st.dirty o := by
  rw [MState.merge]
  split
  · rfl
  · show updFn st.dirty t true o = _
    rw [updFn, if_neg h]

theorem merge_mono (st : MState) (t : Orient) (more : Nat) (o : Orient) :
    bsub (st.reach o) ((st.merge t more).reach o) := by
  rw [MState.merge]
  split
  · exact bsub_refl _
  · show bsub _ (updFn st.reach t _ o)
    rw [updFn]
    split
    · rename_i heq
      subst heq
      exact bsub_lor_left _ _
    · exact bsub_refl _

theorem merge_more_sub (st : MState) (t : Orient) (more : Nat) :
    bsub more ((st.merge t more).reach t) := by
  rw [MState.merge]
  split
  · rename_i h
    exact (land_eq_iff _ _).mp h
  · show bsub more (updFn st.reach t _ t)
    rw [updFn, if_pos rfl]
    intro p hp
    simp [Nat.testBit_or, hp]

theorem merge_clean (st : MState) (t : Orient) (more : Nat) (o : Orient)
    (h : (st.merge t more).dirty o = false) :
    st.dirty o = false ∧ (st.merge t more).reach o = st.reach o := by
  by_cases hot : o = t
  · subst hot
    rw [MState.merge] at h
    split at h
    · rename_i hcond
      exact ⟨h, by rw [MState.merge, if_pos hcond]⟩
    · simp [updFn] at h
  · rw [merge_dirty_other st t more o hot] at h
    exact ⟨h, merge_reach_other st t more o hot⟩

theorem merge_added (st : MState) (t : Orient) (more : Nat) (o : Orient) (p : Nat)
    (h : ((st.merge t more).reach o).testBit p = true) :
    (st.reach o).testBit p = true ∨ (o = t ∧ more.testBit p = true) := by
  rw [MState.merge] at h
  split at h
  · exact Or.inl h
  · revert h
    show (updFn st.reach t _ o).testBit p = true → _
    rw [updFn]
    split
    · rename_i heq
      intro h
      rw [Nat.testBit_or] at h
      rcases Bool.or_eq_true_iff.mp h with h | h
      · exact Or.inl (heq ▸ h)
      · exact Or.inr ⟨heq, h⟩
    · exact Or.inl

theorem merge_reach_lt (st : MState) (t : Orient) (more : Nat) (o : Orient)
    (hr : st.reach o < 2 ^ 60) (hm : more < 2 ^ 60) :
    (st.merge t more).reach o < 2 ^ 60 := by
  rw [MState.merge]
  split
  · exact hr
  · show updFn st.reach t _ o < 2 ^ 60
    rw [updFn]
    split
    · rename_i heq
      subst heq
      exact Nat.or_lt_two_pow hr hm
    · exact hr

theorem merge_oTerm (st : MState) (t : Orient) (more : Nat) (o : Orient)
    (hr : st.reach t < 2 ^ 60) (hm : more < 2 ^ 60) :
    oTerm (st.merge t more) o ≤ oTerm st o := by
  by_cases hot : o = t
  · subst hot
    rw [MState.merge]
    split
    · exact le_rfl
    · rename_i hne
      have hgrow : st.reach o ≠ st.reach o ||| more := by
        intro hcontra
        refine hne ((land_eq_iff _ _).mpr fun p hp => ?_)
        have : (st.reach o ||| more).testBit p = true := by
          simp [Nat.testBit_or, hp]
        rwa [← hcontra] at this
      have hstrict : bitCard (st.reach o) < bitCard (st.reach o ||| more) :=
        bitCard_strict (bsub_lor_left _ _) hgrow (Nat.or_lt_two_pow hr hm)
      have hle := bitCard_le (st.reach o ||| more)
      rw [oTerm, oTerm]
      show 5 * (60 - bitCard (updFn st.reach o (st.reach o ||| more) o))
          + (if updFn st.dirty o true o then 1 else 0) ≤ _
      rw [updFn, if_pos rfl, updFn, if_pos rfl]
      split <;> omega
  · rw [oTerm, oTerm, merge_reach_other st t more o hot, merge_dirty_other st t more o hot]

/-- Normal form of a step on a dirty orientation. -/
theorem step_eq (phys : Physics) (shape : Shape) (st : MState) (o : Orient)
    (h : st.dirty o = true) :
    MState.step phys shape st o =
      (let r := floodFill 61 (st.reach o) (st.viab o)
       let st1 : MState := { st with reach := updFn st.reach o r }
       let kt := kicksFor phys shape
       let m90 := doKicks (kickData (kt.cw o)) r (st.viab o.cw)
       let m180 := doKicks (kickData (kt.half o)) r (st.viab o.half)
       let m270 := doKicks (kickData (kt.ccw o)) r (st.viab o.ccw)
       let st4 := ((st1.merge o.cw m90).merge o.half m180).merge o.ccw m270
       { st4 with dirty := updFn st4.dirty o false }) := by
  rw [MState.step, if_pos h]

theorem step_of_not_dirty (phys : Physics) (shape : Shape) (st : MState) (o : Orient)
    (h : st.dirty o = false) : MState.step phys shape st o = st := by
  rw [MState.step, if_neg (by simp [h])]

theorem step_viab (phys : Physics) (shape : Shape) (st : MState) (o : Orient) :
    (MState.step phys shape st o).viab = st.viab := by
  by_cases h : st.dirty o
  · rw [step_eq phys shape st o h]
    show (((({ st with reach := _ } : MState).merge _ _).merge _ _).merge _ _).viab = _
    rw [merge_viab, merge_viab, merge_viab]
  · rw [step_of_not_dirty phys shape st o (by simpa using h)]

theorem step_mono (phys : Physics) (shape : Shape) (st : MState) (o : Orient)
    (o2 : Orient) : bsub (st.reach o2) ((MState.step phys shape st o).reach o2) := by
  by_cases h : st.dirty o
  · rw [step_eq phys shape st o h]
    show bsub _ ((((({ st with reach := _ } : MState).merge _ _).merge _ _).merge _ _).reach o2)
    refine bsub_trans ?_ (bsub_trans (merge_mono _ _ _ o2)
      (bsub_trans (merge_mono _ _ _ o2) (merge_mono _ _ _ o2)))
    show bsub (st.reach o2) (updFn st.reach o _ o2)
    rw [updFn]
    split
    · rename_i heq
      subst heq
      exact floodFill_subset _ _ _
    · exact bsub_refl _
  · rw [step_of_not_dirty phys shape st o (by simpa using h)]
    exact bsub_refl _

theorem step_reach_src (phys : Physics) (shape : Shape) (st : MState) (o : Orient)
    (h : st.dirty o = true) :
    (MState.step phys shape st o).reach o = floodFill 61 (st.reach o) (st.viab o) := by
  rw [step_eq phys shape st o h]
  show (((({ st with reach := _ } : MState).merge _ _).merge _ _).merge _ _).reach o = _
  rw [merge_reach_other _ _ _ o (Ne.symm (orient_facts o).2.2.1),
    merge_reach_other _ _ _ o (Ne.symm (orient_facts o).2.1),
    merge_reach_other _ _ _ o (Ne.symm (orient_facts o).1)]
  show updFn st.reach o _ o = _
  rw [updFn, if_pos rfl]

theorem step_dirty_src (phys : Physics) (shape : Shape) (st : MState) (o : Orient) :
    (MState.step phys shape st o).dirty o = false := by
  by_cases h : st.dirty o
  · rw [step_eq phys shape st o h]
    show updFn _ o false o = false
    rw [updFn, if_pos rfl]
  · rw [step_of_not_dirty phys shape st o (by simpa using h)]
    simpa using h

theorem step_dirty_mono (phys : Physics) (shape : Shape) (st : MState) (o o2 : Orient)
    (hne : o2 ≠ o) (h : st.dirty o2 = true) :
    (MState.step phys shape st o).dirty o2 = true := by
  by_cases hd : st.dirty o
  · rw [step_eq phys shape st o hd]
    show updFn (((({ st with reach := _ } : MState).merge _ _).merge _ _).merge _ _).dirty
      o false o2 = true
    rw [updFn, if_neg hne]
    have hmono : ∀ (s : MState) (t : Orient) (more : Nat),
        s.dirty o2 = true → (s.merge t more).dirty o2 = true := by
      intro s t more hs
      rw [MState.merge]
      split
      · exact hs
      · show updFn s.dirty t true o2 = true
        rw [updFn]
        split
        · rfl
        · exact hs
    exact hmono _ _ _ (hmono _ _ _ (hmono _ _ _ h))
  · rw [step_of_not_dirty phys shape st o (by simpa using hd)]
    exact h

theorem step_inv (phys : Physics) (shape : Shape) (st : MState) (o : Orient)
    (hinv : MInv st) : MInv (MState.step phys shape st o) := by
  by_cases h : st.dirty o
  · have hd : st.dirty o = true := h
    set kt := kicksFor phys shape with hkt
    set r := floodFill 61 (st.reach o) (st.viab o) with hr_def
    set m90 := doKicks (kickData (kt.cw o)) r (st.viab o.cw) with hm90
    set m180 := doKicks (kickData (kt.half o)) r (st.viab o.half) with hm180
    set m270 := doKicks (kickData (kt.ccw o)) r (st.viab o.ccw) with hm270
    set st1 : MState := { st with reach := updFn st.reach o r } with hst1
    set st2 := st1.merge o.cw m90 with hst2
    set st3 := st2.merge o.half m180 with hst3
    set st4 := st3.merge o.ccw m270 with hst4
    have hstep : MState.step phys shape st o = { st4 with dirty := updFn st4.dirty o false } := by
      rw [step_eq phys shape st o hd]
    have hreach : ∀ o2, (MState.step phys shape st o).reach o2 = st4.reach o2 := by
      intro o2
      rw [hstep]
    have hst1_lt : ∀ o2, st1.reach o2 < 2 ^ 60 := by
      intro o2
      show updFn st.reach o r o2 < 2 ^ 60
      rw [updFn]
      split
      · exact floodFill_lt _ _ _ (hinv o).2.1 (hinv o).1
      · exact (hinv o2).2.1
    intro o2
    obtain ⟨hv, hr, hs⟩ := hinv o2
    refine ⟨by rw [step_viab]; exact hv, ?_, ?_⟩
    · rw [hreach o2, hst4, hst3, hst2]
      refine merge_reach_lt _ _ _ _ (merge_reach_lt _ _ _ _ (merge_reach_lt _ _ _ _
        (hst1_lt o2) ?_) ?_) ?_
      · exact bsub_lt (doKicks_viab _ _ _) (hinv o.cw).1
      · exact bsub_lt (doKicks_viab _ _ _) (hinv o.half).1
      · exact bsub_lt (doKicks_viab _ _ _) (hinv o.ccw).1
    · intro p hp
      rw [step_viab]
      rw [hreach o2] at hp
      rcases merge_added st3 o.ccw m270 o2 p hp with hp2 | ⟨rfl, hk⟩
      · rcases merge_added st2 o.half m180 o2 p hp2 with hp3 | ⟨rfl, hk⟩
        · rcases merge_added st1 o.cw m90 o2 p hp3 with hp4 | ⟨rfl, hk⟩
          · revert hp4
            show (updFn st.reach o r o2).testBit p = true → _
            rw [updFn]
            split
            · rename_i heq
              rw [heq]
              exact fun hp => floodFill_viab 61 _ _ (hinv o).2.2 p hp
            · exact fun hp => hs p hp
          · exact doKicks_viab _ _ _ p hk
        · exact doKicks_viab _ _ _ p hk
      · exact doKicks_viab _ _ _ p hk
  · rw [step_of_not_dirty phys shape st o (by simpa using h)]
    exact hinv

theorem step_sound (phys : Physics) (shape : Shape) (st : MState) (o : Orient)
    (hinv : MInv st) (hsound : MSound (kicksFor phys shape) st.viab st) :
    MSound (kicksFor phys shape) st.viab (MState.step phys shape st o) := by
  by_cases h : st.dirty o
  · have hd : st.dirty o = true := h
    set kt := kicksFor phys shape with hkt
    set r := floodFill 61 (st.reach o) (st.viab o) with hr_def
    set m90 := doKicks (kickData (kt.cw o)) r (st.viab o.cw) with hm90
    set m180 := doKicks (kickData (kt.half o)) r (st.viab o.half) with hm180
    set m270 := doKicks (kickData (kt.ccw o)) r (st.viab o.ccw) with hm270
    set st1 : MState := { st with reach := updFn st.reach o r } with hst1
    set st2 := st1.merge o.cw m90 with hst2
    set st3 := st2.merge o.half m180 with hst3
    set st4 := st3.merge o.ccw m270 with hst4
    have hstep : MState.step phys shape st o
        = { st4 with dirty := updFn st4.dirty o false } := by
      rw [step_eq phys shape st o hd]
    have hr64 : r < 2 ^ 64 :=
      lt_trans (floodFill_lt _ _ _ (hinv o).2.1 (hinv o).1) (by norm_num)
    have hrsound : ∀ p, r.testBit p = true → Reach kt st.viab o p :=
      floodFill_sound 61 (hsound o)
    have hkick : ∀ (t : Orient) (kd : List (Int × Int)) (p : Nat),
        (doKicks (kickData kd) r (st.viab t)).testBit p = true →
        ∃ src, Reach kt st.viab o src ∧
          kickResult (kickData kd) src (st.viab t) = some p := by
      intro t kd p hp
      obtain ⟨src, _, hsrc, hkr⟩ :=
        (doKicks_testBit (kickData kd) (kickData_rot_lt kd) r (st.viab t) hr64 p).mp hp
      exact ⟨src, hrsound src hsrc, hkr⟩
    intro o2 p hp
    rw [hstep] at hp
    have hp4 : (st4.reach o2).testBit p = true := hp
    rcases merge_added st3 o.ccw m270 o2 p hp4 with hp2 | ⟨rfl, hk⟩
    · rcases merge_added st2 o.half m180 o2 p hp2 with hp3 | ⟨rfl, hk⟩
      · rcases merge_added st1 o.cw m90 o2 p hp3 with hp4 | ⟨rfl, hk⟩
        · revert hp4
          show (updFn st.reach o r o2).testBit p = true → _
          rw [updFn]
          split
          · rename_i heq
            rw [heq]
            exact fun hp => hrsound p hp
          · exact fun hp => hsound o2 p hp
        · obtain ⟨src, hsrc, hkr⟩ := hkick o.cw (kt.cw o) p hk
          exact Reach.cw o src p hsrc hkr
      · obtain ⟨src, hsrc, hkr⟩ := hkick o.half (kt.half o) p hk
        exact Reach.half o src p hsrc hkr
    · obtain ⟨src, hsrc, hkr⟩ := hkick o.ccw (kt.ccw o) p hk
      exact Reach.ccw o src p hsrc hkr
  · rw [step_of_not_dirty phys shape st o (by simpa using h)]
    exact hsound

theorem step_rest (phys : Physics) (shape : Shape) (st : MState) (o : Orient)
    (hinv : MInv st) (hrest : MRest (kicksFor phys shape) st) :
    MRest (kicksFor phys shape) (MState.step phys shape st o) := by
  by_cases h : st.dirty o
  · have hd : st.dirty o = true := h
    set kt := kicksFor phys shape with hkt
    set r := floodFill 61 (st.reach o) (st.viab o) with hr_def
    set m90 := doKicks (kickData (kt.cw o)) r (st.viab o.cw) with hm90
    set m180 := doKicks (kickData (kt.half o)) r (st.viab o.half) with hm180
    set m270 := doKicks (kickData (kt.ccw o)) r (st.viab o.ccw) with hm270
    set st1 : MState := { st with reach := updFn st.reach o r } with hst1
    set st2 := st1.merge o.cw m90 with hst2
    set st3 := st2.merge o.half m180 with hst3
    set st4 := st3.merge o.ccw m270 with hst4
    have hstep : MState.step phys shape st o
        = { st4 with dirty := updFn st4.dirty o false } := by
      rw [step_eq phys shape st o hd]
    have hsrcreach : (MState.step phys shape st o).reach o = r := step_reach_src phys shape st o hd
    have hsviab : (MState.step phys shape st o).viab = st.viab := step_viab phys shape st o
    intro o2 h2
    rw [hstep] at h2
    have h2' : updFn st4.dirty o false o2 = false := h2
    by_cases ho2 : o2 = o
    · rw [ho2, hsviab, hsrcreach]
      refine ⟨floodFill_fixed _ _ (hinv o).2.1 (hinv o).1, ?_, ?_, ?_⟩
      · have hsub : bsub m90 (st4.reach o.cw) :=
          bsub_trans (merge_more_sub st1 o.cw m90)
            (bsub_trans (merge_mono st2 o.half m180 o.cw) (merge_mono st3 o.ccw m270 o.cw))
        intro p hp
        rw [hstep]
        exact hsub p hp
      · have hsub : bsub m180 (st4.reach o.half) :=
          bsub_trans (merge_more_sub st2 o.half m180) (merge_mono st3 o.ccw m270 o.half)
        intro p hp
        rw [hstep]
        exact hsub p hp
      · have hsub : bsub m270 (st4.reach o.ccw) := merge_more_sub st3 o.ccw m270
        intro p hp
        rw [hstep]
        exact hsub p hp
    · rw [updFn, if_neg ho2] at h2'
      obtain ⟨h3d, h3r⟩ := merge_clean st3 o.ccw m270 o2 h2'
      obtain ⟨h2d, h2r⟩ := merge_clean st2 o.half m180 o2 h3d
      obtain ⟨h1d, h1r⟩ := merge_clean st1 o.cw m90 o2 h2d
      have h0d : st.dirty o2 = false := h1d
      have h0r : st1.reach o2 = st.reach o2 := by
        show updFn st.reach o r o2 = _
        rw [updFn, if_neg ho2]
      have hchain : (MState.step phys shape st o).reach o2 = st.reach o2 := by
        rw [hstep]
        show st4.reach o2 = _
        rw [h3r, h2r, h1r, h0r]
      obtain ⟨hfix, hcw, hhalf, hccw⟩ := hrest o2 h0d
      rw [hsviab, hchain]
      refine ⟨hfix, ?_, ?_, ?_⟩
      · exact bsub_trans hcw (step_mono phys shape st o o2.cw)
      · exact bsub_trans hhalf (step_mono phys shape st o o2.half)
      · exact bsub_trans hccw (step_mono phys shape st o o2.ccw)
  · rw [step_of_not_dirty phys shape st o (by simpa using h)]
    exact hrest

theorem step_oTerm (phys : Physics) (shape : Shape) (st : MState) (o : Orient)
    (hinv : MInv st) (o2 : Orient) :
    oTerm (MState.step phys shape st o) o2 ≤ oTerm st o2 := by
  by_cases h : st.dirty o
  · have hd : st.dirty o = true := h
    set kt := kicksFor phys shape with hkt
    set r := floodFill 61 (st.reach o) (st.viab o) with hr_def
    set m90 := doKicks (kickData (kt.cw o)) r (st.viab o.cw) with hm90
    set m180 := doKicks (kickData (kt.half o)) r (st.viab o.half) with hm180
    set m270 := doKicks (kickData (kt.ccw o)) r (st.viab o.ccw) with hm270
    set st1 : MState := { st with reach := updFn st.reach o r } with hst1
    set st2 := st1.merge o.cw m90 with hst2
    set st3 := st2.merge o.half m180 with hst3
    set st4 := st3.merge o.ccw m270 with hst4
    have hstep : MState.step phys shape st o
        = { st4 with dirty := updFn st4.dirty o false } := by
      rw [step_eq phys shape st o hd]
    have hrlt : r < 2 ^ 60 := floodFill_lt _ _ _ (hinv o).2.1 (hinv o).1
    have h90 : m90 < 2 ^ 60 := bsub_lt (doKicks_viab _ _ _) (hinv o.cw).1
    have h180 : m180 < 2 ^ 60 := bsub_lt (doKicks_viab _ _ _) (hinv o.half).1
    have h270 : m270 < 2 ^ 60 := bsub_lt (doKicks_viab _ _ _) (hinv o.ccw).1
    have hst1lt : ∀ t, st1.reach t < 2 ^ 60 := by
      intro t
      show updFn st.reach o r t < 2 ^ 60
      rw [updFn]
      split
      · exact hrlt
      · exact (hinv t).2.1
    have hst2lt : ∀ t, st2.reach t < 2 ^ 60 := fun t =>
      merge_reach_lt st1 o.cw m90 t (hst1lt t) h90
    have hst3lt : ∀ t, st3.reach t < 2 ^ 60 := fun t =>
      merge_reach_lt st2 o.half m180 t (hst2lt t) h180
    have h1 : oTerm st1 o2 ≤ oTerm st o2 := by
      by_cases ho2 : o2 = o
      · rw [ho2]
        have hbc : bitCard (st.reach o) ≤ bitCard r := by
          rw [hr_def]
          exact bitCard_mono (floodFill_subset 61 (st.reach o) (st.viab o))
        have hle : 60 - bitCard r ≤ 60 - bitCard (st.reach o) := by omega
        have hreach1 : st1.reach o = r := by
          show updFn st.reach o r o = r
          rw [updFn, if_pos rfl]
        show 5 * (60 - bitCard (st1.reach o)) + (if st.dirty o then 1 else 0)
          ≤ 5 * (60 - bitCard (st.reach o)) + (if st.dirty o then 1 else 0)
        rw [hreach1]
        exact Nat.add_le_add_right (Nat.mul_le_mul_left 5 hle) _
      · have hreach1 : st1.reach o2 = st.reach o2 := by
          show updFn st.reach o r o2 = _
          rw [updFn, if_neg ho2]
        show 5 * (60 - bitCard (st1.reach o2)) + (if st.dirty o2 then 1 else 0)
          ≤ 5 * (60 - bitCard (st.reach o2)) + (if st.dirty o2 then 1 else 0)
        rw [hreach1]
    have h2 : oTerm st2 o2 ≤ oTerm st1 o2 := merge_oTerm st1 o.cw m90 o2 (hst1lt o.cw) h90
    have h3 : oTerm st3 o2 ≤ oTerm st2 o2 := merge_oTerm st2 o.half m180 o2 (hst2lt o.half) h180
    have h4 : oTerm st4 o2 ≤ oTerm st3 o2 := merge_oTerm st3 o.ccw m270 o2 (hst3lt o.ccw) h270
    have h5 : oTerm (MState.step phys shape st o) o2 ≤ oTerm st4 o2 := by
      rw [hstep]
      by_cases ho2 : o2 = o
      · rw [ho2]
        show 5 * (60 - bitCard (st4.reach o)) + (if updFn st4.dirty o false o then 1 else 0)
          ≤ oTerm st4 o
        rw [updFn, if_pos rfl]
        show 5 * (60 - bitCard (st4.reach o))
          ≤ 5 * (60 - bitCard (st4.reach o)) + (if st4.dirty o then 1 else 0)
        exact Nat.le_add_right _ _
      · show 5 * (60 - bitCard (st4.reach o2)) + (if updFn st4.dirty o false o2 then 1 else 0)
          ≤ oTerm st4 o2
        rw [updFn, if_neg ho2]
        exact le_refl _
    omega
  · rw [step_of_not_dirty phys shape st o (by simpa using h)]

theorem step_measure_lt (phys : Physics) (shape : Shape) (st : MState) (o : Orient)
    (hinv : MInv st) (hd : st.dirty o = true) :
    mMeasure (MState.step phys shape st o) < mMeasure st := by
  have hmono := bitCard_mono (step_mono phys shape st o o)
  have hds := step_dirty_src phys shape st o
  have h1 : oTerm (MState.step phys shape st o) o
      = 5 * (60 - bitCard ((MState.step phys shape st o).reach o)) := by
    simp only [oTerm, hds]
    simp
  have h2 : oTerm st o = 5 * (60 - bitCard (st.reach o)) + 1 := by
    simp only [oTerm, hd]
    simp
  have hlt : oTerm (MState.step phys shape st o) o < oTerm st o := by omega
  have hN := step_oTerm phys shape st o hinv .North
  have hE := step_oTerm phys shape st o hinv .East
  have hS := step_oTerm phys shape st o hinv .South
  have hW := step_oTerm phys shape st o hinv .West
  simp only [mMeasure]
  cases o <;> omega

theorem step_measure_le (phys : Physics) (shape : Shape) (st : MState) (o : Orient)
    (hinv : MInv st) :
    mMeasure (MState.step phys shape st o) ≤ mMeasure st := by
  have hN := step_oTerm phys shape st o hinv .North
  have hE := step_oTerm phys shape st o hinv .East
  have hS := step_oTerm phys shape st o hinv .South
  have hW := step_oTerm phys shape st o hinv .West
  simp only [mMeasure]
  omega

theorem pass_viab (phys : Physics) (shape : Shape) (st : MState) :
    (MState.pass phys shape st).viab = st.viab := by
  simp only [MState.pass]
  rw [step_viab, step_viab, step_viab, step_viab]

theorem pass_inv (phys : Physics) (shape : Shape) (st : MState) (hinv : MInv st) :
    MInv (MState.pass phys shape st) := by
  simp only [MState.pass]
  exact step_inv phys shape _ .West (step_inv phys shape _ .South
    (step_inv phys shape _ .East (step_inv phys shape st .North hinv)))

theorem pass_mono (phys : Physics) (shape : Shape) (st : MState) (o2 : Orient) :
    bsub (st.reach o2) ((MState.pass phys shape st).reach o2) := by
  simp only [MState.pass]
  exact bsub_trans (step_mono phys shape st .North o2)
    (bsub_trans (step_mono phys shape _ .East o2)
      (bsub_trans (step_mono phys shape _ .South o2) (step_mono phys shape _ .West o2)))

theorem pass_sound (phys : Physics) (shape : Shape) (st : MState) (hinv : MInv st)
    (hsound : MSound (kicksFor phys shape) st.viab st) :
    MSound (kicksFor phys shape) st.viab (MState.pass phys shape st) := by
  have hinv1 := step_inv phys shape st .North hinv
  have hv1 := step_viab phys shape st .North
  have h1 := step_sound phys shape st .North hinv hsound
  have hinv2 := step_inv phys shape (MState.step phys shape st .North) .East hinv1
  have hv2 := step_viab phys shape (MState.step phys shape st .North) .East
  have h2 := step_sound phys shape (MState.step phys shape st .North) .East hinv1
    (by rw [hv1]; exact h1)
  rw [hv1] at h2 hv2
  have hinv3 := step_inv phys shape
    (MState.step phys shape (MState.step phys shape st .North) .East) .South hinv2
  have hv3 := step_viab phys shape
    (MState.step phys shape (MState.step phys shape st .North) .East) .South
  have h3 := step_sound phys shape
    (MState.step phys shape (MState.step phys shape st .North) .East) .South hinv2
    (by rw [hv2]; exact h2)
  rw [hv2] at h3 hv3
  have h4 := step_sound phys shape
    (MState.step phys shape (MState.step phys shape
      (MState.step phys shape st .North) .East) .South) .West hinv3
    (by rw [hv3]; exact h3)
  rw [hv3] at h4
  exact h4

theorem pass_rest (phys : Physics) (shape : Shape) (st : MState) (hinv : MInv st)
    (hrest : MRest (kicksFor phys shape) st) :
    MRest (kicksFor phys shape) (MState.pass phys shape st) := by
  have hinv1 := step_inv phys shape st .North hinv
  have hinv2 := step_inv phys shape _ .East hinv1
  have hinv3 := step_inv phys shape _ .South hinv2
  exact step_rest phys shape _ .West hinv3 (step_rest phys shape _ .South hinv2
    (step_rest phys shape _ .East hinv1 (step_rest phys shape st .North hinv hrest)))

theorem pass_measure_le (phys : Physics) (shape : Shape) (st : MState) (hinv : MInv st) :
    mMeasure (MState.pass phys shape st) ≤ mMeasure st := by
  simp only [MState.pass]
  have hinv1 := step_inv phys shape st .North hinv
  have hinv2 := step_inv phys shape _ .East hinv1
  have hinv3 := step_inv phys shape _ .South hinv2
  have h1 := step_measure_le phys shape st .North hinv
  have h2 := step_measure_le phys shape _ .East hinv1
  have h3 := step_measure_le phys shape _ .South hinv2
  have h4 := step_measure_le phys shape _ .West hinv3
  omega

theorem pass_measure_lt (phys : Physics) (shape : Shape) (st : MState) (hinv : MInv st)
    (hany : st.anyDirty = true) :
    mMeasure (MState.pass phys shape st) < mMeasure st := by
  simp only [MState.pass]
  by_cases hdN : st.dirty .North = true
  · have h1 := step_measure_lt phys shape st .North hinv hdN
    have hinv1 := step_inv phys shape st .North hinv
    have hinv2 := step_inv phys shape _ .East hinv1
    have hinv3 := step_inv phys shape _ .South hinv2
    have h2 := step_measure_le phys shape _ .East hinv1
    have h3 := step_measure_le phys shape _ .South hinv2
    have h4 := step_measure_le phys shape _ .West hinv3
    omega
  · rw [step_of_not_dirty phys shape st .North (by simpa using hdN)]
    by_cases hdE : st.dirty .East = true
    · have h1 := step_measure_lt phys shape st .East hinv hdE
      have hinv1 := step_inv phys shape st .East hinv
      have hinv2 := step_inv phys shape _ .South hinv1
      have h2 := step_measure_le phys shape _ .South hinv1
      have h3 := step_measure_le phys shape _ .West hinv2
      omega
    · rw [step_of_not_dirty phys shape st .East (by simpa using hdE)]
      by_cases hdS : st.dirty .South = true
      · have h1 := step_measure_lt phys shape st .South hinv hdS
        have hinv1 := step_inv phys shape st .South hinv
        have h2 := step_measure_le phys shape _ .West hinv1
        omega
      · rw [step_of_not_dirty phys shape st .South (by simpa using hdS)]
        by_cases hdW : st.dirty .West = true
        · exact step_measure_lt phys shape st .West hinv hdW
        · exfalso
          have hN : st.dirty .North = false := by simpa using hdN
          have hE : st.dirty .East = false := by simpa using hdE
          have hS : st.dirty .South = false := by simpa using hdS
          have hW : st.dirty .West = false := by simpa using hdW
          simp only [MState.anyDirty] at hany
          rw [hN, hE, hS, hW] at hany
          simp at hany

theorem run_viab (phys : Physics) (shape : Shape) :
    ∀ (fuel : Nat) (st : MState), (runMachine phys shape fuel st).viab = st.viab := by
  intro fuel
  induction fuel with
  | zero => intro st; rfl
  | succ fuel ih =>
    intro st
    rw [runMachine]
    split
    · rw [ih, pass_viab]
    · rfl

theorem run_inv (phys : Physics) (shape : Shape) :
    ∀ (fuel : Nat) (st : MState), MInv st → MInv (runMachine phys shape fuel st) := by
  intro fuel
  induction fuel with
  | zero => intro st h; exact h
  | succ fuel ih =>
    intro st h
    rw [runMachine]
    split
    · exact ih _ (pass_inv phys shape st h)
    · exact h

theorem run_mono (phys : Physics) (shape : Shape) :
    ∀ (fuel : Nat) (st : MState) (o2 : Orient),
      bsub (st.reach o2) ((runMachine phys shape fuel st).reach o2) := by
  intro fuel
  induction fuel with
  | zero => intro st o2; exact bsub_refl _
  | succ fuel ih =>
    intro st o2
    rw [runMachine]
    split
    · exact bsub_trans (pass_mono phys shape st o2) (ih _ o2)
    · exact bsub_refl _

theorem run_sound (phys : Physics) (shape : Shape) :
    ∀ (fuel : Nat) (st : MState), MInv st →
      MSound (kicksFor phys shape) st.viab st →
      MSound (kicksFor phys shape) st.viab (runMachine phys shape fuel st) := by
  intro fuel
  induction fuel with
  | zero => intro st _ h; exact h
  | succ fuel ih =>
    intro st hinv h
    rw [runMachine]
    split
    · have := ih (MState.pass phys shape st) (pass_inv phys shape st hinv)
        (by rw [pass_viab]; exact pass_sound phys shape st hinv h)
      rw [pass_viab] at this
      exact this
    · exact h

theorem run_rest (phys : Physics) (shape : Shape) :
    ∀ (fuel : Nat) (st : MState), MInv st →
      MRest (kicksFor phys shape) st →
      MRest (kicksFor phys shape) (runMachine phys shape fuel st) := by
  intro fuel
  induction fuel with
  | zero => intro st _ h; exact h
  | succ fuel ih =>
    intro st hinv h
    rw [runMachine]
    split
    · exact ih _ (pass_inv phys shape st hinv) (pass_rest phys shape st hinv h)
    · exact h

theorem run_clean (phys : Physics) (shape : Shape) :
    ∀ (fuel : Nat) (st : MState), MInv st → mMeasure st < fuel →
      (runMachine phys shape fuel st).anyDirty = false := by
  intro fuel
  induction fuel with
  | zero => intro st _ h; omega
  | succ fuel ih =>
    intro st hinv hlt
    rw [runMachine]
    split
    · rename_i hany
      have := pass_measure_lt phys shape st hinv hany
      exact ih _ (pass_inv phys shape st hinv) (by omega)
    · rename_i hany
      simpa using hany

theorem testBit_true_lt {x n i : Nat} (hx : x < 2 ^ n) (h : x.testBit i = true) : i < n := by
  rcases Nat.lt_or_ge i n with h' | h'
  · exact h'
  · have : x.testBit i = false :=
      Nat.testBit_eq_false_of_lt
        (lt_of_lt_of_le hx (Nat.pow_le_pow_right (by norm_num) h'))
    rw [this] at h
    exact absurd h (by simp)

theorem orLeft_mono {a b : Nat} (v : Nat) (h : bsub a b) :
    bsub (orLeft a v) (orLeft b v) := by
  intro p hp
  simp only [orLeft, Nat.testBit_or, Nat.testBit_and, Nat.testBit_shiftRight,
    Bool.or_eq_true, Bool.and_eq_true] at hp ⊢
  rcases hp with hp | ⟨⟨hp, hl⟩, hv⟩
  · exact Or.inl (h p hp)
  · exact Or.inr ⟨⟨h _ hp, hl⟩, hv⟩

theorem orRight_mono {a b : Nat} (v : Nat) (h : bsub a b) :
    bsub (orRight a v) (orRight b v) := by
  intro p hp
  simp only [orRight, Nat.testBit_or, Nat.testBit_and, Bool.or_eq_true,
    Bool.and_eq_true, testBit_shl1_mod] at hp ⊢
  rcases hp with hp | ⟨⟨⟨⟨h64, h1⟩, hp⟩, hr⟩, hv⟩
  · exact Or.inl (h p hp)
  · exact Or.inr ⟨⟨⟨⟨h64, h1⟩, h _ hp⟩, hr⟩, hv⟩

theorem orDown_fixed_step {x v : Nat} (hfix : orDown x v = x) {p : Nat}
    (hup : x.testBit (p + 10) = true) (hv : v.testBit p = true) :
    x.testBit p = true := by
  have h := congrArg (fun y => y.testBit p) hfix
  simp only [orDown, Nat.testBit_or, Nat.testBit_and, Nat.testBit_shiftRight] at h
  have hup' : x.testBit (10 + p) = true := by rwa [Nat.add_comm]
  cases hx : x.testBit p
  · rw [hx, hup', hv] at h
    simp at h
  · rfl

theorem orLeft_fixed_step {x v : Nat} (hfix : orLeft x v = x) {p : Nat}
    (hup : x.testBit (p + 1) = true) (hl : LEFT50.testBit p = true)
    (hv : v.testBit p = true) : x.testBit p = true := by
  have h := congrArg (fun y => y.testBit p) hfix
  simp only [orLeft, Nat.testBit_or, Nat.testBit_and, Nat.testBit_shiftRight] at h
  have hup' : x.testBit (1 + p) = true := by rwa [Nat.add_comm]
  cases hx : x.testBit p
  · rw [hx, hup', hl, hv] at h
    simp at h
  · rfl

theorem orRight_fixed_step {x v : Nat} (hfix : orRight x v = x) {p : Nat}
    (h64 : p + 1 < 64) (hp : x.testBit p = true)
    (hr : RIGHT50.testBit (p + 1) = true) (hv : v.testBit (p + 1) = true) :
    x.testBit (p + 1) = true := by
  have h := congrArg (fun y => y.testBit (p + 1)) hfix
  simp only [orRight, Nat.testBit_or, Nat.testBit_and, testBit_shl1_mod] at h
  cases hx : x.testBit (p + 1)
  · rw [hx, hr, hv, show p + 1 - 1 = p from by omega, hp,
      decide_eq_true h64, decide_eq_true (show 1 ≤ p + 1 from by omega)] at h
    simp at h
  · rfl

theorem floodStep_fixed_parts {x v : Nat} (h : floodStep x v = x) :
    orDown x v = x ∧ orLeft x v = x ∧ orRight x v = x := by
  have hDsub : bsub (orDown x v) x := by
    intro p hp
    rw [← h]
    exact (orRight_subset _ v) p ((orLeft_subset _ v) p hp)
  have hLsub : bsub (orLeft x v) x := by
    intro p hp
    rw [← h]
    exact (orRight_subset _ v) p (orLeft_mono v (orDown_subset x v) p hp)
  have hRsub : bsub (orRight x v) x := by
    intro p hp
    rw [← h]
    exact orRight_mono v
      (bsub_trans (orDown_subset x v) (orLeft_subset (orDown x v) v)) p hp
  exact ⟨bsub_antisymm hDsub (orDown_subset x v),
    bsub_antisymm hLsub (orLeft_subset x v),
    bsub_antisymm hRsub (orRight_subset x v)⟩

theorem anyDirty_all_false (st : MState) (h : st.anyDirty = false) :
    ∀ o, st.dirty o = false := by
  simp only [MState.anyDirty, Bool.or_eq_false_iff] at h
  obtain ⟨⟨⟨hN, hE⟩, hS⟩, hW⟩ := h
  intro o
  cases o
  · exact hN
  · exact hE
  · exact hS
  · exact hW

theorem rest_complete (kt : KickTable) (viabF : Orient → Nat) (st : MState)
    (hviab : ∀ o, st.viab o = viabF o) (hinv : MInv st) (hrest : MRest kt st)
    (hclean : ∀ o, st.dirty o = false)
    (hspawn : ∀ o, bsub (SPAWN &&& viabF o) (st.reach o)) :
    ∀ o p, Reach kt viabF o p → (st.reach o).testBit p = true := by
  have hv60 : ∀ o, viabF o < 2 ^ 60 := fun o => hviab o ▸ (hinv o).1
  have hr64 : ∀ o, st.reach o < 2 ^ 64 :=
    fun o => lt_trans (hinv o).2.1 (by norm_num)
  intro o p h
  induction h with
  | spawn o p hp => exact hspawn o p hp
  | down o p _ hv ih =>
    obtain ⟨hD, _, _⟩ := floodStep_fixed_parts (hrest o (hclean o)).1
    exact orDown_fixed_step hD ih (by rw [hviab o]; exact hv)
  | left o p _ hl hv ih =>
    obtain ⟨_, hL, _⟩ := floodStep_fixed_parts (hrest o (hclean o)).1
    exact orLeft_fixed_step hL ih hl (by rw [hviab o]; exact hv)
  | right o p _ hr hv ih =>
    obtain ⟨_, _, hR⟩ := floodStep_fixed_parts (hrest o (hclean o)).1
    have h64 : p + 1 < 64 := by
      have := testBit_true_lt (hv60 o) hv
      omega
    exact orRight_fixed_step hR h64 ih hr (by rw [hviab o]; exact hv)
  | cw o p q _ hk ih =>
    have hdo : (doKicks (kickData (kt.cw o)) (st.reach o) (st.viab o.cw)).testBit q
        = true := by
      refine (doKicks_testBit _ (kickData_rot_lt _) (st.reach o) (st.viab o.cw)
        (hr64 o) q).mpr ⟨p, ?_, ih, ?_⟩
      · exact lt_trans (testBit_true_lt (hinv o).2.1 ih) (by norm_num)
      · rw [hviab o.cw]
        exact hk
    exact (hrest o (hclean o)).2.1 q hdo
  | half o p q _ hk ih =>
    have hdo : (doKicks (kickData (kt.half o)) (st.reach o) (st.viab o.half)).testBit q
        = true := by
      refine (doKicks_testBit _ (kickData_rot_lt _) (st.reach o) (st.viab o.half)
        (hr64 o) q).mpr ⟨p, ?_, ih, ?_⟩
      · exact lt_trans (testBit_true_lt (hinv o).2.1 ih) (by norm_num)
      · rw [hviab o.half]
        exact hk
    exact (hrest o (hclean o)).2.2.1 q hdo
  | ccw o p q _ hk ih =>
    have hdo : (doKicks (kickData (kt.ccw o)) (st.reach o) (st.viab o.ccw)).testBit q
        = true := by
      refine (doKicks_testBit _ (kickData_rot_lt _) (st.reach o) (st.viab o.ccw)
        (hr64 o) q).mpr ⟨p, ?_, ih, ?_⟩
      · exact lt_trans (testBit_true_lt (hinv o).2.1 ih) (by norm_num)
      · rw [hviab o.ccw]
        exact hk
    exact (hrest o (hclean o)).2.2.2 q hdo

theorem testBit_shl_mod (b k j : Nat) :
    ((b <<< k) % 2 ^ 64).testBit j
      = (decide (j < 64) && decide (k ≤ j) && b.testBit (j - k)) := by
  rw [Nat.testBit_mod_two_pow, Nat.testBit_shiftLeft, Bool.and_assoc]

theorem bsub_and_left (x y : Nat) : bsub (x &&& y) x := by
  intro p hp
  rw [Nat.testBit_and] at hp
  exact (Bool.and_eq_true _ _).mp hp |>.1

theorem bsub_and_right (x y : Nat) : bsub (x &&& y) y := by
  intro p hp
  rw [Nat.testBit_and] at hp
  exact (Bool.and_eq_true _ _).mp hp |>.2

theorem foldl_and_sub (l : List (Nat × Nat)) :
    ∀ acc : Nat,
      bsub (l.foldl (fun acc m => acc &&& (FULL10 >>> m.1)) acc) acc := by
  induction l with
  | nil => intro acc; exact bsub_refl _
  | cons m rest ih =>
    intro acc
    exact bsub_trans (ih (acc &&& (FULL10 >>> m.1))) (bsub_and_left _ _)

theorem replicateRow_lt {row : Nat} (h : row < 2 ^ 10) :
    replicateRow row < 2 ^ 60 := by
  refine Nat.lt_pow_two_of_testBit _ fun i hi => ?_
  have hrow : ∀ j, 10 ≤ j → row.testBit j = false := fun j hj =>
    Nat.testBit_eq_false_of_lt
      (lt_of_lt_of_le h (Nat.pow_le_pow_right (by norm_num) hj))
  have hf : ∀ k, k + 10 ≤ 60 → (row <<< k).testBit i = false := by
    intro k hk
    rw [Nat.testBit_shiftLeft]
    rcases Nat.lt_or_ge i k with h' | h'
    · simp [show ¬(k ≤ i) from by omega]
    · simp [hrow (i - k) (by omega)]
  simp only [replicateRow, Nat.testBit_or, Bool.or_eq_false_iff]
  exact ⟨⟨⟨⟨⟨hrow i (by omega), hf 10 (by omega)⟩, hf 20 (by omega)⟩,
    hf 30 (by omega)⟩, hf 40 (by omega)⟩, hf 50 (by omega)⟩

theorem viable_lt (s : Shape) (o : Orient) (b : Nat) :
    (COLLISION s o).viable b < 2 ^ 60 := by
  have hmask : (COLLISION s o).mask < 2 ^ 60 := by
    show replicateRow _ < 2 ^ 60
    exact replicateRow_lt
      (bsub_lt (foldl_and_sub (COLLISION_MINOES s o) FULL10)
        (by norm_num [FULL10]))
  exact bsub_lt (bsub_and_right _ _) hmask

theorem initState_inv (b : Nat) (s : Shape) : MInv (initState b s) := by
  intro o
  refine ⟨viable_lt s o b, ?_, ?_⟩
  · exact bsub_lt (bsub_and_right SPAWN _) (viable_lt s o b)
  · exact bsub_and_right SPAWN _

theorem initState_sound (b : Nat) (s : Shape) (kt : KickTable) :
    MSound kt (initState b s).viab (initState b s) := by
  intro o p hp
  exact Reach.spawn o p hp

theorem initState_rest (b : Nat) (s : Shape) (kt : KickTable) :
    MRest kt (initState b s) := by
  intro o h
  exact absurd h (by simp [initState])

theorem oTerm_le (st : MState) (o : Orient) : oTerm st o ≤ 301 := by
  have := bitCard_le (st.reach o)
  simp only [oTerm]
  split <;> omega

theorem mMeasure_le (st : MState) : mMeasure st ≤ 1204 := by
  have h1 := oTerm_le st .North
  have h2 := oTerm_le st .East
  have h3 := oTerm_le st .South
  have h4 := oTerm_le st .West
  simp only [mMeasure]
  omega

theorem final_reach_iff (b : Nat) (shape : Shape) (phys : Physics) (o : Orient)
    (p : Nat) :
    ((runMachine phys shape 1300 (initState b shape)).reach o).testBit p = true ↔
      Reach (kicksFor phys shape) (fun o2 => (COLLISION shape o2).viable b) o p := by
  have hinv0 : MInv (initState b shape) := initState_inv b shape
  have hinvf : MInv (runMachine phys shape 1300 (initState b shape)) :=
    run_inv phys shape 1300 _ hinv0
  have hviab' : ∀ o2, (runMachine phys shape 1300 (initState b shape)).viab o2
      = (COLLISION shape o2).viable b := by
    intro o2
    rw [run_viab phys shape 1300 (initState b shape)]
    rfl
  have hclean : ∀ o2,
      (runMachine phys shape 1300 (initState b shape)).dirty o2 = false :=
    anyDirty_all_false _ (run_clean phys shape 1300 _ hinv0
      (by have := mMeasure_le (initState b shape); omega))
  have hrestf : MRest (kicksFor phys shape)
      (runMachine phys shape 1300 (initState b shape)) :=
    run_rest phys shape 1300 _ hinv0 (initState_rest b shape _)
  have hsoundf : MSound (kicksFor phys shape) (initState b shape).viab
      (runMachine phys shape 1300 (initState b shape)) :=
    run_sound phys shape 1300 _ hinv0 (initState_sound b shape _)
  have hspawnf : ∀ o2, bsub (SPAWN &&& (COLLISION shape o2).viable b)
      ((runMachine phys shape 1300 (initState b shape)).reach o2) :=
    fun o2 p hp => run_mono phys shape 1300 (initState b shape) o2 p hp
  constructor
  · intro h
    exact hsoundf o p h
  · intro h
    exact rest_complete (kicksFor phys shape) _ _ hviab' hinvf hrestf hclean
      hspawnf o p h

theorem Reach_table_mono {kt1 kt2 : KickTable} (viabF : Orient → Nat)
    (hcw : ∀ o, kt1.cw o = kt2.cw o) (hccw : ∀ o, kt1.ccw o = kt2.ccw o)
    (hhalf : ∀ o, kt1.half o = []) :
    ∀ o p, Reach kt1 viabF o p → Reach kt2 viabF o p := by
  intro o p h
  induction h with
  | spawn o p hp => exact Reach.spawn o p hp
  | down o p _ hv ih => exact Reach.down o p ih hv
  | left o p _ hl hv ih => exact Reach.left o p ih hl hv
  | right o p _ hr hv ih => exact Reach.right o p ih hr hv
  | cw o p q _ hk ih => exact Reach.cw o p q ih (by rw [← hcw o]; exact hk)
  | half o p q _ hk ih =>
    rw [hhalf o] at hk
    exact absurd hk (by simp [kickData, kickResult])
  | ccw o p q _ hk ih => exact Reach.ccw o p q ih (by rw [← hccw o]; exact hk)

theorem srs_jstris_tables (shape : Shape) :
    (∀ o, (kicksFor .SRS shape).cw o = (kicksFor .Jstris shape).cw o) ∧
    (∀ o, (kicksFor .SRS shape).ccw o = (kicksFor .Jstris shape).ccw o) ∧
    (∀ o, (kicksFor .SRS shape).half o = []) := by
  cases shape <;>
    exact ⟨fun o => by cases o <;> rfl, fun o => by cases o <;> rfl,
      fun o => by cases o <;> rfl⟩

theorem srs_tetrio_tables (shape : Shape) (hI : shape ≠ .I) :
    (∀ o, (kicksFor .SRS shape).cw o = (kicksFor .Tetrio shape).cw o) ∧
    (∀ o, (kicksFor .SRS shape).ccw o = (kicksFor .Tetrio shape).ccw o) ∧
    (∀ o, (kicksFor .SRS shape).half o = []) := by
  cases shape
  · exact absurd rfl hI
  all_goals
    exact ⟨fun o => by cases o <;> rfl, fun o => by cases o <;> rfl,
      fun o => by cases o <;> rfl⟩

theorem placeable_tb (c : Collision) (r : Nat) (p : Nat) :
    (c.placeable r).testBit p =
      (decide (c.placeableShift + p < 64) && r.testBit p
        && !(decide (10 ≤ p) && r.testBit (p - 10))) := by
  simp only [Collision.placeable]
  rw [Nat.testBit_shiftRight, testBit_shl_mod,
    show c.placeableShift + p - c.placeableShift = p from by omega,
    decide_eq_true (Nat.le_add_right c.placeableShift p)]
  by_cases hsp : c.placeableShift + p < 64
  · have hp64 : p < 64 := by omega
    rw [decide_eq_true hsp, Nat.testBit_and, Nat.testBit_xor, testBit_shl_mod,
      Nat.testBit_two_pow_sub_one, decide_eq_true hp64]
    generalize r.testBit p = B
    generalize decide (10 ≤ p) = C
    generalize r.testBit (p - 10) = D
    revert B C D
    decide
  · rw [decide_eq_false hsp]
    simp

theorem placeable_mono (c : Collision) (v r1 r2 : Nat) (hsub : bsub r1 r2)
    (hfix : orDown r1 v = r1) (hv2 : bsub r2 v) :
    bsub (c.placeable r1) (c.placeable r2) := by
  intro p hp
  rw [placeable_tb] at hp ⊢
  obtain ⟨hAB, hN⟩ := (Bool.and_eq_true _ _).mp hp
  obtain ⟨hA, hB⟩ := (Bool.and_eq_true _ _).mp hAB
  by_cases h10 : 10 ≤ p
  · have hd : r2.testBit (p - 10) = false := by
      cases hx : r2.testBit (p - 10)
      · rfl
      · exfalso
        have hv' : v.testBit (p - 10) = true := hv2 _ hx
        have hup : r1.testBit (p - 10 + 10) = true := by
          rw [show p - 10 + 10 = p from by omega]
          exact hB
        have hr1 := orDown_fixed_step hfix hup hv'
        rw [decide_eq_true h10, hr1] at hN
        simp at hN
    rw [hA, hsub p hB, decide_eq_true h10, hd]
    rfl
  · rw [hA, hsub p hB, decide_eq_false h10]
    rfl

theorem pairs_mono (pl1 pl2 : Placements) (hs : pl1.shape = pl2.shape)
    (hb : pl1.board = pl2.board)
    (hpos : ∀ o, bsub (pl1.pos o) (pl2.pos o)) : pl1.pairs ⊆ pl2.pairs := by
  rintro x ⟨o, cell, htb, rfl⟩
  exact ⟨o, cell, hpos o cell htb, by rw [hs, hb]⟩

theorem place_shape (b : Nat) (shape : Shape) (phys : Physics) :
    (place b shape phys).shape = shape := by
  rw [place]
  split <;> rfl

theorem place_board (b : Nat) (shape : Shape) (phys : Physics) :
    (place b shape phys).board = b := by
  rw [place]
  split <;> rfl

theorem place_pos (b : Nat) (shape : Shape) (phys : Physics) (hO : shape ≠ .O)
    (o : Orient) :
    (place b shape phys).pos o = (COLLISION shape o).placeable
      ((runMachine phys shape 1300 (initState b shape)).reach o) := by
  rw [place, if_neg hO]

theorem final_orDown_fixed (b : Nat) (shape : Shape) (phys : Physics) (o : Orient) :
    orDown ((runMachine phys shape 1300 (initState b shape)).reach o)
        ((COLLISION shape o).viable b)
      = (runMachine phys shape 1300 (initState b shape)).reach o := by
  have hinv0 := initState_inv b shape
  have hclean := anyDirty_all_false _ (run_clean phys shape 1300 (initState b shape)
    hinv0 (by have := mMeasure_le (initState b shape); omega))
  have hrestf := run_rest phys shape 1300 (initState b shape) hinv0
    (initState_rest b shape _)
  have hfix := (hrestf o (hclean o)).1
  have hviab : (runMachine phys shape 1300 (initState b shape)).viab o
      = (COLLISION shape o).viable b := by
    rw [run_viab phys shape 1300 (initState b shape)]
    rfl
  rw [hviab] at hfix
  exact (floodStep_fixed_parts hfix).1

theorem final_reach_viab (b : Nat) (shape : Shape) (phys : Physics) (o : Orient) :
    bsub ((runMachine phys shape 1300 (initState b shape)).reach o)
      ((COLLISION shape o).viable b) := by
  have hinvf := run_inv phys shape 1300 (initState b shape) (initState_inv b shape)
  have hviab : (runMachine phys shape 1300 (initState b shape)).viab o
      = (COLLISION shape o).viable b := by
    rw [run_viab phys shape 1300 (initState b shape)]
    rfl
  have := (hinvf o).2.2
  rwa [hviab] at this

theorem place_pairs_subset_of_tables (b : Nat) (shape : Shape)
    (phys1 phys2 : Physics)
    (hcw : ∀ o, (kicksFor phys1 shape).cw o = (kicksFor phys2 shape).cw o)
    (hccw : ∀ o, (kicksFor phys1 shape).ccw o = (kicksFor phys2 shape).ccw o)
    (hhalf : ∀ o, (kicksFor phys1 shape).half o = []) :
    (place b shape phys1).pairs ⊆ (place b shape phys2).pairs := by
  by_cases hO : shape = .O
  · subst hO
    have : place b .O phys1 = place b .O phys2 := by
      rw [place, place, if_pos rfl, if_pos rfl]
    rw [this]
  · refine pairs_mono _ _ (by rw [place_shape, place_shape])
      (by rw [place_board, place_board]) fun o => ?_
    rw [place_pos b shape phys1 hO o, place_pos b shape phys2 hO o]
    refine placeable_mono _ ((COLLISION shape o).viable b) _ _ ?_
      (final_orDown_fixed b shape phys1 o) (final_reach_viab b shape phys2 o)
    intro p hp
    rw [final_reach_iff] at hp ⊢
    exact Reach_table_mono _ hcw hccw hhalf o p hp

/-- C5: for every board and every shape, `Placements::place(b, shape, SRS)`,
viewed as a set of (piece, resulting board) pairs, is a subset of
`Placements::place(b, shape, Jstris)`. -/
theorem C5_srs_subset_jstris (b : Nat) (shape : Shape) :
    (place b shape .SRS).pairs ⊆ (place b shape .Jstris).pairs := by
  obtain ⟨hcw, hccw, hhalf⟩ := srs_jstris_tables shape
  exact place_pairs_subset_of_tables b shape .SRS .Jstris hcw hccw hhalf

/-- C6 as claimed is false: on board 0x4410 with shape I, the placement
(col 0, row 0, South) is produced under SRS but not under TETRIO physics,
so `place(b, shape, SRS)` is not always a subset of
`place(b, shape, Tetrio)`. -/
theorem C6_claim_counterexample :
    ((⟨.I, 0, 0, .South⟩, Piece.place ⟨.I, 0, 0, .South⟩ 0x4410) : Piece × Nat)
        ∈ (place 0x4410 .I .SRS).pairs ∧
      ((⟨.I, 0, 0, .South⟩, Piece.place ⟨.I, 0, 0, .South⟩ 0x4410) : Piece × Nat)
        ∉ (place 0x4410 .I .Tetrio).pairs := by
  constructor
  · exact ⟨.South, 0, by decide, rfl⟩
  · rintro ⟨o, cell, htb, heq⟩
    rw [Prod.mk.injEq] at heq
    obtain ⟨h1, _⟩ := heq
    rw [Piece.mk.injEq] at h1
    obtain ⟨_, hcol, hrow, horient⟩ := h1
    have hc1 : cell % 10 = 0 := by exact_mod_cast hcol.symm
    have hc2 : cell / 10 = 0 := by exact_mod_cast hrow.symm
    have hcell : cell = 0 := by omega
    subst hcell
    cases horient
    exact absurd htb (by decide)

/-- C6 amended: for every board and every shape other than I, the SRS
placements are a subset of the TETRIO placements. -/
theorem C6_amended (b : Nat) (shape : Shape) (hI : shape ≠ .I) :
    (place b shape .SRS).pairs ⊆ (place b shape .Tetrio).pairs := by
  obtain ⟨hcw, hccw, hhalf⟩ := srs_tetrio_tables shape hI
  exact place_pairs_subset_of_tables b shape .SRS .Tetrio hcw hccw hhalf

/-- Witness for `C6_amended` at board 0 and shape T. -/
theorem C6_amended_witness :
    Shape.T ≠ Shape.I ∧
      (place 0 .T .SRS).pairs ⊆ (place 0 .T .Tetrio).pairs :=
  ⟨by decide, C6_amended 0 .T (by decide)⟩

/-- C4 as claimed is false for `decode`: `is_valid` never checks that the
pieces sequence is sorted, so a bit stream listing two valid pieces in the
wrong order decodes to `Some` of a BrokenBoard whose pieces are unsorted. -/
theorem C4_claim_counterexample :
    BrokenBoard.decode (BrokenBoard.encode
        ⟨0xFF, 0, [⟨4, .I, .North, 1⟩, ⟨0, .I, .North, 1⟩]⟩)
      = some (some ⟨0xFF, 0, [⟨4, .I, .North, 1⟩, ⟨0, .I, .North, 1⟩]⟩) ∧
    ¬ piecesSorted [(⟨4, .I, .North, 1⟩ : BrokenPiece), ⟨0, .I, .North, 1⟩] := by
  refine ⟨by decide, by unfold piecesSorted; decide⟩

theorem storeLE_length (w v : Nat) : (storeLE w v).length = w := by
  induction w generalizing v with
  | zero => rfl
  | succ w ih => simp [storeLE, ih]

theorem loadLE_storeLE (w v : Nat) (h : v < 2 ^ w) : loadLE (storeLE w v) = v := by
  induction w generalizing v with
  | zero =>
    have : v = 0 := by
      have : (2 : Nat) ^ 0 = 1 := rfl
      omega
    simp [this, storeLE, loadLE]
  | succ w ih =>
    have hv2 : v / 2 < 2 ^ w := by
      rw [pow_succ] at h
      omega
    simp only [storeLE, loadLE, ih (v / 2) hv2]
    rcases Nat.mod_two_eq_zero_or_one v with h0 | h0 <;> simp [h0] <;> omega

theorem loadLE_append (l1 l2 : List Bool) :
    loadLE (l1 ++ l2) = loadLE l1 + 2 ^ l1.length * loadLE l2 := by
  induction l1 with
  | nil => simp [loadLE]
  | cons b t ih =>
    simp only [List.cons_append, loadLE, List.append_eq, ih, List.length_cons, pow_succ]
    ring

theorem encodePiece_length (p : BrokenPiece) : (encodePiece p).length = 15 := by
  simp [encodePiece, storeLE_length]

theorem flatten_pieces_length (ps : List BrokenPiece) :
    ((ps.map encodePiece).flatten).length = 15 * ps.length := by
  induction ps with
  | nil => simp
  | cons p t ih =>
    rw [List.map_cons, List.flatten_cons, List.length_append, encodePiece_length, ih,
      List.length_cons]
    ring

theorem Shape_tryFrom_toNat (s : Shape) : Shape.tryFrom s.toNat = some s := by
  cases s <;> rfl

theorem Orient_tryFrom_toNat (o : Orient) : Orient.tryFrom o.toNat = some o := by
  cases o <;> rfl

theorem shape_toNat_lt (s : Shape) : s.toNat < 8 := by
  cases s <;> decide

theorem orient_toNat_lt (o : Orient) : o.toNat < 4 := by
  cases o <;> decide

theorem decodePieces_flatten (ps : List BrokenPiece)
    (hb : ∀ p ∈ ps, p.lowMino < 64 ∧ p.rows < 16) :
    ∀ fuel, ps.length ≤ fuel →
      decodePieces fuel ((ps.map encodePiece).flatten) = some ps := by
  induction ps with
  | nil => intro fuel _; cases fuel <;> rfl
  | cons p t ih =>
    intro fuel hfuel
    obtain ⟨hp, ht⟩ : (p.lowMino < 64 ∧ p.rows < 16) ∧
        ∀ q ∈ t, q.lowMino < 64 ∧ q.rows < 16 := by
      refine ⟨hb p (by simp), fun q hq => hb q (by simp [hq])⟩
    obtain ⟨fuel, rfl⟩ : ∃ f, fuel = f + 1 := by
      cases fuel
      · simp at hfuel
      · exact ⟨_, rfl⟩
    have hstream : (((p :: t).map encodePiece).flatten)
        = encodePiece p ++ ((t.map encodePiece).flatten) := by
      simp
    rw [hstream]
    have hlen : (encodePiece p ++ ((t.map encodePiece).flatten)).length
        = 15 + 15 * t.length := by
      rw [List.length_append, encodePiece_length, flatten_pieces_length]
    have hne : encodePiece p ++ ((t.map encodePiece).flatten) ≠ [] := by
      intro hcon
      have := congrArg List.length hcon
      rw [hlen] at this
      simp at this
    obtain ⟨b, l', hbl⟩ : ∃ b l',
        encodePiece p ++ ((t.map encodePiece).flatten) = b :: l' := by
      cases hh : encodePiece p ++ ((t.map encodePiece).flatten) with
      | nil => exact absurd hh hne
      | cons b l' => exact ⟨b, l', rfl⟩
    rw [hbl]
    simp only [decodePieces]
    rw [← hbl]
    rw [if_neg (by omega)]
    have hsplit : encodePiece p ++ ((t.map encodePiece).flatten)
        = storeLE 6 p.lowMino ++ (storeLE 3 p.shape.toNat
          ++ (storeLE 2 p.orientation.toNat ++ (storeLE 4 p.rows
          ++ ((t.map encodePiece).flatten)))) := by
      simp [encodePiece]
    have htake6 : (encodePiece p ++ ((t.map encodePiece).flatten)).take 6
        = storeLE 6 p.lowMino := by
      rw [hsplit]
      rw [List.take_append_of_le_length (by rw [storeLE_length])]
      simp [storeLE_length]
    have hdrop6 : (encodePiece p ++ ((t.map encodePiece).flatten)).drop 6
        = storeLE 3 p.shape.toNat ++ (storeLE 2 p.orientation.toNat
          ++ (storeLE 4 p.rows ++ ((t.map encodePiece).flatten))) := by
      rw [hsplit]
      exact List.drop_left' (storeLE_length 6 p.lowMino)
    have hdrop9 : (encodePiece p ++ ((t.map encodePiece).flatten)).drop 9
        = storeLE 2 p.orientation.toNat
          ++ (storeLE 4 p.rows ++ ((t.map encodePiece).flatten)) := by
      rw [show (9 : Nat) = 6 + 3 from rfl, ← List.drop_drop, hdrop6]
      exact List.drop_left' (storeLE_length 3 p.shape.toNat)
    have hdrop11 : (encodePiece p ++ ((t.map encodePiece).flatten)).drop 11
        = storeLE 4 p.rows ++ ((t.map encodePiece).flatten) := by
      rw [show (11 : Nat) = 9 + 2 from rfl, ← List.drop_drop, hdrop9]
      exact List.drop_left' (storeLE_length 2 p.orientation.toNat)
    have hdrop15 : (encodePiece p ++ ((t.map encodePiece).flatten)).drop 15
        = (t.map encodePiece).flatten := by
      rw [show (15 : Nat) = 11 + 4 from rfl, ← List.drop_drop, hdrop11]
      exact List.drop_left' (storeLE_length 4 p.rows)
    have htk3 : (storeLE 3 p.shape.toNat ++ (storeLE 2 p.orientation.toNat
        ++ (storeLE 4 p.rows ++ ((t.map encodePiece).flatten)))).take 3
        = storeLE 3 p.shape.toNat := by
      rw [List.take_append_of_le_length (by rw [storeLE_length])]
      simp [storeLE_length]
    have htk2 : (storeLE 2 p.orientation.toNat
        ++ (storeLE 4 p.rows ++ ((t.map encodePiece).flatten))).take 2
        = storeLE 2 p.orientation.toNat := by
      rw [List.take_append_of_le_length (by rw [storeLE_length])]
      simp [storeLE_length]
    have htk4 : (storeLE 4 p.rows ++ ((t.map encodePiece).flatten)).take 4
        = storeLE 4 p.rows := by
      rw [List.take_append_of_le_length (by rw [storeLE_length])]
      simp [storeLE_length]
    rw [hdrop6, htk3,
      loadLE_storeLE 3 p.shape.toNat (lt_of_lt_of_le (shape_toNat_lt p.shape) (by norm_num)),
      Shape_tryFrom_toNat]
    rw [hdrop9, htk2, loadLE_storeLE 2 p.orientation.toNat (orient_toNat_lt p.orientation),
      Orient_tryFrom_toNat]
    show Option.map (fun rest =>
        ({ lowMino := loadLE ((encodePiece p ++ ((t.map encodePiece).flatten)).take 6),
           shape := p.shape, orientation := p.orientation,
           rows := loadLE (((encodePiece p
             ++ ((t.map encodePiece).flatten)).drop 11).take 4) } : BrokenPiece) :: rest)
        (decodePieces fuel ((encodePiece p ++ ((t.map encodePiece).flatten)).drop 15))
      = some (p :: t)
    rw [hdrop15, ih ht fuel (by simpa using Nat.le_of_succ_le_succ hfuel)]
    rw [htake6, loadLE_storeLE 6 p.lowMino hp.1]
    rw [hdrop11, htk4, loadLE_storeLE 4 p.rows hp.2]
    rfl

/-- For every BrokenBoard whose fields are within the encoding's ranges
(40-bit board, 4-bit cleared mask, 6-bit low_mino and 4-bit rows per piece,
at most ten pieces) and on which `is_valid` returns `true`, the encoding
is, in order, an 8-bit magic equal to 4, 40 bits of board, a 4-bit
cleared-row mask, then 15 bits per piece, with total length
`52 + 15k ∈ [52, 202]`, and `BrokenBoard::decode(bb.encode()) == Some(bb)`
without panicking. -/
theorem decode_encode_of_valid (bb : BrokenBoard)
    (hboard : bb.board < 2 ^ 40) (hcl : bb.clearedRows < 16)
    (hfields : ∀ p ∈ bb.pieces, p.lowMino < 64 ∧ p.rows < 16)
    (hcount : bb.pieces.length ≤ 10)
    (hvalid : bb.isValid = some true) :
    BrokenBoard.encode bb
        = storeLE 8 4 ++ storeLE 40 bb.board ++ storeLE 4 bb.clearedRows
          ++ ((bb.pieces.map encodePiece).flatten) ∧
      (BrokenBoard.encode bb).length = 52 + 15 * bb.pieces.length ∧
      52 ≤ (BrokenBoard.encode bb).length ∧ (BrokenBoard.encode bb).length ≤ 202 ∧
      BrokenBoard.decode (BrokenBoard.encode bb) = some (some bb) := by
  have hlength : (BrokenBoard.encode bb).length = 52 + 15 * bb.pieces.length := by
    simp only [BrokenBoard.encode, List.length_append, storeLE_length,
      flatten_pieces_length]
  refine ⟨rfl, hlength, by omega, by omega, ?_⟩
  have hassoc : BrokenBoard.encode bb
      = storeLE 8 4 ++ (storeLE 40 bb.board ++ (storeLE 4 bb.clearedRows
        ++ ((bb.pieces.map encodePiece).flatten))) := by
    simp [BrokenBoard.encode, List.append_assoc]
  rw [BrokenBoard.decode]
  rw [if_neg (by omega)]
  have htk8 : (BrokenBoard.encode bb).take 8 = storeLE 8 4 := by
    rw [hassoc, List.take_append_of_le_length (by rw [storeLE_length])]
    simp [storeLE_length]
  have hdp8 : (BrokenBoard.encode bb).drop 8
      = storeLE 40 bb.board ++ (storeLE 4 bb.clearedRows
        ++ ((bb.pieces.map encodePiece).flatten)) := by
    rw [hassoc]
    exact List.drop_left' (storeLE_length 8 4)
  have htk40 : ((BrokenBoard.encode bb).drop 8).take 40 = storeLE 40 bb.board := by
    rw [hdp8, List.take_append_of_le_length (by rw [storeLE_length])]
    simp [storeLE_length]
  have hdp48 : (BrokenBoard.encode bb).drop 48
      = storeLE 4 bb.clearedRows ++ ((bb.pieces.map encodePiece).flatten) := by
    rw [show (48 : Nat) = 8 + 40 from rfl, ← List.drop_drop, hdp8]
    exact List.drop_left' (storeLE_length 40 bb.board)
  have htk4 : ((BrokenBoard.encode bb).drop 48).take 4 = storeLE 4 bb.clearedRows := by
    rw [hdp48, List.take_append_of_le_length (by rw [storeLE_length])]
    simp [storeLE_length]
  have hdp52 : (BrokenBoard.encode bb).drop 52
      = (bb.pieces.map encodePiece).flatten := by
    rw [show (52 : Nat) = 48 + 4 from rfl, ← List.drop_drop, hdp48]
    exact List.drop_left' (storeLE_length 4 bb.clearedRows)
  rw [htk8, loadLE_storeLE 8 4 (by norm_num)]
  rw [if_neg (by omega)]
  rw [hdp52, decodePieces_flatten bb.pieces hfields (BrokenBoard.encode bb).length
    (by omega)]
  show Option.map
      (fun v => if v then
        some ({ board := loadLE (((BrokenBoard.encode bb).drop 8).take 40),
                clearedRows := loadLE (((BrokenBoard.encode bb).drop 48).take 4),
                pieces := bb.pieces } : BrokenBoard)
        else none)
      ({ board := loadLE (((BrokenBoard.encode bb).drop 8).take 40),
         clearedRows := loadLE (((BrokenBoard.encode bb).drop 48).take 4),
         pieces := bb.pieces } : BrokenBoard).isValid = some (some bb)
  rw [htk40, loadLE_storeLE 40 bb.board hboard, htk4,
    loadLE_storeLE 4 bb.clearedRows hcl]
  have hbbeq : ({ board := bb.board, clearedRows := bb.clearedRows,
                  pieces := bb.pieces } : BrokenBoard) = bb := rfl
  rw [hbbeq, hvalid]
  rfl

theorem shape_toNat_inj {s t : Shape} (h : s.toNat = t.toNat) : s = t := by
  cases s <;> cases t <;> first | rfl | (exact absurd h (by decide))

theorem orient_toNat_inj {o o2 : Orient} (h : o.toNat = o2.toNat) : o = o2 := by
  cases o <;> cases o2 <;> first | rfl | (exact absurd h (by decide))

theorem pieceLexLe_trans {a b c : BrokenPiece} (h1 : pieceLexLe a b)
    (h2 : pieceLexLe b c) : pieceLexLe a c := by
  unfold pieceLexLe at h1 h2 ⊢
  omega

theorem pieceLexLe_antisymm {a b : BrokenPiece} (h1 : pieceLexLe a b)
    (h2 : pieceLexLe b a) : a = b := by
  have hl : a.lowMino = b.lowMino := by unfold pieceLexLe at h1 h2; omega
  have hs : a.shape = b.shape := by
    refine shape_toNat_inj ?_
    unfold pieceLexLe at h1 h2
    omega
  have ho : a.orientation = b.orientation := by
    refine orient_toNat_inj ?_
    unfold pieceLexLe at h1 h2
    omega
  have hr : a.rows = b.rows := by unfold pieceLexLe at h1 h2; omega
  cases a
  cases b
  simp only at hl hs ho hr
  rw [hl, hs, ho, hr]

theorem pieceLexLe_total (a b : BrokenPiece) : pieceLexLe a b ∨ pieceLexLe b a := by
  unfold pieceLexLe
  omega

theorem key_le_iff {a b : BrokenPiece} (ha : a.rows < 16) (hb : b.rows < 16) :
    a.key ≤ b.key ↔ pieceLexLe a b := by
  have has := shape_toNat_lt a.shape
  have hbs := shape_toNat_lt b.shape
  have hao := orient_toNat_lt a.orientation
  have hbo := orient_toNat_lt b.orientation
  unfold BrokenPiece.key pieceLexLe
  omega

theorem keySorted_insertPiece (x : BrokenPiece) :
    ∀ l : List BrokenPiece, keySorted l → keySorted (insertPiece x l) := by
  intro l
  induction l with
  | nil => intro _; trivial
  | cons y t ih =>
    intro hl
    rw [insertPiece]
    split
    · rename_i hxy
      exact ⟨hxy, hl⟩
    · rename_i hxy
      have hyx : y.key ≤ x.key := by omega
      have htail : keySorted t := by
        cases t with
        | nil => trivial
        | cons z t' => exact hl.2
      have hins := ih htail
      cases t with
      | nil => exact ⟨hyx, trivial⟩
      | cons z t' =>
        rw [insertPiece]
        rw [insertPiece] at hins
        split
        · rename_i hxz
          split at hins
          · exact ⟨hyx, hins⟩
          · omega
        · rename_i hxz
          split at hins
          · omega
          · exact ⟨hl.1, hins⟩

theorem keySorted_sortPieces (l : List BrokenPiece) : keySorted (sortPieces l) := by
  induction l with
  | nil => trivial
  | cons p t ih => exact keySorted_insertPiece p _ ih

theorem keySorted_piecesSorted :
    ∀ l : List BrokenPiece, (∀ q ∈ l, q.rows < 16) → keySorted l → piecesSorted l := by
  intro l
  induction l with
  | nil => intro _ _; trivial
  | cons a t ih =>
    intro hb hs
    cases t with
    | nil => trivial
    | cons b t' =>
      refine ⟨(key_le_iff (hb a (by simp)) (hb b (by simp))).mp hs.1, ?_⟩
      exact ih (fun q hq => hb q (by simp [hq])) hs.2

theorem lor_lt_two_pow {x y n : Nat} (hx : x < 2 ^ n) (hy : y < 2 ^ n) :
    x ||| y < 2 ^ n := by
  refine Nat.lt_pow_two_of_testBit _ fun i hi => ?_
  rw [Nat.testBit_or,
    Nat.testBit_eq_false_of_lt
      (lt_of_lt_of_le hx (Nat.pow_le_pow_right (by norm_num) hi)),
    Nat.testBit_eq_false_of_lt
      (lt_of_lt_of_le hy (Nat.pow_le_pow_right (by norm_num) hi))]
  rfl

theorem placeRowsStep_rows_lt (cleared minoes field row : Nat) (s : Nat × Nat × Nat)
    (hrow : row < 4) (hs : s.2.1 < 16) :
    (placeRowsStep cleared minoes field row s).2.1 < 16 := by
  obtain ⟨a, b, c⟩ := s
  simp only [placeRowsStep]
  split
  · exact hs
  · dsimp only
    split
    · have h1 : b < 2 ^ 4 := by simpa using hs
      have h2 : (1 <<< row) < 2 ^ 4 := by interval_cases row <;> decide
      have := lor_lt_two_pow h1 h2
      simpa using this
    · exact hs

theorem placeState_rows_lt (cleared minoes field : Nat) :
    (placeState cleared minoes field).2.1 < 16 := by
  rw [placeState]
  refine placeRowsStep_rows_lt cleared minoes field 3 _ (by omega) ?_
  refine placeRowsStep_rows_lt cleared minoes field 2 _ (by omega) ?_
  refine placeRowsStep_rows_lt cleared minoes field 1 _ (by omega) ?_
  refine placeRowsStep_rows_lt cleared minoes field 0 _ (by omega) ?_
  norm_num

theorem placeNewPiece_rows_lt (bb : BrokenBoard) (p : Piece) :
    (placeNewPiece bb p).rows < 16 :=
  placeState_rows_lt bb.clearedRows _ _

theorem place_pieces_eq (bb : BrokenBoard) (p : Piece) :
    (bb.place p).pieces = sortPieces (placeNewPiece bb p :: bb.pieces) := rfl

theorem insertPiece_perm (x : BrokenPiece) :
    ∀ l : List BrokenPiece, (insertPiece x l).Perm (x :: l) := by
  intro l
  induction l with
  | nil => exact List.Perm.refl _
  | cons y t ih =>
    rw [insertPiece]
    split
    · exact List.Perm.refl _
    · exact List.Perm.trans (List.Perm.cons y ih) (List.Perm.swap x y t)

theorem sortPieces_perm (l : List BrokenPiece) : (sortPieces l).Perm l := by
  induction l with
  | nil => exact List.Perm.refl _
  | cons p t ih =>
    exact List.Perm.trans (insertPiece_perm p (sortPieces t)) (List.Perm.cons p ih)

theorem piecesSorted_chain' (l : List BrokenPiece) :
    piecesSorted l ↔ List.Chain' pieceLexLe l := by
  induction l with
  | nil => simp [piecesSorted]
  | cons a t ih =>
    cases t with
    | nil => simp [piecesSorted]
    | cons b t' =>
      rw [List.chain'_cons, show piecesSorted (a :: b :: t')
        = (pieceLexLe a b ∧ piecesSorted (b :: t')) from rfl]
      rw [ih]

instance : IsTrans BrokenPiece pieceLexLe := ⟨fun _ _ _ => pieceLexLe_trans⟩

instance : IsAntisymm BrokenPiece pieceLexLe := ⟨fun _ _ => pieceLexLe_antisymm⟩

theorem sorted_perm_eq {l1 l2 : List BrokenPiece} (h1 : piecesSorted l1)
    (h2 : piecesSorted l2) (hp : l1.Perm l2) : l1 = l2 := by
  have s1 : l1.Sorted pieceLexLe := by
    rw [List.Sorted, ← List.chain'_iff_pairwise, ← piecesSorted_chain']
    exact h1
  have s2 : l2.Sorted pieceLexLe := by
    rw [List.Sorted, ← List.chain'_iff_pairwise, ← piecesSorted_chain']
    exact h2
  exact List.eq_of_perm_of_sorted hp s1 s2

/-- C4 amended: `empty`, `from_garbage` and `place` all yield BrokenBoards
with sorted pieces (`place` unconditionally sorts, assuming the existing
pieces carry 4-bit rows fields); and the pieces sequence is a function of
the piece multiset, so two BrokenBoards with the same board, cleared rows
and piece multiset (both with sorted pieces) are equal.  `decode` is the
exception refuted by the counterexample. -/
theorem C4_amended :
    piecesSorted BrokenBoard.empty.pieces ∧
    (∀ g : Nat, piecesSorted (BrokenBoard.fromGarbage g).pieces) ∧
    (∀ (bb : BrokenBoard) (p : Piece), (∀ q ∈ bb.pieces, q.rows < 16) →
      piecesSorted (bb.place p).pieces) ∧
    (∀ bb1 bb2 : BrokenBoard, bb1.board = bb2.board →
      bb1.clearedRows = bb2.clearedRows → bb1.pieces.Perm bb2.pieces →
      piecesSorted bb1.pieces → piecesSorted bb2.pieces → bb1 = bb2) := by
  refine ⟨trivial, fun g => trivial, ?_, ?_⟩
  · intro bb p hb
    rw [place_pieces_eq]
    have hperm := sortPieces_perm (placeNewPiece bb p :: bb.pieces)
    refine keySorted_piecesSorted _ ?_ (keySorted_sortPieces _)
    intro q hq
    have hmem := (List.Perm.mem_iff hperm).mp hq
    rcases List.mem_cons.mp hmem with hq1 | hq2
    · rw [hq1]
      exact placeNewPiece_rows_lt bb p
    · exact hb q hq2
  · intro bb1 bb2 hbd hcl hperm hs1 hs2
    cases bb1
    cases bb2
    simp only at hbd hcl hperm hs1 hs2 ⊢
    rw [hbd, hcl, sorted_perm_eq hs1 hs2 hperm]

/-- Witness for `C4_amended`: place one I piece into the empty board, and
compare that BrokenBoard with itself. -/
theorem C4_amended_witness :
    piecesSorted ((BrokenBoard.empty.place ⟨.I, 0, 0, .North⟩).pieces) ∧
    (BrokenBoard.empty.place ⟨.I, 0, 0, .North⟩)
      = (BrokenBoard.empty.place ⟨.I, 0, 0, .North⟩) :=
  ⟨C4_amended.2.2.1 BrokenBoard.empty ⟨.I, 0, 0, .North⟩ (by simp [BrokenBoard.empty]),
    C4_amended.2.2.2 (BrokenBoard.empty.place ⟨.I, 0, 0, .North⟩)
      (BrokenBoard.empty.place ⟨.I, 0, 0, .North⟩) rfl rfl (List.Perm.refl _)
      (by decide) (by decide)⟩

theorem replicateRow_testBit {r : Nat} (hr : r < 2 ^ 10) (p : Nat) :
    (replicateRow r).testBit p = (decide (p < 60) && r.testBit (p % 10)) := by
  have hterm : ∀ k, (r <<< (10 * k)).testBit p
      = (decide (p / 10 = k) && r.testBit (p % 10)) := by
    intro k
    rw [Nat.testBit_shiftLeft]
    by_cases hk : 10 * k ≤ p
    · rw [decide_eq_true hk, Bool.true_and]
      by_cases hq : p / 10 = k
      · rw [show p - 10 * k = p % 10 from by omega, decide_eq_true hq, Bool.true_and]
      · rw [decide_eq_false hq, Bool.false_and]
        exact Nat.testBit_eq_false_of_lt
          (lt_of_lt_of_le hr (Nat.pow_le_pow_right (by norm_num) (by omega)))
    · rw [decide_eq_false (by omega : ¬ p ≥ 10 * k), decide_eq_false (by omega : ¬ p / 10 = k),
        Bool.false_and, Bool.false_and]
  have h0 : r.testBit p = (decide (p / 10 = 0) && r.testBit (p % 10)) := by
    have := hterm 0
    rwa [Nat.mul_zero, Nat.shiftLeft_zero] at this
  have h1 : (r <<< 10).testBit p = (decide (p / 10 = 1) && r.testBit (p % 10)) := by
    have := hterm 1
    rwa [show 10 * 1 = 10 from rfl] at this
  have h2 : (r <<< 20).testBit p = (decide (p / 10 = 2) && r.testBit (p % 10)) := by
    have := hterm 2
    rwa [show 10 * 2 = 20 from rfl] at this
  have h3 : (r <<< 30).testBit p = (decide (p / 10 = 3) && r.testBit (p % 10)) := by
    have := hterm 3
    rwa [show 10 * 3 = 30 from rfl] at this
  have h4 : (r <<< 40).testBit p = (decide (p / 10 = 4) && r.testBit (p % 10)) := by
    have := hterm 4
    rwa [show 10 * 4 = 40 from rfl] at this
  have h5 : (r <<< 50).testBit p = (decide (p / 10 = 5) && r.testBit (p % 10)) := by
    have := hterm 5
    rwa [show 10 * 5 = 50 from rfl] at this
  simp only [replicateRow, Nat.testBit_or, h0, h1, h2, h3, h4, h5]
  cases hx : r.testBit (p % 10)
  · simp
  · simp only [Bool.and_true]
    rcases Nat.lt_or_ge p 60 with hp | hp
    · have : p / 10 = 0 ∨ p / 10 = 1 ∨ p / 10 = 2 ∨ p / 10 = 3 ∨ p / 10 = 4 ∨ p / 10 = 5 := by
        omega
      rcases this with h | h | h | h | h | h <;>
        simp [h, decide_eq_true (show p < 60 from hp)]
    · have h6 : ∀ k, k ≤ 5 → ¬ (p / 10 = k) := by
        intro k hk hcon
        omega
      rw [decide_eq_false (h6 0 (by omega)), decide_eq_false (h6 1 (by omega)),
        decide_eq_false (h6 2 (by omega)), decide_eq_false (h6 3 (by omega)),
        decide_eq_false (h6 4 (by omega)), decide_eq_false (h6 5 (by omega)),
        decide_eq_false (by omega : ¬ p < 60)]
      rfl

theorem fold_or_testBit (board : Nat) :
    ∀ (l : List Nat) (acc p : Nat),
      ((l.foldl (fun acc s => acc ||| (board >>> s)) acc).testBit p = true ↔
        acc.testBit p = true ∨ ∃ s ∈ l, board.testBit (s + p) = true) := by
  intro l
  induction l with
  | nil => intro acc p; simp
  | cons s rest ih =>
    intro acc p
    rw [List.foldl_cons, ih]
    rw [Nat.testBit_or, Bool.or_eq_true, Nat.testBit_shiftRight]
    constructor
    · rintro ((h | h) | ⟨s2, hs2, h⟩)
      · exact Or.inl h
      · exact Or.inr ⟨s, by simp, h⟩
      · exact Or.inr ⟨s2, by simp [hs2], h⟩
    · rintro (h | ⟨s2, hs2, h⟩)
      · exact Or.inl (Or.inl h)
      · rcases List.mem_cons.mp hs2 with rfl | hs2
        · exact Or.inl (Or.inr h)
        · exact Or.inr ⟨s2, hs2, h⟩

theorem fold_and_testBit :
    ∀ (l : List (Nat × Nat)) (acc c : Nat),
      ((l.foldl (fun acc m => acc &&& (FULL10 >>> m.1)) acc).testBit c = true ↔
        acc.testBit c = true ∧ ∀ m ∈ l, (FULL10 >>> m.1).testBit c = true) := by
  intro l
  induction l with
  | nil => intro acc c; simp
  | cons m rest ih =>
    intro acc c
    rw [List.foldl_cons, ih, Nat.testBit_and, Bool.and_eq_true]
    constructor
    · rintro ⟨⟨h1, h2⟩, h3⟩
      refine ⟨h1, fun m2 hm2 => ?_⟩
      rcases List.mem_cons.mp hm2 with rfl | hm2
      · exact h2
      · exact h3 m2 hm2
    · rintro ⟨h1, h2⟩
      exact ⟨⟨h1, h2 m (by simp)⟩, fun m2 hm2 => h2 m2 (by simp [hm2])⟩

theorem minoes_zero_col (s : Shape) (o : Orient) :
    ∃ m ∈ COLLISION_MINOES s o, m.1 = 0 := by
  cases s <;> cases o <;> decide

theorem minoes_col_le (s : Shape) (o : Orient) :
    ∀ m ∈ COLLISION_MINOES s o, m.1 ≤ 3 ∧ m.2 ≤ 3 := by
  cases s <;> cases o <;> decide

/-- The board-level `Collision::viable` bit agrees with spec-level viability
at every grid position. -/
theorem viable_spec (board : Nat) (hb : board < 2 ^ 40) (s : Shape) (o : Orient)
    (col row : Nat) (hc : col < 10) (hr : row < 6) :
    (((COLLISION s o).viable board).testBit (col + 10 * row) = true ↔
      specViable board s o ((col : Int)) ((row : Int)) = true) := by
  have hrm : (COLLISION_MINOES s o).foldl
      (fun acc m => acc &&& (FULL10 >>> m.1)) FULL10 < 2 ^ 10 :=
    bsub_lt (foldl_and_sub (COLLISION_MINOES s o) FULL10) (by norm_num [FULL10])
  have hp64 : col + 10 * row < 64 := by omega
  rw [Collision.viable]
  rw [Nat.testBit_and, Bool.and_eq_true, Nat.testBit_xor,
    Nat.testBit_two_pow_sub_one, decide_eq_true hp64]
  have hmask : ((COLLISION s o).mask.testBit (col + 10 * row) = true ↔
      ∀ m ∈ COLLISION_MINOES s o, col + m.1 < 10) := by
    show ((replicateRow _).testBit (col + 10 * row) = true ↔ _)
    rw [replicateRow_testBit hrm, decide_eq_true (show col + 10 * row < 60 from by omega),
      Bool.true_and, show (col + 10 * row) % 10 = col from by omega]
    rw [fold_and_testBit]
    have hfull : FULL10 = 2 ^ 10 - 1 := by norm_num [FULL10]
    constructor
    · rintro ⟨_, h2⟩ m hm
      have h3 := h2 m hm
      rw [Nat.testBit_shiftRight, hfull, Nat.testBit_two_pow_sub_one] at h3
      have := of_decide_eq_true h3
      omega
    · intro h
      refine ⟨?_, ?_⟩
      · rw [hfull, Nat.testBit_two_pow_sub_one]
        exact decide_eq_true (by omega)
      · intro m hm
        rw [Nat.testBit_shiftRight, hfull, Nat.testBit_two_pow_sub_one]
        exact decide_eq_true (by have := h m hm; omega)
  have hshifts : (((COLLISION s o).shifts.foldl
      (fun acc s2 => acc ||| (board >>> s2)) 0).testBit (col + 10 * row) = true ↔
      ∃ m ∈ COLLISION_MINOES s o,
        board.testBit ((col + m.1) + 10 * (row + m.2)) = true) := by
    show ((((COLLISION_MINOES s o).map (fun m => m.1 + m.2 * 10)).foldl
      (fun acc s2 => acc ||| (board >>> s2)) 0).testBit (col + 10 * row) = true ↔ _)
    rw [fold_or_testBit]
    constructor
    · rintro (h | ⟨s2, hs2, h⟩)
      · simp at h
      · obtain ⟨m, hm, rfl⟩ := List.mem_map.mp hs2
        exact ⟨m, hm, by rw [show (col + m.1) + 10 * (row + m.2)
          = (m.1 + m.2 * 10) + (col + 10 * row) from by ring]; exact h⟩
    · rintro ⟨m, hm, h⟩
      refine Or.inr ⟨m.1 + m.2 * 10, List.mem_map.mpr ⟨m, hm, rfl⟩, ?_⟩
      rw [show (m.1 + m.2 * 10) + (col + 10 * row)
        = (col + m.1) + 10 * (row + m.2) from by ring]
      exact h
  rw [specViable]
  rw [Bool.and_eq_true, Bool.and_eq_true, Bool.and_eq_true, List.all_eq_true]
  constructor
  · rintro ⟨hx, hm⟩
    have hnot : ¬ ∃ m ∈ COLLISION_MINOES s o,
        board.testBit ((col + m.1) + 10 * (row + m.2)) = true := by
      intro hcon
      have := hshifts.mpr hcon
      rw [this] at hx
      simp at hx
    refine ⟨⟨⟨decide_eq_true (by omega), decide_eq_true (by omega)⟩,
      decide_eq_true (by exact_mod_cast hr)⟩, ?_⟩
    intro m hmem
    rw [Bool.and_eq_true]
    have hcol := hmask.mp hm m hmem
    refine ⟨decide_eq_true (by push_cast; omega), ?_⟩
    have hbit : board.testBit ((col + m.1) + 10 * (row + m.2)) = false := by
      cases hx2 : board.testBit ((col + m.1) + 10 * (row + m.2))
      · rfl
      · exact absurd ⟨m, hmem, hx2⟩ hnot
    have hidx : ((col : Int) + (m.1 : Int) + 10 * ((row : Int) + (m.2 : Int))).toNat
        = (col + m.1) + 10 * (row + m.2) := by
      push_cast
      omega
    rw [hidx, hbit]
    rfl
  · rintro ⟨⟨⟨_, _⟩, _⟩, hall⟩
    have hcols : ∀ m ∈ COLLISION_MINOES s o, col + m.1 < 10 := by
      intro m hmem
      have := hall m hmem
      rw [Bool.and_eq_true] at this
      have := of_decide_eq_true this.1
      omega
    refine ⟨?_, hmask.mpr hcols⟩
    have hnone : ∀ m ∈ COLLISION_MINOES s o,
        board.testBit ((col + m.1) + 10 * (row + m.2)) = false := by
      intro m hmem
      have := hall m hmem
      rw [Bool.and_eq_true] at this
      have h2 := this.2
      have hidx : ((col : Int) + (m.1 : Int) + 10 * ((row : Int) + (m.2 : Int))).toNat
          = (col + m.1) + 10 * (row + m.2) := by
        push_cast
        omega
      rw [hidx] at h2
      cases hx2 : board.testBit ((col + m.1) + 10 * (row + m.2))
      · rfl
      · rw [hx2] at h2
        simp at h2
    cases hx : ((COLLISION s o).shifts.foldl
        (fun acc s2 => acc ||| (board >>> s2)) 0).testBit (col + 10 * row)
    · rfl
    · obtain ⟨m, hmem, hbit⟩ := hshifts.mp hx
      rw [hnone m hmem] at hbit
      simp at hbit

theorem makeOne_grid :
    ∀ dc ∈ kickRange, ∀ dr ∈ kickRange, ∀ (c : Fin 10) (r : Fin 6),
      ((makeOne (dc, dr)).2.testBit ((c.val + 10 * r.val + (makeOne (dc, dr)).1) % 64)
        = (decide (0 ≤ (c.val : Int) + dc) && decide ((c.val : Int) + dc < 10) &&
           decide (0 ≤ (r.val : Int) + dr) && decide ((r.val : Int) + dr < 6))) ∧
      (((0 ≤ (c.val : Int) + dc ∧ (c.val : Int) + dc < 10 ∧
          0 ≤ (r.val : Int) + dr ∧ (r.val : Int) + dr < 6)) →
        ((c.val + 10 * r.val + (makeOne (dc, dr)).1) % 64)
          = (((c.val : Int) + dc) + 10 * ((r.val : Int) + dr)).toNat) := by
  decide

theorem tables_range (phys : Physics) (shape : Shape) (o : Orient) :
    (∀ off ∈ (kicksFor phys shape).cw o, off.1 ∈ kickRange ∧ off.2 ∈ kickRange) ∧
    (∀ off ∈ (kicksFor phys shape).half o, off.1 ∈ kickRange ∧ off.2 ∈ kickRange) ∧
    (∀ off ∈ (kicksFor phys shape).ccw o, off.1 ∈ kickRange ∧ off.2 ∈ kickRange) := by
  cases phys <;> cases shape <;> cases o <;> decide

theorem SPAWN_testBit (p : Nat) :
    SPAWN.testBit p = (decide (40 ≤ p) && decide (p < 60)) := by
  by_cases hp : p < 64
  · have : ∀ q : Fin 64, SPAWN.testBit q.val
        = (decide (40 ≤ q.val) && decide (q.val < 60)) := by decide
    exact this ⟨p, hp⟩
  · rw [Nat.testBit_eq_false_of_lt
      (lt_of_lt_of_le (by decide : SPAWN < 2 ^ 64)
        (Nat.pow_le_pow_right (by norm_num) (by omega))),
      decide_eq_false (by omega : ¬ p < 60), Bool.and_false]

theorem LEFT50_testBit (p : Nat) :
    LEFT50.testBit p = (decide (p < 60) && decide (p % 10 < 9)) := by
  rw [show LEFT50 = replicateRow 511 from rfl, replicateRow_testBit (by norm_num)]
  rw [show (511 : Nat) = 2 ^ 9 - 1 from rfl, Nat.testBit_two_pow_sub_one]

theorem RIGHT50_testBit (p : Nat) :
    RIGHT50.testBit p = (decide (p < 60) && decide (1 ≤ p % 10)) := by
  rw [show RIGHT50 = replicateRow 1022 from rfl, replicateRow_testBit (by norm_num)]
  have : ∀ c : Fin 10, (1022 : Nat).testBit c.val = decide (1 ≤ c.val) := by decide
  rw [this ⟨p % 10, by omega⟩]

theorem kickResult_viab :
    ∀ (data : List (Nat × Nat)) (p v q : Nat),
      kickResult data p v = some q → v.testBit q = true := by
  intro data
  induction data with
  | nil => intro p v q h; simp [kickResult] at h
  | cons rm rest ih =>
    intro p v q h
    obtain ⟨r, m⟩ := rm
    rw [kickResult] at h
    split at h
    · rename_i hcond
      obtain ⟨_, h2⟩ := (Bool.and_eq_true _ _).mp hcond
      cases h
      exact h2
    · exact ih p v q h

theorem Reach_viab {kt : KickTable} {viab : Orient → Nat} {o : Orient} {p : Nat}
    (h : Reach kt viab o p) : (viab o).testBit p = true := by
  induction h with
  | spawn o p hp => exact bsub_and_right SPAWN _ p hp
  | down o p _ hv _ => exact hv
  | left o p _ _ hv _ => exact hv
  | right o p _ _ hv _ => exact hv
  | cw o p q _ hk _ => exact kickResult_viab _ _ _ _ hk
  | half o p q _ hk _ => exact kickResult_viab _ _ _ _ hk
  | ccw o p q _ hk _ => exact kickResult_viab _ _ _ _ hk

theorem specViable_out (board : Nat) (s : Shape) (t : Orient) (col2 row2 : Int)
    (h : ¬ (0 ≤ col2 ∧ col2 < 10 ∧ 0 ≤ row2 ∧ row2 < 6)) :
    specViable board s t col2 row2 = false := by
  cases hx : specViable board s t col2 row2
  · rfl
  · exfalso
    rw [specViable, Bool.and_eq_true, Bool.and_eq_true, Bool.and_eq_true,
      List.all_eq_true] at hx
    obtain ⟨⟨⟨h1, h2⟩, h3⟩, h4⟩ := hx
    obtain ⟨m0, hm0, hc0⟩ := minoes_zero_col s t
    have := h4 m0 hm0
    rw [Bool.and_eq_true] at this
    have hcol := of_decide_eq_true this.1
    rw [hc0] at hcol
    exact h ⟨of_decide_eq_true h1, by omega,
      of_decide_eq_true h2, of_decide_eq_true h3⟩

theorem kickResult_firstKick (board : Nat) (hb : board < 2 ^ 40) (shape : Shape)
    (t : Orient) (col row : Nat) (hc : col < 10) (hr : row < 6) :
    ∀ offsets : List (Int × Int),
      (∀ off ∈ offsets, off.1 ∈ kickRange ∧ off.2 ∈ kickRange) →
      kickResult (kickData offsets) (col + 10 * row) ((COLLISION shape t).viable board)
        = (firstKick board shape t (col : Int) (row : Int) offsets).map
            (fun cr => (cr.1 + 10 * cr.2).toNat) := by
  intro offsets
  induction offsets with
  | nil => intro _; rfl
  | cons off rest ih =>
    intro hrange
    obtain ⟨dc, dr⟩ := off
    obtain ⟨hdc, hdr⟩ := hrange (dc, dr) (by simp)
    obtain ⟨hmask, hidx⟩ := makeOne_grid dc hdc dr hdr ⟨col, hc⟩ ⟨row, hr⟩
    rw [show kickData ((dc, dr) :: rest) = makeOne (dc, dr) :: kickData rest from rfl]
    rw [show kickResult (makeOne (dc, dr) :: kickData rest) (col + 10 * row)
          ((COLLISION shape t).viable board)
        = (if (makeOne (dc, dr)).2.testBit
              ((col + 10 * row + (makeOne (dc, dr)).1) % 64)
            && ((COLLISION shape t).viable board).testBit
              ((col + 10 * row + (makeOne (dc, dr)).1) % 64)
          then some ((col + 10 * row + (makeOne (dc, dr)).1) % 64)
          else kickResult (kickData rest) (col + 10 * row)
            ((COLLISION shape t).viable board)) from by
      rw [show makeOne (dc, dr) = ((makeOne (dc, dr)).1, (makeOne (dc, dr)).2) from rfl,
        kickResult]]
    rw [firstKick]
    by_cases hgrid : 0 ≤ (col : Int) + dc ∧ (col : Int) + dc < 10 ∧
        0 ≤ (row : Int) + dr ∧ (row : Int) + dr < 6
    · have hm : (makeOne (dc, dr)).2.testBit
          ((col + 10 * row + (makeOne (dc, dr)).1) % 64) = true := by
        rw [hmask, decide_eq_true hgrid.1, decide_eq_true hgrid.2.1,
          decide_eq_true hgrid.2.2.1, decide_eq_true hgrid.2.2.2]
        rfl
      have hq := hidx hgrid
      set c2 : Nat := ((col : Int) + dc).toNat with hc2
      set r2 : Nat := ((row : Int) + dr).toNat with hr2
      have hc2lt : c2 < 10 := by omega
      have hr2lt : r2 < 6 := by omega
      have hcast1 : ((c2 : Nat) : Int) = (col : Int) + dc := by omega
      have hcast2 : ((r2 : Nat) : Int) = (row : Int) + dr := by omega
      have hq2 : (((col : Int) + dc) + 10 * ((row : Int) + dr)).toNat
          = c2 + 10 * r2 := by omega
      have hv := viable_spec board hb shape t c2 r2 hc2lt hr2lt
      rw [hcast1, hcast2] at hv
      rw [hm, Bool.true_and, hq, hq2]
      by_cases hsv : specViable board shape t ((col : Int) + dc) ((row : Int) + dr) = true
      · rw [if_pos hsv, hv.mpr hsv, if_pos rfl]
        show some (c2 + 10 * r2)
          = some ((((col : Int) + dc) + 10 * ((row : Int) + dr)).toNat)
        rw [hq2]
      · have hsv' : specViable board shape t ((col : Int) + dc) ((row : Int) + dr)
            = false := by
          cases hx : specViable board shape t ((col : Int) + dc) ((row : Int) + dr)
          · rfl
          · exact absurd hx hsv
        rw [if_neg hsv]
        have hvb : ((COLLISION shape t).viable board).testBit (c2 + 10 * r2) = false := by
          cases hx : ((COLLISION shape t).viable board).testBit (c2 + 10 * r2)
          · rfl
          · exact absurd (hv.mp hx) hsv
        rw [hvb, if_neg (by simp)]
        exact ih (fun off2 hoff2 => hrange off2 (by simp [hoff2]))
    · have hdec : (decide (0 ≤ (col : Int) + dc) && decide ((col : Int) + dc < 10) &&
          decide (0 ≤ (row : Int) + dr) && decide ((row : Int) + dr < 6)) = false := by
        cases hx : (decide (0 ≤ (col : Int) + dc) && decide ((col : Int) + dc < 10) &&
            decide (0 ≤ (row : Int) + dr) && decide ((row : Int) + dr < 6))
        · rfl
        · exfalso
          rw [Bool.and_eq_true, Bool.and_eq_true, Bool.and_eq_true] at hx
          exact hgrid ⟨of_decide_eq_true hx.1.1.1, of_decide_eq_true hx.1.1.2,
            of_decide_eq_true hx.1.2, of_decide_eq_true hx.2⟩
      have hm : (makeOne (dc, dr)).2.testBit
          ((col + 10 * row + (makeOne (dc, dr)).1) % 64) = false := by
        rw [hmask, hdec]
      rw [hm, Bool.false_and, if_neg (by simp)]
      rw [if_neg (by rw [specViable_out board shape t _ _ hgrid]; simp)]
      exact ih (fun off2 hoff2 => hrange off2 (by simp [hoff2]))

theorem specViable_bounds {board : Nat} {s : Shape} {t : Orient} {col row : Int}
    (h : specViable board s t col row = true) :
    0 ≤ col ∧ col < 10 ∧ 0 ≤ row ∧ row < 6 := by
  rw [specViable, Bool.and_eq_true, Bool.and_eq_true, Bool.and_eq_true,
    List.all_eq_true] at h
  obtain ⟨⟨⟨h1, h2⟩, h3⟩, h4⟩ := h
  obtain ⟨m0, hm0, hc0⟩ := minoes_zero_col s t
  have := h4 m0 hm0
  rw [Bool.and_eq_true] at this
  have hcol := of_decide_eq_true this.1
  rw [hc0] at hcol
  exact ⟨of_decide_eq_true h1, by omega, of_decide_eq_true h2, of_decide_eq_true h3⟩

theorem firstKick_viable (board : Nat) (shape : Shape) (t : Orient) (col row : Int) :
    ∀ (offsets : List (Int × Int)) (cr : Int × Int),
      firstKick board shape t col row offsets = some cr →
      specViable board shape t cr.1 cr.2 = true := by
  intro offsets
  induction offsets with
  | nil => intro cr h; simp [firstKick] at h
  | cons off rest ih =>
    intro cr h
    rw [firstKick] at h
    split at h
    · rename_i hcond
      cases h
      exact hcond
    · exact ih cr h

theorem SpecReach_viable {board : Nat} {phys : Physics} {shape : Shape}
    {o : Orient} {col row : Int} (h : SpecReach board phys shape o col row) :
    specViable board shape o col row = true := by
  induction h with
  | spawn o col row _ hv => exact hv
  | down o col row _ hv _ => exact hv
  | left o col row _ hv _ => exact hv
  | right o col row _ hv _ => exact hv
  | cw o col row col2 row2 _ hfk _ => exact firstKick_viable board shape _ _ _ _ _ hfk
  | half o col row col2 row2 _ hfk _ => exact firstKick_viable board shape _ _ _ _ _ hfk
  | ccw o col row col2 row2 _ hfk _ => exact firstKick_viable board shape _ _ _ _ _ hfk

theorem reach_to_spec (board : Nat) (hb : board < 2 ^ 40) (phys : Physics)
    (shape : Shape) :
    ∀ (o : Orient) (p : Nat),
      Reach (kicksFor phys shape) (fun o2 => (COLLISION shape o2).viable board) o p →
      SpecReach board phys shape o ((p % 10 : Nat) : Int) ((p / 10 : Nat) : Int) := by
  have hlt : ∀ (o : Orient) (p : Nat),
      ((COLLISION shape o).viable board).testBit p = true → p < 60 :=
    fun o p hp => testBit_true_lt (viable_lt shape o board) hp
  have hvs : ∀ (o : Orient) (p : Nat), p < 60 →
      (((COLLISION shape o).viable board).testBit p = true ↔
        specViable board shape o ((p % 10 : Nat) : Int) ((p / 10 : Nat) : Int) = true) := by
    intro o p hp
    have := viable_spec board hb shape o (p % 10) (p / 10) (by omega) (by omega)
    rwa [show p % 10 + 10 * (p / 10) = p from by omega] at this
  have hkick : ∀ (t : Orient) (offsets : List (Int × Int))
      (hr : ∀ off ∈ offsets, off.1 ∈ kickRange ∧ off.2 ∈ kickRange)
      (p q : Nat), p < 60 →
      kickResult (kickData offsets) p ((COLLISION shape t).viable board) = some q →
      firstKick board shape t ((p % 10 : Nat) : Int) ((p / 10 : Nat) : Int) offsets
        = some (((q % 10 : Nat) : Int), ((q / 10 : Nat) : Int)) := by
    intro t offsets hr p q hp hk
    have heq := kickResult_firstKick board hb shape t (p % 10) (p / 10)
      (by omega) (by omega) offsets hr
    rw [show p % 10 + 10 * (p / 10) = p from by omega] at heq
    rw [heq] at hk
    cases hfk : firstKick board shape t ((p % 10 : Nat) : Int)
        ((p / 10 : Nat) : Int) offsets with
    | none => rw [hfk] at hk; simp at hk
    | some cr =>
      rw [hfk] at hk
      simp only [Option.map] at hk
      have hq : (cr.1 + 10 * cr.2).toNat = q := by
        cases hk
        rfl
      have hbounds := specViable_bounds (firstKick_viable board shape t _ _ offsets cr hfk)
      have h1 : ((q % 10 : Nat) : Int) = cr.1 := by omega
      have h2 : ((q / 10 : Nat) : Int) = cr.2 := by omega
      rw [h1, h2]
  intro o p h
  induction h with
  | spawn o p hp =>
    rw [Nat.testBit_and, Bool.and_eq_true] at hp
    obtain ⟨hsp, hv⟩ := hp
    rw [SPAWN_testBit, Bool.and_eq_true] at hsp
    have h40 := of_decide_eq_true hsp.1
    have h60 := of_decide_eq_true hsp.2
    refine SpecReach.spawn o _ _ ?_ ((hvs o p h60).mp hv)
    rcases show p / 10 = 4 ∨ p / 10 = 5 from by omega with h4 | h4
    · exact Or.inl (by rw [h4]; rfl)
    · exact Or.inr (by rw [h4]; rfl)
  | down o p _ hv ih =>
    have hp : p < 60 := hlt o p hv
    have e1 : (p + 10) % 10 = p % 10 := by omega
    have e2 : ((p + 10) / 10 : Nat) = p / 10 + 1 := by omega
    rw [e1, e2] at ih
    have e3 : ((p / 10 + 1 : Nat) : Int) = ((p / 10 : Nat) : Int) + 1 := by push_cast; ring
    rw [e3] at ih
    exact SpecReach.down o _ _ ih ((hvs o p hp).mp hv)
  | left o p _ hl hv ih =>
    have hp : p < 60 := hlt o p hv
    rw [LEFT50_testBit, Bool.and_eq_true] at hl
    have hc8 := of_decide_eq_true hl.2
    have e1 : (p + 1) % 10 = p % 10 + 1 := by omega
    have e2 : ((p + 1) / 10 : Nat) = p / 10 := by omega
    rw [e1, e2] at ih
    have e3 : ((p % 10 + 1 : Nat) : Int) = ((p % 10 : Nat) : Int) + 1 := by push_cast; ring
    rw [e3] at ih
    exact SpecReach.left o _ _ ih ((hvs o p hp).mp hv)
  | right o p _ hr hv ih =>
    have hp : p + 1 < 60 := hlt o (p + 1) hv
    rw [RIGHT50_testBit, Bool.and_eq_true] at hr
    have hc1 := of_decide_eq_true hr.2
    have e1 : (p + 1) % 10 = p % 10 + 1 := by omega
    have e2 : ((p + 1) / 10 : Nat) = p / 10 := by omega
    rw [e1, e2]
    have e3 : ((p % 10 + 1 : Nat) : Int) = ((p % 10 : Nat) : Int) + 1 - 1 + 1 := by
      push_cast
      ring
    have hrec : SpecReach board phys shape o
        (((p % 10 + 1 : Nat) : Int) - 1) ((p / 10 : Nat) : Int) := by
      have e4 : ((p % 10 + 1 : Nat) : Int) - 1 = ((p % 10 : Nat) : Int) := by
        push_cast
        ring
      rw [e4]
      exact ih
    have hv2 := (hvs o (p + 1) hp).mp hv
    rw [e1, e2] at hv2
    exact SpecReach.right o _ _ hrec hv2
  | cw o p q hrec hk ih =>
    have hp : p < 60 := hlt o p (Reach_viab hrec)
    exact SpecReach.cw o _ _ _ _ ih
      (hkick o.cw _ (tables_range phys shape o).1 p q hp hk)
  | half o p q hrec hk ih =>
    have hp : p < 60 := hlt o p (Reach_viab hrec)
    exact SpecReach.half o _ _ _ _ ih
      (hkick o.half _ (tables_range phys shape o).2.1 p q hp hk)
  | ccw o p q hrec hk ih =>
    have hp : p < 60 := hlt o p (Reach_viab hrec)
    exact SpecReach.ccw o _ _ _ _ ih
      (hkick o.ccw _ (tables_range phys shape o).2.2 p q hp hk)

theorem spec_to_reach (board : Nat) (hb : board < 2 ^ 40) (phys : Physics)
    (shape : Shape) :
    ∀ (o : Orient) (col row : Int),
      SpecReach board phys shape o col row →
      Reach (kicksFor phys shape) (fun o2 => (COLLISION shape o2).viable board) o
        (col + 10 * row).toNat := by
  have hvs : ∀ (o : Orient) (col row : Int),
      specViable board shape o col row = true →
      ((COLLISION shape o).viable board).testBit (col + 10 * row).toNat = true := by
    intro o col row hv
    obtain ⟨h1, h2, h3, h4⟩ := specViable_bounds hv
    have := (viable_spec board hb shape o col.toNat row.toNat
      (by omega) (by omega)).mpr
    rw [show ((col.toNat : Nat) : Int) = col from by omega,
      show ((row.toNat : Nat) : Int) = row from by omega] at this
    have h5 := this hv
    rwa [show col.toNat + 10 * row.toNat = (col + 10 * row).toNat from by omega] at h5
  have hkick : ∀ (s : Orient) (t : Orient) (col row col2 row2 : Int)
      (offsets : List (Int × Int))
      (hr : ∀ off ∈ offsets, off.1 ∈ kickRange ∧ off.2 ∈ kickRange),
      specViable board shape s col row = true →
      firstKick board shape t col row offsets = some (col2, row2) →
      kickResult (kickData offsets) (col + 10 * row).toNat
          ((COLLISION shape t).viable board)
        = some (col2 + 10 * row2).toNat := by
    intro s t col row col2 row2 offsets hr hv hfk
    obtain ⟨h1, h2, h3, h4⟩ := specViable_bounds hv
    have heq := kickResult_firstKick board hb shape t col.toNat row.toNat
      (by omega) (by omega) offsets hr
    rw [show ((col.toNat : Nat) : Int) = col from by omega,
      show ((row.toNat : Nat) : Int) = row from by omega,
      show col.toNat + 10 * row.toNat = (col + 10 * row).toNat from by omega] at heq
    rw [heq, hfk]
    rfl
  intro o col row h
  induction h with
  | spawn o col row hrow hv =>
    obtain ⟨h1, h2, h3, h4⟩ := specViable_bounds hv
    refine Reach.spawn o _ ?_
    rw [Nat.testBit_and, Bool.and_eq_true]
    refine ⟨?_, hvs o col row hv⟩
    rw [SPAWN_testBit]
    rcases hrow with h5 | h5 <;> rw [h5] <;>
      rw [decide_eq_true (by omega), decide_eq_true (by omega)] <;> rfl
  | down o col row _ hv ih =>
    obtain ⟨h1, h2, h3, h4⟩ := specViable_bounds hv
    have e1 : (col + 10 * (row + 1)).toNat = (col + 10 * row).toNat + 10 := by omega
    rw [e1] at ih
    exact Reach.down o _ ih (hvs o col row hv)
  | left o col row hrec hv ih =>
    obtain ⟨h1, h2, h3, h4⟩ := specViable_bounds hv
    obtain ⟨g1, g2, g3, g4⟩ := specViable_bounds (SpecReach_viable hrec)
    have e1 : (col + 1 + 10 * row).toNat = (col + 10 * row).toNat + 1 := by omega
    rw [e1] at ih
    refine Reach.left o _ ih ?_ (hvs o col row hv)
    rw [LEFT50_testBit]
    rw [decide_eq_true (by omega : (col + 10 * row).toNat < 60),
      decide_eq_true (show (col + 10 * row).toNat % 10 < 9 from by omega)]
    rfl
  | right o col row hrec hv ih =>
    obtain ⟨h1, h2, h3, h4⟩ := specViable_bounds hv
    obtain ⟨g1, g2, g3, g4⟩ := specViable_bounds (SpecReach_viable hrec)
    have e1 : (col + 10 * row).toNat = (col - 1 + 10 * row).toNat + 1 := by omega
    rw [e1]
    refine Reach.right o _ ih ?_ ?_
    · rw [RIGHT50_testBit]
      rw [decide_eq_true (show (col - 1 + 10 * row).toNat + 1 < 60 from by omega),
        decide_eq_true (show 1 ≤ ((col - 1 + 10 * row).toNat + 1) % 10 from by omega)]
      rfl
    · have := hvs o col row hv
      rwa [show (col + 10 * row).toNat = (col - 1 + 10 * row).toNat + 1 from by omega]
        at this
  | cw o col row col2 row2 hrec hfk ih =>
    have hv := SpecReach_viable hrec
    have hk := hkick o o.cw col row col2 row2 _ (tables_range phys shape o).1 hv hfk
    exact Reach.cw o _ _ ih hk
  | half o col row col2 row2 hrec hfk ih =>
    have hv := SpecReach_viable hrec
    have hk := hkick o o.half col row col2 row2 _ (tables_range phys shape o).2.1 hv hfk
    exact Reach.half o _ _ ih hk
  | ccw o col row col2 row2 hrec hfk ih =>
    have hv := SpecReach_viable hrec
    have hk := hkick o o.ccw col row col2 row2 _ (tables_range phys shape o).2.2 hv hfk
    exact Reach.ccw o _ _ ih hk

theorem placeableShift_iff (s : Shape) (o : Orient) (col row : Nat)
    (hc : col < 10) (hr : row < 4) :
    ((COLLISION s o).placeableShift + (col + 10 * row) < 64 ↔
      ∀ m ∈ COLLISION_MINOES s o, (row : Int) + (m.2 : Int) < 4) := by
  cases s <;> cases o <;>
    (simp only [COLLISION, Collision.make, COLLISION_MINOES, List.forall_mem_cons,
      List.foldl_cons, List.foldl_nil]
     norm_num
     omega)

theorem COLLISION_O (o : Orient) : COLLISION .O o = COLLISION .O .North := by
  cases o <;> rfl

theorem flood_O_iff (b : Nat) (o : Orient) (p : Nat) :
    ((floodFill 61 (SPAWN &&& (COLLISION .O .North).viable b)
        ((COLLISION .O .North).viable b)).testBit p = true ↔
      Reach SRS_O (fun _ => (COLLISION .O .North).viable b) o p) := by
  have hvlt : (COLLISION .O .North).viable b < 2 ^ 60 := viable_lt .O .North b
  have hxlt : SPAWN &&& (COLLISION .O .North).viable b < 2 ^ 60 :=
    bsub_lt (bsub_and_right _ _) hvlt
  constructor
  · intro h
    exact floodFill_sound 61 (fun p hp => Reach.spawn o p hp) p h
  · intro h
    induction h with
    | spawn o p hp => exact floodFill_subset 61 _ _ p hp
    | down o p _ hv2 ih =>
      exact orDown_fixed_step
        (floodStep_fixed_parts (floodFill_fixed _ _ hxlt hvlt)).1 ih hv2
    | left o p _ hl hv2 ih =>
      exact orLeft_fixed_step
        (floodStep_fixed_parts (floodFill_fixed _ _ hxlt hvlt)).2.1 ih hl hv2
    | right o p _ hr hv2 ih =>
      have h64 : p + 1 < 64 := by
        have := testBit_true_lt hvlt hv2
        omega
      exact orRight_fixed_step
        (floodStep_fixed_parts (floodFill_fixed _ _ hxlt hvlt)).2.2 h64 ih hr hv2
    | cw o p q _ hk ih =>
      exfalso
      cases o <;> simp [SRS_O, kickData, kickResult] at hk
    | half o p q _ hk ih =>
      exfalso
      cases o <;> simp [SRS_O, kickData, kickResult] at hk
    | ccw o p q _ hk ih =>
      exfalso
      cases o <;> simp [SRS_O, kickData, kickResult] at hk

/-- The common final step: if `r` is a flood-closed vector whose bits are
exactly the closure-reachable positions, then the `placeable` extraction of
`r` agrees with spec-level placeability at every board cell. -/
theorem placeable_spec_iff (board : Nat) (hb : board < 2 ^ 40) (phys : Physics)
    (shape : Shape) (o : Orient) (r : Nat)
    (hiff : ∀ p : Nat, (r.testBit p = true ↔
      Reach (kicksFor phys shape) (fun o2 => (COLLISION shape o2).viable board) o p))
    (hfix : orDown r ((COLLISION shape o).viable board) = r)
    (col row : Nat) (hcol : col < 10) (hrow : row < 4) :
    (((COLLISION shape o).placeable r).testBit (col + 10 * row) = true ↔
      specPlaceable board phys shape o (col : Int) (row : Int)) := by
  have e1 : (col + 10 * row) % 10 = col := by omega
  have e2 : (col + 10 * row) / 10 = row := by omega
  rw [placeable_tb]
  constructor
  · intro h
    rw [Bool.and_eq_true, Bool.and_eq_true] at h
    obtain ⟨⟨hA, hB⟩, hN⟩ := h
    have hA' := of_decide_eq_true hA
    have hreach := reach_to_spec board hb phys shape o _ ((hiff _).mp hB)
    rw [e1, e2] at hreach
    refine ⟨hreach, (placeableShift_iff shape o col row hcol hrow).mp (by omega), ?_⟩
    cases hx : specViable board shape o (col : Int) ((row : Int) - 1)
    · rfl
    · exfalso
      obtain ⟨g1, g2, g3, g4⟩ := specViable_bounds hx
      have hrow1 : 1 ≤ row := by omega
      have hp10 : 10 ≤ col + 10 * row := by omega
      have hvb : ((COLLISION shape o).viable board).testBit
          (col + 10 * row - 10) = true := by
        have := (viable_spec board hb shape o col (row - 1) hcol (by omega)).mpr
        rw [show ((row - 1 : Nat) : Int) = (row : Int) - 1 from by omega] at this
        have h5 := this hx
        rwa [show col + 10 * (row - 1) = col + 10 * row - 10 from by omega] at h5
      have hup : r.testBit (col + 10 * row - 10 + 10) = true := by
        rwa [show col + 10 * row - 10 + 10 = col + 10 * row from by omega]
      have hdown := orDown_fixed_step hfix hup hvb
      rw [decide_eq_true hp10, hdown] at hN
      simp at hN
  · rintro ⟨hreach, h4, hrest⟩
    have hB : r.testBit (col + 10 * row) = true := by
      apply (hiff (col + 10 * row)).mpr
      have h5 := spec_to_reach board hb phys shape o _ _ hreach
      rwa [show (((col : Nat) : Int) + 10 * ((row : Nat) : Int)).toNat
        = col + 10 * row from by omega] at h5
    have hA : decide ((COLLISION shape o).placeableShift + (col + 10 * row) < 64)
        = true :=
      decide_eq_true (by
        have := (placeableShift_iff shape o col row hcol hrow).mpr h4
        omega)
    rw [hA, hB, Bool.true_and, Bool.true_and]
    cases hd : decide (10 ≤ col + 10 * row)
    · rfl
    · have hp10 := of_decide_eq_true hd
      have hrow1 : 1 ≤ row := by omega
      cases hr2 : r.testBit (col + 10 * row - 10)
      · rfl
      · exfalso
        have hreach2 := (hiff _).mp hr2
        have hvb := Reach_viab hreach2
        have hsv := (viable_spec board hb shape o ((col + 10 * row - 10) % 10)
          ((col + 10 * row - 10) / 10) (by omega) (by omega)).mp (by
            rwa [show (col + 10 * row - 10) % 10 + 10 * ((col + 10 * row - 10) / 10)
              = col + 10 * row - 10 from by omega])
        rw [show ((col + 10 * row - 10) % 10 : Nat) = col from by omega,
          show ((col + 10 * row - 10) / 10 : Nat) = row - 1 from by omega,
          show ((row - 1 : Nat) : Int) = (row : Int) - 1 from by omega] at hsv
        rw [hsv] at hrest
        simp at hrest

/-- C1: for every 40-bit board, shape, physics and orientation, the bit at
position `col + 10*row` of `Placements::place(board, shape, physics)`'s
position vector is set exactly when the piece `(shape, col, row, o)` is
reachable from a spawn position (rows 4 and 5) by legal single-step
movements and first-fit kicks of that physics' tables, lies entirely within
the bottom four rows, and rests on a filled cell or the bottom of the
board (the position one row down is not viable). -/
theorem C1_engine_spec (board : Nat) (hboard : board < 2 ^ 40) (shape : Shape)
    (phys : Physics) (o : Orient) (col row : Nat) (hcol : col < 10)
    (hrow : row < 4) :
    (((place board shape phys).pos o).testBit (col + 10 * row) = true ↔
      specPlaceable board phys shape o (col : Int) (row : Int)) := by
  by_cases hO : shape = .O
  · subst hO
    have hpos : (place board .O phys).pos o
        = (COLLISION .O .North).placeable
            (floodFill 61 (SPAWN &&& (COLLISION .O .North).viable board)
              ((COLLISION .O .North).viable board)) := by
      rw [place, if_pos rfl]
    rw [hpos, ← COLLISION_O o]
    refine placeable_spec_iff board hboard phys .O o _ ?_ ?_ col row hcol hrow
    · intro p
      have hfun : (fun o2 => (COLLISION Shape.O o2).viable board)
          = (fun _ : Orient => (COLLISION Shape.O o).viable board) :=
        funext fun o2 => by rw [COLLISION_O o2, COLLISION_O o]
      rw [show kicksFor phys .O = SRS_O from by cases phys <;> rfl, hfun,
        COLLISION_O o]
      exact flood_O_iff board o p
    · rw [COLLISION_O o]
      exact (floodStep_fixed_parts (floodFill_fixed _ _
        (bsub_lt (bsub_and_right _ _) (viable_lt .O .North board))
        (viable_lt .O .North board))).1
  · rw [place_pos board shape phys hO o]
    exact placeable_spec_iff board hboard phys shape o _
      (fun p => final_reach_iff board shape phys o p)
      (final_orDown_fixed board shape phys o) col row hcol hrow

/-- Witness for `C1_engine_spec` at board 1, shape T, SRS, North, cell
(0, 0). -/
theorem C1_engine_spec_witness :
    ((1 : Nat) < 2 ^ 40 ∧ (0 : Nat) < 10 ∧ (0 : Nat) < 4) ∧
    (((place 1 .T .SRS).pos .North).testBit (0 + 10 * 0) = true ↔
      specPlaceable 1 .SRS .T .North ((0 : Nat) : Int) ((0 : Nat) : Int)) :=
  ⟨by decide, C1_engine_spec 1 (by decide) .T .SRS .North 0 0 (by decide) (by decide)⟩

/-! ## Row-level characterization of the line-sorting loops -/

theorem and1023 (x : Nat) : x &&& 0x3FF = x % 1024 := by
  have h := Nat.and_pow_two_sub_one_eq_mod x 10
  norm_num at h
  exact h

theorem rowOf_lt (g i : Nat) : rowOf g i < 1024 := by
  rw [rowOf, and1023]
  omega

theorem rowOf_eq_div (g i : Nat) : rowOf g i = g / 2 ^ (10 * i) % 1024 := by
  rw [rowOf, Nat.shiftRight_eq_div_pow, and1023]

theorem shl_or_add (x y k : Nat) (hy : y < 2 ^ k) : (x <<< k) ||| y = 2 ^ k * x + y := by
  rw [Nat.shiftLeft_eq, Nat.mul_comm]
  exact (Nat.mul_add_lt_is_or hy x).symm

theorem garbRunF_invar (g : Nat) (L : List Nat) :
    ∀ (B cl c n : Nat), B < 2 ^ (10 * n) → n + c + L.length ≤ 4 →
    garbRunF g L (B, cl, 2 ^ (10 * c) - 1, 10 * c) =
      (List.foldl (fun a r => 1024 * a + r) B
         ((L.filter (fun r => !(rowOf g r == 1023))).map (rowOf g)),
       List.foldl (fun a r => a ||| 1 <<< r) cl (L.filter (fun r => rowOf g r == 1023)),
       2 ^ (10 * (c + (L.filter (fun r => rowOf g r == 1023)).length)) - 1,
       10 * (c + (L.filter (fun r => rowOf g r == 1023)).length)) := by
  induction L with
  | nil => intro B cl c n hB hlen; simp [garbRunF]
  | cons r t ih =>
    intro B cl c n hB hlen
    have hlen' : n + c + t.length + 1 ≤ 4 := by
      simpa [List.length_cons, Nat.add_assoc] using hlen
    have hcond : (g >>> (r * 10)) &&& 0x3FF = rowOf g r := by
      rw [rowOf, Nat.mul_comm]
    by_cases h : rowOf g r = 1023
    · have hc3 : c ≤ 3 := by omega
      have hcomp : (((2 ^ (10 * c) - 1) <<< 10) ||| 0x3FF) % 2 ^ 64 =
          2 ^ (10 * (c + 1)) - 1 := by
        interval_cases c <;> rfl
      have hstep : fromGarbageStep g r (B, cl, 2 ^ (10 * c) - 1, 10 * c) =
          (B, cl ||| 1 <<< r, 2 ^ (10 * (c + 1)) - 1, 10 * (c + 1)) := by
        simp only [fromGarbageStep, hcond, if_pos h, hcomp, Prod.mk.injEq]
        exact ⟨trivial, trivial, trivial, by omega⟩
      rw [garbRunF, hstep, ih B (cl ||| 1 <<< r) (c + 1) n hB (by omega)]
      have hb : (rowOf g r == 1023) = true := by simp [h]
      simp [List.filter_cons, hb] <;> (ring_nf <;> trivial)
    · have hn3 : n ≤ 3 := by omega
      have hB30 : B < 2 ^ 30 := by
        calc B < 2 ^ (10 * n) := hB
        _ ≤ 2 ^ 30 := Nat.pow_le_pow_right (by norm_num) (by omega)
      have hrow := rowOf_lt g r
      have hstep : fromGarbageStep g r (B, cl, 2 ^ (10 * c) - 1, 10 * c) =
          (1024 * B + rowOf g r, cl, 2 ^ (10 * c) - 1, 10 * c) := by
        simp only [fromGarbageStep, hcond, if_neg h]
        have hsm : (B <<< 10) % 2 ^ 64 = 1024 * B := by
          rw [Nat.shiftLeft_eq, Nat.mod_eq_of_lt (by omega), Nat.mul_comm]
        rw [hsm]
        have h1 := (Nat.mul_add_lt_is_or (show rowOf g r < 2 ^ 10 by omega) B).symm
        norm_num at h1
        rw [h1]
      rw [garbRunF, hstep]
      have hB' : 1024 * B + rowOf g r < 2 ^ (10 * (n + 1)) := by
        have : 2 ^ (10 * (n + 1)) = 1024 * 2 ^ (10 * n) := by ring
        omega
      rw [ih (1024 * B + rowOf g r) cl c (n + 1) hB' (by omega)]
      have hb : (rowOf g r == 1023) = false := by simp [h]
      simp [List.filter_cons, hb] <;> (ring_nf <;> trivial)

theorem length_filter_partition (p : Nat → Bool) (l : List Nat) :
    (l.filter p).length + (l.filter (fun x => !(p x))).length = l.length := by
  induction l with
  | nil => rfl
  | cons x t ih =>
    by_cases h : p x = true <;> simp [List.filter_cons, h] <;> omega

theorem foldl_horner_rev (l : List Nat) :
    ∀ B, List.foldl (fun a r => 1024 * a + r) B l.reverse =
      2 ^ (10 * l.length) * B + packRows l := by
  induction l with
  | nil => intro B; simp [packRows]
  | cons x t ih =>
    intro B
    simp only [List.reverse_cons, List.foldl_append, List.foldl_cons, List.foldl_nil, ih,
      packRows, List.length_cons]
    ring

theorem foldl_horner_lt (l : List Nat) (hl : ∀ r ∈ l, r < 1024) :
    ∀ B n, B < 2 ^ (10 * n) →
      List.foldl (fun a r => 1024 * a + r) B l < 2 ^ (10 * (n + l.length)) := by
  induction l with
  | nil => intro B n hB; simpa using hB
  | cons x t ih =>
    intro B n hB
    have hx : x < 1024 := hl x (List.mem_cons_self x t)
    have he : 10 * (n + (x :: t).length) = 10 * ((n + 1) + t.length) := by
      simp [List.length_cons]; ring
    simp only [List.foldl_cons]
    rw [he]
    refine ih (fun r hr => hl r (List.mem_cons_of_mem x hr)) (1024 * B + x) (n + 1) ?_
    have h2 : 2 ^ (10 * (n + 1)) = 1024 * 2 ^ (10 * n) := by ring
    omega

theorem packRows_replicate (m : Nat) (l : List Nat) :
    packRows (List.replicate m 1023 ++ l) =
      2 ^ (10 * m) * packRows l + (2 ^ (10 * m) - 1) := by
  induction m with
  | zero => simp [packRows]
  | succ k ih =>
    simp only [List.replicate_succ, List.cons_append, List.append_eq, packRows, ih]
    have hQ : 1 ≤ 2 ^ (10 * k) := Nat.one_le_two_pow
    have h2 : 2 ^ (10 * (k + 1)) = 1024 * 2 ^ (10 * k) := by ring
    rw [h2, Nat.mul_assoc]
    omega

theorem packRows_lt (l : List Nat) (hl : ∀ r ∈ l, r < 1024) :
    packRows l < 2 ^ (10 * l.length) := by
  induction l with
  | nil => simp [packRows]
  | cons x t ih =>
    have hx := hl x (List.mem_cons_self x t)
    have ht := ih (fun r hr => hl r (List.mem_cons_of_mem x hr))
    simp only [packRows, List.length_cons]
    have h2 : 2 ^ (10 * (t.length + 1)) = 1024 * 2 ^ (10 * t.length) := by ring
    omega

theorem foldl_or_fullMask (g : Nat) :
    List.foldl (fun a r => a ||| 1 <<< r) 0
        (List.filter (fun r => rowOf g r == 1023) [3, 2, 1, 0]) =
      fullMaskSpec (rowsOf g) := by
  by_cases h0 : rowOf g 0 = 1023 <;> by_cases h1 : rowOf g 1 = 1023 <;>
    by_cases h2 : rowOf g 2 = 1023 <;> by_cases h3 : rowOf g 3 = 1023 <;>
    simp [rowsOf, fullMaskSpec, h0, h1, h2, h3] <;> decide

theorem rowsFilter_map (g : Nat) :
    List.filter (fun r => !(r == 1023)) (rowsOf g) =
      List.map (rowOf g) (List.filter (fun i => !(rowOf g i == 1023)) [0, 1, 2, 3]) := by
  have hmap : rowsOf g = List.map (rowOf g) [0, 1, 2, 3] := by simp [rowsOf]
  rw [hmap, List.filter_map]
  rfl

theorem filter_rev_3210 (g : Nat) :
    List.filter (fun i => !(rowOf g i == 1023)) [3, 2, 1, 0] =
      (List.filter (fun i => !(rowOf g i == 1023)) [0, 1, 2, 3]).reverse := by
  have hrev : [3, 2, 1, 0] = List.reverse [0, 1, 2, 3] := rfl
  rw [hrev, List.filter_reverse]

theorem hornerF (g : Nat) :
    List.foldl (fun a r => 1024 * a + r) 0
        (List.map (rowOf g) (List.filter (fun i => !(rowOf g i == 1023)) [3, 2, 1, 0])) =
      packRows (List.filter (fun r => !(r == 1023)) (rowsOf g)) := by
  rw [filter_rev_3210, List.map_reverse, foldl_horner_rev, rowsFilter_map]
  ring

theorem rowsPartition (g : Nat) :
    (List.filter (fun r => rowOf g r == 1023) [3, 2, 1, 0]).length +
      (List.filter (fun r => !(r == 1023)) (rowsOf g)).length = 4 := by
  have h1 := length_filter_partition (fun r => rowOf g r == 1023) [3, 2, 1, 0]
  have h2 : (List.filter (fun x => !(rowOf g x == 1023)) [3, 2, 1, 0]).length =
      (List.filter (fun r => !(r == 1023)) (rowsOf g)).length := by
    rw [filter_rev_3210, List.length_reverse, rowsFilter_map, List.length_map]
  rw [← h2]
  simpa using h1

theorem nfRows_lt (g : Nat) :
    ∀ r ∈ List.filter (fun r => !(r == 1023)) (rowsOf g), r < 1024 := by
  intro r hr
  rcases List.mem_map.mp ((rowsFilter_map g) ▸ hr) with ⟨i, _, hi⟩
  rw [← hi]; exact rowOf_lt g i

theorem boardAssemble (g : Nat) :
    2 ^ (10 * (0 + (List.filter (fun r => rowOf g r == 1023) [3, 2, 1, 0]).length)) *
        packRows (List.filter (fun r => !(r == 1023)) (rowsOf g)) +
      (2 ^ (10 * (0 + (List.filter (fun r => rowOf g r == 1023) [3, 2, 1, 0]).length)) - 1)
    = packRows (sortedRowsSpec (rowsOf g)) := by
  have hrows_len : (rowsOf g).length = 4 := rfl
  rw [sortedRowsSpec, hrows_len, packRows_replicate]
  have hnl4 := rowsPartition g
  have he : 0 + (List.filter (fun r => rowOf g r == 1023) [3, 2, 1, 0]).length =
      4 - (List.filter (fun r => !(r == 1023)) (rowsOf g)).length := by omega
  rw [he]

theorem sortedRows_lt (g : Nat) : packRows (sortedRowsSpec (rowsOf g)) < 2 ^ 40 := by
  have hlen : (sortedRowsSpec (rowsOf g)).length = 4 := by
    have hrows_len : (rowsOf g).length = 4 := rfl
    have := rowsPartition g
    simp only [sortedRowsSpec, List.length_append, List.length_replicate, hrows_len]
    omega
  have h := packRows_lt (sortedRowsSpec (rowsOf g)) ?_
  · rw [hlen] at h; simpa using h
  · intro r hr
    rcases List.mem_append.mp hr with h1 | h1
    · have := List.eq_of_mem_replicate h1
      omega
    · exact nfRows_lt g r h1

theorem fromGarbage_spec (g : Nat) :
    (BrokenBoard.fromGarbage g).board = packRows (sortedRowsSpec (rowsOf g)) ∧
    (BrokenBoard.fromGarbage g).clearedRows = fullMaskSpec (rowsOf g) := by
  have h00 : ((0 : Nat), (0 : Nat), (0 : Nat), (0 : Nat))
      = ((0 : Nat), (0 : Nat), 2 ^ (10 * 0) - 1, 10 * 0) := by norm_num
  have hinv := garbRunF_invar g [3, 2, 1, 0] 0 0 0 0 (by norm_num) (by norm_num)
  rw [← h00] at hinv
  constructor
  · show ((((garbRunF g [3, 2, 1, 0] (0, 0, 0, 0)).1 <<<
        (garbRunF g [3, 2, 1, 0] (0, 0, 0, 0)).2.2.2) % 2 ^ 64) |||
        (garbRunF g [3, 2, 1, 0] (0, 0, 0, 0)).2.2.1) =
      packRows (sortedRowsSpec (rowsOf g))
    rw [hinv]
    have hpack_lt := packRows_lt _ (nfRows_lt g)
    have hp : 0 < 2 ^ (10 * (0 + (List.filter (fun r => rowOf g r == 1023) [3, 2, 1, 0]).length)) :=
      pow_pos (by norm_num) _
    rw [hornerF]
    rw [Nat.shiftLeft_eq, Nat.mul_comm]
    have h40 : 2 ^ (10 * (0 + (List.filter (fun r => rowOf g r == 1023) [3, 2, 1, 0]).length)) *
        2 ^ (10 * (List.filter (fun r => !(r == 1023)) (rowsOf g)).length) = 2 ^ 40 := by
      rw [← pow_add]; congr 1
      have := rowsPartition g
      omega
    have hmul := mul_lt_mul_of_pos_left hpack_lt hp
    have hlt : 2 ^ (10 * (0 + (List.filter (fun r => rowOf g r == 1023) [3, 2, 1, 0]).length)) *
        packRows (List.filter (fun r => !(r == 1023)) (rowsOf g)) < 2 ^ 64 := by omega
    rw [Nat.mod_eq_of_lt hlt]
    rw [(Nat.mul_add_lt_is_or (Nat.sub_lt hp Nat.one_pos) _).symm]
    exact boardAssemble g
  · show (garbRunF g [3, 2, 1, 0] (0, 0, 0, 0)).2.1 = fullMaskSpec (rowsOf g)
    rw [hinv]
    exact foldl_or_fullMask g

theorem readRow (g j : Nat) (hg : g < 2 ^ 40) (hj : j ≤ 3) :
    (((g <<< (10 * j)) % 2 ^ 64) >>> 30) &&& 0x3FF = rowOf g (3 - j) := by
  rw [Nat.shiftLeft_eq, Nat.shiftRight_eq_div_pow, and1023, rowOf_eq_div]
  interval_cases j <;> norm_num <;> omega

theorem shiftNext (g j : Nat) :
    ((((g <<< (10 * j)) % 2 ^ 64) <<< 10) % 2 ^ 64) = (g <<< (10 * (j + 1))) % 2 ^ 64 := by
  simp only [Nat.shiftLeft_eq]
  rw [Nat.mod_mul_mod]
  congr 1
  rw [Nat.mul_assoc, ← pow_add]
  ring

theorem placeRun_invar (g : Nat) (hg : g < 2 ^ 40) :
    ∀ (n j B cl c nb : Nat), j + n = 4 → B < 2 ^ (10 * nb) → nb + c + n ≤ 4 →
    placeRun n ((g <<< (10 * j)) % 2 ^ 64, B, 2 ^ (10 * c) - 1, 10 * c) =
      ((g <<< (10 * (j + n))) % 2 ^ 64,
       List.foldl (fun a r => 1024 * a + r) B
         (((List.range n).reverse.filter (fun r => !(rowOf g r == 1023))).map (rowOf g)),
       2 ^ (10 * (c + ((List.range n).reverse.filter (fun r => rowOf g r == 1023)).length)) - 1,
       10 * (c + ((List.range n).reverse.filter (fun r => rowOf g r == 1023)).length)) := by
  intro n
  induction n with
  | zero => intro j B cl c nb hj hB hlen; simp [placeRun]
  | succ m ih =>
    intro j B cl c nb hj hB hlen
    have hj3 : j ≤ 3 := by omega
    have hrow : (((g <<< (10 * j)) % 2 ^ 64) >>> 30) &&& 0x3FF = rowOf g m := by
      have := readRow g j hg hj3
      have h3 : 3 - j = m := by omega
      rw [h3] at this
      exact this
    have hlist : (List.range (m + 1)).reverse = m :: (List.range m).reverse := by
      rw [List.range_succ, List.reverse_append]
      rfl
    rw [placeRun]
    by_cases h : rowOf g m = 1023
    · have hc3 : c ≤ 3 := by omega
      have hcomp : (((2 ^ (10 * c) - 1) <<< 10) ||| rowOf g m) % 2 ^ 64 =
          2 ^ (10 * (c + 1)) - 1 := by
        rw [h]; interval_cases c <;> rfl
      have hstep : placeStep ((g <<< (10 * j)) % 2 ^ 64, B, 2 ^ (10 * c) - 1, 10 * c) =
          ((g <<< (10 * (j + 1))) % 2 ^ 64, B, 2 ^ (10 * (c + 1)) - 1, 10 * (c + 1)) := by
        simp only [placeStep, hrow, if_pos h, hcomp, shiftNext, Prod.mk.injEq]
        exact ⟨trivial, trivial, trivial, by omega⟩
      rw [hstep, ih (j + 1) B cl (c + 1) nb (by omega) hB (by omega)]
      have hb : (rowOf g m == 1023) = true := by simp [h]
      rw [hlist]
      simp [List.filter_cons, hb] <;> (ring_nf <;> trivial)
    · have hnb3 : nb ≤ 3 := by omega
      have hB30 : B < 2 ^ 30 := by
        calc B < 2 ^ (10 * nb) := hB
        _ ≤ 2 ^ 30 := Nat.pow_le_pow_right (by norm_num) (by omega)
      have hr1024 := rowOf_lt g m
      have hstep : placeStep ((g <<< (10 * j)) % 2 ^ 64, B, 2 ^ (10 * c) - 1, 10 * c) =
          ((g <<< (10 * (j + 1))) % 2 ^ 64, 1024 * B + rowOf g m, 2 ^ (10 * c) - 1, 10 * c) := by
        simp only [placeStep, hrow, if_neg h, shiftNext]
        have hor : ((B <<< 10) ||| rowOf g m) % 2 ^ 64 = 1024 * B + rowOf g m := by
          rw [Nat.shiftLeft_eq, Nat.mul_comm]
          rw [(Nat.mul_add_lt_is_or (show rowOf g m < 2 ^ 10 by omega) B).symm]
          rw [Nat.mod_eq_of_lt (by omega)]
        rw [hor]
      rw [hstep]
      have hB' : 1024 * B + rowOf g m < 2 ^ (10 * (nb + 1)) := by
        have : 2 ^ (10 * (nb + 1)) = 1024 * 2 ^ (10 * nb) := by ring
        omega
      rw [ih (j + 1) (1024 * B + rowOf g m) cl c (nb + 1) (by omega) hB' (by omega)]
      have hb : (rowOf g m == 1023) = false := by simp [h]
      rw [hlist]
      simp [List.filter_cons, hb] <;> (ring_nf <;> trivial)

theorem sortFullRows_spec (u : Nat) (hu : u < 2 ^ 40) :
    sortFullRows u = packRows (sortedRowsSpec (rowsOf u)) := by
  have h0 : u = (u <<< (10 * 0)) % 2 ^ 64 := by
    rw [Nat.shiftLeft_eq]
    norm_num
    omega
  have h00 : ((u : Nat), (0 : Nat), (0 : Nat), (0 : Nat))
      = ((u <<< (10 * 0)) % 2 ^ 64, (0 : Nat), 2 ^ (10 * 0) - 1, 10 * 0) := by
    rw [← h0]; norm_num
  have hinv := placeRun_invar u hu 4 0 0 0 0 0 (by norm_num) (by norm_num) (by norm_num)
  rw [← h00] at hinv
  have hr4 : (List.range 4).reverse = [3, 2, 1, 0] := rfl
  rw [hr4] at hinv
  show ((placeRun 4 (u, 0, 0, 0)).2.1 <<< (placeRun 4 (u, 0, 0, 0)).2.2.2 |||
      (placeRun 4 (u, 0, 0, 0)).2.2.1) % 2 ^ 64 = packRows (sortedRowsSpec (rowsOf u))
  rw [hinv]
  have hpack_lt := packRows_lt _ (nfRows_lt u)
  have hp : 0 < 2 ^ (10 * (0 + (List.filter (fun r => rowOf u r == 1023) [3, 2, 1, 0]).length)) :=
    pow_pos (by norm_num) _
  rw [hornerF]
  rw [Nat.shiftLeft_eq, Nat.mul_comm]
  have h40 : 2 ^ (10 * (0 + (List.filter (fun r => rowOf u r == 1023) [3, 2, 1, 0]).length)) *
      2 ^ (10 * (List.filter (fun r => !(r == 1023)) (rowsOf u)).length) = 2 ^ 40 := by
    rw [← pow_add]; congr 1
    have := rowsPartition u
    omega
  have hmul := mul_lt_mul_of_pos_left hpack_lt hp
  rw [(Nat.mul_add_lt_is_or (Nat.sub_lt hp Nat.one_pos) _).symm]
  rw [boardAssemble u]
  exact Nat.mod_eq_of_lt (by have := sortedRows_lt u; omega)

theorem shl_inj (x y k : Nat) : (x <<< k = y <<< k) ↔ x = y := by
  simp only [Nat.shiftLeft_eq]
  constructor
  · intro h
    exact Nat.eq_of_mul_eq_mul_right (pow_pos (by norm_num) k) h
  · intro h; rw [h]

theorem and_mask_row (b i : Nat) :
    b &&& (0x3FF <<< (10 * i)) = (rowOf b i) <<< (10 * i) := by
  apply Nat.eq_of_testBit_eq
  intro j
  rw [Nat.testBit_and, Nat.testBit_shiftLeft, Nat.testBit_shiftLeft, rowOf,
    Nat.testBit_and, Nat.testBit_shiftRight]
  by_cases hj : 10 * i ≤ j
  · rw [decide_eq_true hj, Nat.add_sub_cancel' hj]
    simp [Bool.and_comm, Bool.and_left_comm]
  · rw [decide_eq_false hj]
    simp

theorem rowFull_iff (b i : Nat) :
    b &&& (0x3FF <<< (10 * i)) = 0x3FF <<< (10 * i) ↔ rowOf b i = 1023 := by
  rw [and_mask_row]
  exact shl_inj _ _ _

theorem fullLineCount_rows (b : Nat) :
    fullLineCount b =
      if rowOf b 0 = 1023 then
        if rowOf b 1 = 1023 then
          if rowOf b 2 = 1023 then
            if rowOf b 3 = 1023 then 4 else 3
          else 2
        else 1
      else 0 := by
  have h0 : (b &&& 0x3FF = 0x3FF) ↔ rowOf b 0 = 1023 := by
    have := rowFull_iff b 0
    norm_num at this ⊢
    rw [and1023] at this ⊢
    exact this
  have h1 := rowFull_iff b 1
  have h2 := rowFull_iff b 2
  have h3 := rowFull_iff b 3
  norm_num at h1 h2 h3
  have e1 : (1023 : Nat) <<< 10 = 1047552 := rfl
  have e2 : (1023 : Nat) <<< 20 = 1072693248 := rfl
  have e3 : (1023 : Nat) <<< 30 = 1098437885952 := rfl
  rw [e1] at h1
  rw [e2] at h2
  rw [e3] at h3
  rw [fullLineCount]
  by_cases c0 : rowOf b 0 = 1023 <;> by_cases c1 : rowOf b 1 = 1023 <;>
    by_cases c2 : rowOf b 2 = 1023 <;> by_cases c3 : rowOf b 3 = 1023 <;>
    simp [h0, h1, h2, h3, c0, c1, c2, c3]

theorem rowsOf_packRows (l : List Nat) (h4 : l.length = 4)
    (hlt : ∀ r ∈ l, r < 1024) : rowsOf (packRows l) = l := by
  rcases l with _ | ⟨a, _ | ⟨b, _ | ⟨c, _ | ⟨d, _ | ⟨e, t⟩⟩⟩⟩⟩ <;> simp_all
  have ha : a < 1024 := hlt.1
  have hb : b < 1024 := hlt.2.1
  have hc : c < 1024 := hlt.2.2.1
  have hd : d < 1024 := hlt.2.2.2
  simp only [rowsOf, rowOf_eq_div, packRows]
  norm_num
  refine ⟨by omega, by omega, by omega, by omega⟩

theorem sortedRows_length (l : List Nat) : (sortedRowsSpec l).length = l.length := by
  have h := length_filter_partition (fun r => r == 1023) l
  simp only [sortedRowsSpec, List.length_append, List.length_replicate]
  omega

theorem sortedRows_elem_lt (l : List Nat) (hlt : ∀ r ∈ l, r < 1024) :
    ∀ r ∈ sortedRowsSpec l, r < 1024 := by
  intro r hr
  rcases List.mem_append.mp hr with h | h
  · have := List.eq_of_mem_replicate h
    omega
  · exact hlt r (List.mem_of_mem_filter h)

theorem sortedRowsSpec_idem (l : List Nat) :
    sortedRowsSpec (sortedRowsSpec l) = sortedRowsSpec l := by
  have hfull : List.filter (fun r => !(r == 1023)) (sortedRowsSpec l) =
      List.filter (fun r => !(r == 1023)) l := by
    simp only [sortedRowsSpec, List.filter_append, List.filter_replicate]
    norm_num
  conv_lhs => rw [sortedRowsSpec]
  rw [hfull, sortedRows_length]
  rfl

theorem rowOf_pack4 (a b c d : Nat) (ha : a < 1024) (hb : b < 1024)
    (hc : c < 1024) (hd : d < 1024) :
    rowOf (packRows [a, b, c, d]) 0 = a ∧ rowOf (packRows [a, b, c, d]) 1 = b ∧
    rowOf (packRows [a, b, c, d]) 2 = c ∧ rowOf (packRows [a, b, c, d]) 3 = d := by
  have h := rowsOf_packRows [a, b, c, d] (by simp)
    (by intro r hr; simp at hr; rcases hr with h | h | h | h <;> omega)
  simpa [rowsOf] using h

theorem fullLineCount_pack4 (a b c d : Nat) (ha : a < 1024) (hb : b < 1024)
    (hc : c < 1024) (hd : d < 1024) :
    fullLineCount (packRows [a, b, c, d]) =
      if a = 1023 then if b = 1023 then if c = 1023 then
        if d = 1023 then 4 else 3 else 2 else 1 else 0 := by
  obtain ⟨q0, q1, q2, q3⟩ := rowOf_pack4 a b c d ha hb hc hd
  rw [fullLineCount_rows, q0, q1, q2, q3]

theorem fullLineCount_sorted (l : List Nat) (h4 : l.length = 4)
    (hlt : ∀ r ∈ l, r < 1024) :
    fullLineCount (packRows (sortedRowsSpec l)) =
      (List.filter (fun r => r == 1023) l).length := by
  rcases l with _ | ⟨a, _ | ⟨b, _ | ⟨c, _ | ⟨d, _ | ⟨e, t⟩⟩⟩⟩⟩ <;> simp_all
  obtain ⟨ha, hb, hc, hd⟩ := hlt
  by_cases Ha : a = 1023 <;> by_cases Hb : b = 1023 <;>
    by_cases Hc : c = 1023 <;> by_cases Hd : d = 1023 <;>
    (simp [sortedRowsSpec, Ha, Hb, Hc, Hd]
     rw [fullLineCount_pack4 _ _ _ _ (by omega) (by omega) (by omega) (by omega)]
     simp [Ha, Hb, Hc, Hd])

theorem countOnes8_fullMask (l : List Nat) (h4 : l.length = 4) :
    countOnes8 (fullMaskSpec l) = (List.filter (fun r => r == 1023) l).length := by
  rcases l with _ | ⟨a, _ | ⟨b, _ | ⟨c, _ | ⟨d, _ | ⟨e, t⟩⟩⟩⟩⟩ <;> simp_all
  by_cases Ha : a = 1023 <;> by_cases Hb : b = 1023 <;>
    by_cases Hc : c = 1023 <;> by_cases Hd : d = 1023 <;>
    simp [fullMaskSpec, countOnes8, natOnes, Ha, Hb, Hc, Hd]

theorem brokenRowsSpec_lt (cleared b0 : Nat) (L : List Nat) :
    ∀ x ∈ brokenRowsSpec cleared b0 L, x < 1024 := by
  induction L with
  | nil => intro x hx; simp [brokenRowsSpec] at hx
  | cons r t ih =>
    intro x hx
    rcases (List.mem_cons.mp hx) with h | h
    · rw [h]
      split
      · omega
      · exact rowOf_lt _ _
    · exact ih x h

theorem brokenRowsSpec_length (cleared b0 : Nat) (L : List Nat) :
    (brokenRowsSpec cleared b0 L).length = L.length := by
  induction L with
  | nil => rfl
  | cons r t ih => simp [brokenRowsSpec, ih]

theorem toBrokenRun_invar (cleared b0 : Nat) (L : List Nat) :
    ∀ (n0 m : Nat), n0 < 2 ^ (10 * m) → m + L.length ≤ 4 →
    toBrokenRun cleared L (b0, n0) =
      (b0 >>> (10 * (L.filter (fun r => cleared.testBit r)).length),
       packRows (brokenRowsSpec cleared b0 L) + n0 * 2 ^ (10 * L.length)) := by
  induction L with
  | nil =>
    intro n0 m hn hm
    simp [toBrokenRun, brokenRowsSpec, packRows]
  | cons r t ih =>
    intro n0 m hn hm
    have hlt : t.length ≤ 3 := by
      have := hm
      simp only [List.length_cons] at this
      omega
    rw [toBrokenRun, ih n0 m hn (by simp at hm ⊢; omega)]
    have hPlt : packRows (brokenRowsSpec cleared b0 t) < 2 ^ (10 * t.length) := by
      have := packRows_lt (brokenRowsSpec cleared b0 t) (brokenRowsSpec_lt cleared b0 t)
      rwa [brokenRowsSpec_length] at this
    have hnew_lt : packRows (brokenRowsSpec cleared b0 t) + n0 * 2 ^ (10 * t.length)
        < 2 ^ (10 * (m + t.length)) := by
      have h1 : 2 ^ (10 * (m + t.length)) = 2 ^ (10 * m) * 2 ^ (10 * t.length) := by
        rw [← pow_add]; ring_nf
      have h2 : n0 * 2 ^ (10 * t.length) ≤ (2 ^ (10 * m) - 1) * 2 ^ (10 * t.length) :=
        Nat.mul_le_mul_right _ (by omega)
      have h3 : 0 < 2 ^ (10 * m) := pow_pos (by norm_num) _
      have h4 : 0 < 2 ^ (10 * t.length) := pow_pos (by norm_num) _
      calc packRows (brokenRowsSpec cleared b0 t) + n0 * 2 ^ (10 * t.length)
          < 2 ^ (10 * t.length) + (2 ^ (10 * m) - 1) * 2 ^ (10 * t.length) := by omega
        _ = 2 ^ (10 * m) * 2 ^ (10 * t.length) := by
            rw [Nat.sub_mul, Nat.one_mul]
            have h5 : 2 ^ (10 * t.length) ≤ 2 ^ (10 * m) * 2 ^ (10 * t.length) :=
              Nat.le_mul_of_pos_left _ h3
            omega
        _ = 2 ^ (10 * (m + t.length)) := h1.symm
    have hmt30 : 10 * (m + t.length) ≤ 30 := by
      simp only [List.length_cons] at hm
      omega
    have hnew30 : packRows (brokenRowsSpec cleared b0 t) + n0 * 2 ^ (10 * t.length)
        < 2 ^ 30 := by
      have := Nat.pow_le_pow_right (show 0 < 2 by norm_num) hmt30
      omega
    by_cases h : cleared.testBit r
    · have hstep : toBrokenStep cleared r
          (b0 >>> (10 * (t.filter (fun x => cleared.testBit x)).length),
           packRows (brokenRowsSpec cleared b0 t) + n0 * 2 ^ (10 * t.length)) =
          (b0 >>> (10 * ((r :: t).filter (fun x => cleared.testBit x)).length),
           1024 * (packRows (brokenRowsSpec cleared b0 t) + n0 * 2 ^ (10 * t.length)) + 1023) := by
        simp only [toBrokenStep, if_pos h]
        rw [Prod.mk.injEq]
        refine ⟨?_, ?_⟩
        · rw [← Nat.shiftRight_add]
          have hfc : ((r :: t).filter (fun x => cleared.testBit x)).length =
              (t.filter (fun x => cleared.testBit x)).length + 1 := by
            simp [List.filter_cons, h]
          rw [hfc]
          all_goals (congr 1 <;> ring)
        · rw [Nat.shiftLeft_eq, Nat.mul_comm,
            (Nat.mul_add_lt_is_or (show (1023 : Nat) < 2 ^ 10 by norm_num) _).symm,
            Nat.mod_eq_of_lt (by omega)]
          all_goals norm_num
      rw [hstep]
      simp only [brokenRowsSpec, if_pos h, packRows, List.length_cons]
      have he : 2 ^ (10 * (t.length + 1)) = 2 ^ (10 * t.length) * 1024 := by
        rw [show 10 * (t.length + 1) = 10 * t.length + 10 by ring, pow_add]
        norm_num
      rw [he]
      ring_nf
    · have hread : ((b0 >>> (10 * (t.filter (fun x => cleared.testBit x)).length)) >>>
          (10 * r)) &&& 0x3FF =
          rowOf b0 (r + (t.filter (fun x => cleared.testBit x)).length) := by
        rw [← Nat.shiftRight_add, rowOf]
        all_goals (congr 2 <;> ring)
      have hrlt : rowOf b0 (r + (t.filter (fun x => cleared.testBit x)).length) < 1024 :=
        rowOf_lt _ _
      have hstep : toBrokenStep cleared r
          (b0 >>> (10 * (t.filter (fun x => cleared.testBit x)).length),
           packRows (brokenRowsSpec cleared b0 t) + n0 * 2 ^ (10 * t.length)) =
          (b0 >>> (10 * ((r :: t).filter (fun x => cleared.testBit x)).length),
           1024 * (packRows (brokenRowsSpec cleared b0 t) + n0 * 2 ^ (10 * t.length)) +
             rowOf b0 (r + (t.filter (fun x => cleared.testBit x)).length)) := by
        simp only [toBrokenStep, if_neg h]
        rw [Prod.mk.injEq]
        refine ⟨?_, ?_⟩
        · have hfc : ((r :: t).filter (fun x => cleared.testBit x)).length =
              (t.filter (fun x => cleared.testBit x)).length := by
            simp [List.filter_cons, h]
          rw [hfc]
        · rw [hread, Nat.shiftLeft_eq, Nat.mul_comm,
            (Nat.mul_add_lt_is_or (show rowOf b0 (r + (t.filter (fun x => cleared.testBit x)).length) < 2 ^ 10 by omega) _).symm,
            Nat.mod_eq_of_lt (by omega)]
          all_goals norm_num
      rw [hstep]
      simp only [brokenRowsSpec, if_neg h, packRows, List.length_cons]
      have he : 2 ^ (10 * (t.length + 1)) = 2 ^ (10 * t.length) * 1024 := by
        rw [show 10 * (t.length + 1) = 10 * t.length + 10 by ring, pow_add]
        norm_num
      rw [he]
      ring_nf

theorem toBroken_eq_spec (bb : BrokenBoard) :
    bb.toBrokenBitboard = packRows (brokenRowsSpec bb.clearedRows bb.board [0, 1, 2, 3]) := by
  have h := toBrokenRun_invar bb.clearedRows bb.board [0, 1, 2, 3] 0 0 (by norm_num) (by norm_num)
  have hchain : toBrokenStep bb.clearedRows 0 (toBrokenStep bb.clearedRows 1
      (toBrokenStep bb.clearedRows 2 (toBrokenStep bb.clearedRows 3 (bb.board, 0)))) =
      toBrokenRun bb.clearedRows [0, 1, 2, 3] (bb.board, 0) := rfl
  show (toBrokenStep bb.clearedRows 0 (toBrokenStep bb.clearedRows 1
      (toBrokenStep bb.clearedRows 2 (toBrokenStep bb.clearedRows 3 (bb.board, 0))))).2 = _
  rw [hchain, h]
  simp

theorem brokenRows_of_sorted (a b c d cleared : Nat) (hcl : cleared < 16)
    (ha : a < 1024) (hb : b < 1024) (hc : c < 1024) (hd : d < 1024)
    (h0 : a = 1023 ↔ cleared.testBit 0 = true) (h1 : b = 1023 ↔ cleared.testBit 1 = true)
    (h2 : c = 1023 ↔ cleared.testBit 2 = true) (h3 : d = 1023 ↔ cleared.testBit 3 = true) :
    brokenRowsSpec cleared (packRows (sortedRowsSpec [a, b, c, d])) [0, 1, 2, 3] =
      [a, b, c, d] := by
  interval_cases cleared
  · -- cleared = 0
    have g0 : ¬ a = 1023 := fun hx => absurd (h0.mp hx) (by decide)
    have g1 : ¬ b = 1023 := fun hx => absurd (h1.mp hx) (by decide)
    have g2 : ¬ c = 1023 := fun hx => absurd (h2.mp hx) (by decide)
    have g3 : ¬ d = 1023 := fun hx => absurd (h3.mp hx) (by decide)
    have hs : sortedRowsSpec [a, b, c, d] = [a, b, c, d] := by
      simp [sortedRowsSpec, g0, g1, g2, g3]
    obtain ⟨p0, p1, p2, p3⟩ := rowOf_pack4 a b c d (by omega) (by omega) (by omega) (by omega)
    have t0 : Nat.testBit 0 0 = false := by decide
    have t1 : Nat.testBit 0 1 = false := by decide
    have t2 : Nat.testBit 0 2 = false := by decide
    have t3 : Nat.testBit 0 3 = false := by decide
    rw [hs]
    simp [brokenRowsSpec, p0, p1, p2, p3, t0, t1, t2, t3]
  · -- cleared = 1
    have f0 : a = 1023 := h0.mpr (by decide)
    have g1 : ¬ b = 1023 := fun hx => absurd (h1.mp hx) (by decide)
    have g2 : ¬ c = 1023 := fun hx => absurd (h2.mp hx) (by decide)
    have g3 : ¬ d = 1023 := fun hx => absurd (h3.mp hx) (by decide)
    have hs : sortedRowsSpec [a, b, c, d] = [1023, b, c, d] := by
      simp [sortedRowsSpec, f0, g1, g2, g3]
    obtain ⟨p0, p1, p2, p3⟩ := rowOf_pack4 1023 b c d (by omega) (by omega) (by omega) (by omega)
    have t0 : Nat.testBit 1 0 = true := by decide
    have t1 : Nat.testBit 1 1 = false := by decide
    have t2 : Nat.testBit 1 2 = false := by decide
    have t3 : Nat.testBit 1 3 = false := by decide
    rw [hs]
    simp [brokenRowsSpec, p0, p1, p2, p3, t0, t1, t2, t3, f0]
  · -- cleared = 2
    have f1 : b = 1023 := h1.mpr (by decide)
    have g0 : ¬ a = 1023 := fun hx => absurd (h0.mp hx) (by decide)
    have g2 : ¬ c = 1023 := fun hx => absurd (h2.mp hx) (by decide)
    have g3 : ¬ d = 1023 := fun hx => absurd (h3.mp hx) (by decide)
    have hs : sortedRowsSpec [a, b, c, d] = [1023, a, c, d] := by
      simp [sortedRowsSpec, f1, g0, g2, g3]
    obtain ⟨p0, p1, p2, p3⟩ := rowOf_pack4 1023 a c d (by omega) (by omega) (by omega) (by omega)
    have t0 : Nat.testBit 2 0 = false := by decide
    have t1 : Nat.testBit 2 1 = true := by decide
    have t2 : Nat.testBit 2 2 = false := by decide
    have t3 : Nat.testBit 2 3 = false := by decide
    rw [hs]
    simp [brokenRowsSpec, p0, p1, p2, p3, t0, t1, t2, t3, f1]
  · -- cleared = 3
    have f0 : a = 1023 := h0.mpr (by decide)
    have f1 : b = 1023 := h1.mpr (by decide)
    have g2 : ¬ c = 1023 := fun hx => absurd (h2.mp hx) (by decide)
    have g3 : ¬ d = 1023 := fun hx => absurd (h3.mp hx) (by decide)
    have hs : sortedRowsSpec [a, b, c, d] = [1023, 1023, c, d] := by
      simp [sortedRowsSpec, f0, f1, g2, g3]
    obtain ⟨p0, p1, p2, p3⟩ := rowOf_pack4 1023 1023 c d (by omega) (by omega) (by omega) (by omega)
    have t0 : Nat.testBit 3 0 = true := by decide
    have t1 : Nat.testBit 3 1 = true := by decide
    have t2 : Nat.testBit 3 2 = false := by decide
    have t3 : Nat.testBit 3 3 = false := by decide
    rw [hs]
    simp [brokenRowsSpec, p0, p1, p2, p3, t0, t1, t2, t3, f0, f1]
  · -- cleared = 4
    have f2 : c = 1023 := h2.mpr (by decide)
    have g0 : ¬ a = 1023 := fun hx => absurd (h0.mp hx) (by decide)
    have g1 : ¬ b = 1023 := fun hx => absurd (h1.mp hx) (by decide)
    have g3 : ¬ d = 1023 := fun hx => absurd (h3.mp hx) (by decide)
    have hs : sortedRowsSpec [a, b, c, d] = [1023, a, b, d] := by
      simp [sortedRowsSpec, f2, g0, g1, g3]
    obtain ⟨p0, p1, p2, p3⟩ := rowOf_pack4 1023 a b d (by omega) (by omega) (by omega) (by omega)
    have t0 : Nat.testBit 4 0 = false := by decide
    have t1 : Nat.testBit 4 1 = false := by decide
    have t2 : Nat.testBit 4 2 = true := by decide
    have t3 : Nat.testBit 4 3 = false := by decide
    rw [hs]
    simp [brokenRowsSpec, p0, p1, p2, p3, t0, t1, t2, t3, f2]
  · -- cleared = 5
    have f0 : a = 1023 := h0.mpr (by decide)
    have f2 : c = 1023 := h2.mpr (by decide)
    have g1 : ¬ b = 1023 := fun hx => absurd (h1.mp hx) (by decide)
    have g3 : ¬ d = 1023 := fun hx => absurd (h3.mp hx) (by decide)
    have hs : sortedRowsSpec [a, b, c, d] = [1023, 1023, b, d] := by
      simp [sortedRowsSpec, f0, f2, g1, g3]
    obtain ⟨p0, p1, p2, p3⟩ := rowOf_pack4 1023 1023 b d (by omega) (by omega) (by omega) (by omega)
    have t0 : Nat.testBit 5 0 = true := by decide
    have t1 : Nat.testBit 5 1 = false := by decide
    have t2 : Nat.testBit 5 2 = true := by decide
    have t3 : Nat.testBit 5 3 = false := by decide
    rw [hs]
    simp [brokenRowsSpec, p0, p1, p2, p3, t0, t1, t2, t3, f0, f2]
  · -- cleared = 6
    have f1 : b = 1023 := h1.mpr (by decide)
    have f2 : c = 1023 := h2.mpr (by decide)
    have g0 : ¬ a = 1023 := fun hx => absurd (h0.mp hx) (by decide)
    have g3 : ¬ d = 1023 := fun hx => absurd (h3.mp hx) (by decide)
    have hs : sortedRowsSpec [a, b, c, d] = [1023, 1023, a, d] := by
      simp [sortedRowsSpec, f1, f2, g0, g3]
    obtain ⟨p0, p1, p2, p3⟩ := rowOf_pack4 1023 1023 a d (by omega) (by omega) (by omega) (by omega)
    have t0 : Nat.testBit 6 0 = false := by decide
    have t1 : Nat.testBit 6 1 = true := by decide
    have t2 : Nat.testBit 6 2 = true := by decide
    have t3 : Nat.testBit 6 3 = false := by decide
    rw [hs]
    simp [brokenRowsSpec, p0, p1, p2, p3, t0, t1, t2, t3, f1, f2]
  · -- cleared = 7
    have f0 : a = 1023 := h0.mpr (by decide)
    have f1 : b = 1023 := h1.mpr (by decide)
    have f2 : c = 1023 := h2.mpr (by decide)
    have g3 : ¬ d = 1023 := fun hx => absurd (h3.mp hx) (by decide)
    have hs : sortedRowsSpec [a, b, c, d] = [1023, 1023, 1023, d] := by
      simp [sortedRowsSpec, f0, f1, f2, g3]
    obtain ⟨p0, p1, p2, p3⟩ := rowOf_pack4 1023 1023 1023 d (by omega) (by omega) (by omega) (by omega)
    have t0 : Nat.testBit 7 0 = true := by decide
    have t1 : Nat.testBit 7 1 = true := by decide
    have t2 : Nat.testBit 7 2 = true := by decide
    have t3 : Nat.testBit 7 3 = false := by decide
    rw [hs]
    simp [brokenRowsSpec, p0, p1, p2, p3, t0, t1, t2, t3, f0, f1, f2]
  · -- cleared = 8
    have f3 : d = 1023 := h3.mpr (by decide)
    have g0 : ¬ a = 1023 := fun hx => absurd (h0.mp hx) (by decide)
    have g1 : ¬ b = 1023 := fun hx => absurd (h1.mp hx) (by decide)
    have g2 : ¬ c = 1023 := fun hx => absurd (h2.mp hx) (by decide)
    have hs : sortedRowsSpec [a, b, c, d] = [1023, a, b, c] := by
      simp [sortedRowsSpec, f3, g0, g1, g2]
    obtain ⟨p0, p1, p2, p3⟩ := rowOf_pack4 1023 a b c (by omega) (by omega) (by omega) (by omega)
    have t0 : Nat.testBit 8 0 = false := by decide
    have t1 : Nat.testBit 8 1 = false := by decide
    have t2 : Nat.testBit 8 2 = false := by decide
    have t3 : Nat.testBit 8 3 = true := by decide
    rw [hs]
    simp [brokenRowsSpec, p0, p1, p2, p3, t0, t1, t2, t3, f3]
  · -- cleared = 9
    have f0 : a = 1023 := h0.mpr (by decide)
    have f3 : d = 1023 := h3.mpr (by decide)
    have g1 : ¬ b = 1023 := fun hx => absurd (h1.mp hx) (by decide)
    have g2 : ¬ c = 1023 := fun hx => absurd (h2.mp hx) (by decide)
    have hs : sortedRowsSpec [a, b, c, d] = [1023, 1023, b, c] := by
      simp [sortedRowsSpec, f0, f3, g1, g2]
    obtain ⟨p0, p1, p2, p3⟩ := rowOf_pack4 1023 1023 b c (by omega) (by omega) (by omega) (by omega)
    have t0 : Nat.testBit 9 0 = true := by decide
    have t1 : Nat.testBit 9 1 = false := by decide
    have t2 : Nat.testBit 9 2 = false := by decide
    have t3 : Nat.testBit 9 3 = true := by decide
    rw [hs]
    simp [brokenRowsSpec, p0, p1, p2, p3, t0, t1, t2, t3, f0, f3]
  · -- cleared = 10
    have f1 : b = 1023 := h1.mpr (by decide)
    have f3 : d = 1023 := h3.mpr (by decide)
    have g0 : ¬ a = 1023 := fun hx => absurd (h0.mp hx) (by decide)
    have g2 : ¬ c = 1023 := fun hx => absurd (h2.mp hx) (by decide)
    have hs : sortedRowsSpec [a, b, c, d] = [1023, 1023, a, c] := by
      simp [sortedRowsSpec, f1, f3, g0, g2]
    obtain ⟨p0, p1, p2, p3⟩ := rowOf_pack4 1023 1023 a c (by omega) (by omega) (by omega) (by omega)
    have t0 : Nat.testBit 10 0 = false := by decide
    have t1 : Nat.testBit 10 1 = true := by decide
    have t2 : Nat.testBit 10 2 = false := by decide
    have t3 : Nat.testBit 10 3 = true := by decide
    rw [hs]
    simp [brokenRowsSpec, p0, p1, p2, p3, t0, t1, t2, t3, f1, f3]
  · -- cleared = 11
    have f0 : a = 1023 := h0.mpr (by decide)
    have f1 : b = 1023 := h1.mpr (by decide)
    have f3 : d = 1023 := h3.mpr (by decide)
    have g2 : ¬ c = 1023 := fun hx => absurd (h2.mp hx) (by decide)
    have hs : sortedRowsSpec [a, b, c, d] = [1023, 1023, 1023, c] := by
      simp [sortedRowsSpec, f0, f1, f3, g2]
    obtain ⟨p0, p1, p2, p3⟩ := rowOf_pack4 1023 1023 1023 c (by omega) (by omega) (by omega) (by omega)
    have t0 : Nat.testBit 11 0 = true := by decide
    have t1 : Nat.testBit 11 1 = true := by decide
    have t2 : Nat.testBit 11 2 = false := by decide
    have t3 : Nat.testBit 11 3 = true := by decide
    rw [hs]
    simp [brokenRowsSpec, p0, p1, p2, p3, t0, t1, t2, t3, f0, f1, f3]
  · -- cleared = 12
    have f2 : c = 1023 := h2.mpr (by decide)
    have f3 : d = 1023 := h3.mpr (by decide)
    have g0 : ¬ a = 1023 := fun hx => absurd (h0.mp hx) (by decide)
    have g1 : ¬ b = 1023 := fun hx => absurd (h1.mp hx) (by decide)
    have hs : sortedRowsSpec [a, b, c, d] = [1023, 1023, a, b] := by
      simp [sortedRowsSpec, f2, f3, g0, g1]
    obtain ⟨p0, p1, p2, p3⟩ := rowOf_pack4 1023 1023 a b (by omega) (by omega) (by omega) (by omega)
    have t0 : Nat.testBit 12 0 = false := by decide
    have t1 : Nat.testBit 12 1 = false := by decide
    have t2 : Nat.testBit 12 2 = true := by decide
    have t3 : Nat.testBit 12 3 = true := by decide
    rw [hs]
    simp [brokenRowsSpec, p0, p1, p2, p3, t0, t1, t2, t3, f2, f3]
  · -- cleared = 13
    have f0 : a = 1023 := h0.mpr (by decide)
    have f2 : c = 1023 := h2.mpr (by decide)
    have f3 : d = 1023 := h3.mpr (by decide)
    have g1 : ¬ b = 1023 := fun hx => absurd (h1.mp hx) (by decide)
    have hs : sortedRowsSpec [a, b, c, d] = [1023, 1023, 1023, b] := by
      simp [sortedRowsSpec, f0, f2, f3, g1]
    obtain ⟨p0, p1, p2, p3⟩ := rowOf_pack4 1023 1023 1023 b (by omega) (by omega) (by omega) (by omega)
    have t0 : Nat.testBit 13 0 = true := by decide
    have t1 : Nat.testBit 13 1 = false := by decide
    have t2 : Nat.testBit 13 2 = true := by decide
    have t3 : Nat.testBit 13 3 = true := by decide
    rw [hs]
    simp [brokenRowsSpec, p0, p1, p2, p3, t0, t1, t2, t3, f0, f2, f3]
  · -- cleared = 14
    have f1 : b = 1023 := h1.mpr (by decide)
    have f2 : c = 1023 := h2.mpr (by decide)
    have f3 : d = 1023 := h3.mpr (by decide)
    have g0 : ¬ a = 1023 := fun hx => absurd (h0.mp hx) (by decide)
    have hs : sortedRowsSpec [a, b, c, d] = [1023, 1023, 1023, a] := by
      simp [sortedRowsSpec, f1, f2, f3, g0]
    obtain ⟨p0, p1, p2, p3⟩ := rowOf_pack4 1023 1023 1023 a (by omega) (by omega) (by omega) (by omega)
    have t0 : Nat.testBit 14 0 = false := by decide
    have t1 : Nat.testBit 14 1 = true := by decide
    have t2 : Nat.testBit 14 2 = true := by decide
    have t3 : Nat.testBit 14 3 = true := by decide
    rw [hs]
    simp [brokenRowsSpec, p0, p1, p2, p3, t0, t1, t2, t3, f1, f2, f3]
  · -- cleared = 15
    have f0 : a = 1023 := h0.mpr (by decide)
    have f1 : b = 1023 := h1.mpr (by decide)
    have f2 : c = 1023 := h2.mpr (by decide)
    have f3 : d = 1023 := h3.mpr (by decide)
    have hs : sortedRowsSpec [a, b, c, d] = [1023, 1023, 1023, 1023] := by
      simp [sortedRowsSpec, f0, f1, f2, f3]
    obtain ⟨p0, p1, p2, p3⟩ := rowOf_pack4 1023 1023 1023 1023 (by omega) (by omega) (by omega) (by omega)
    have t0 : Nat.testBit 15 0 = true := by decide
    have t1 : Nat.testBit 15 1 = true := by decide
    have t2 : Nat.testBit 15 2 = true := by decide
    have t3 : Nat.testBit 15 3 = true := by decide
    rw [hs]
    simp [brokenRowsSpec, p0, p1, p2, p3, t0, t1, t2, t3, f0, f1, f2, f3]

theorem shl_eq_zero (x n : Nat) : x <<< n = 0 ↔ x = 0 := by
  rw [Nat.shiftLeft_eq, Nat.mul_eq_zero]
  have : (2 : Nat) ^ n ≠ 0 := Nat.pos_iff_ne_zero.mp (pow_pos (by norm_num) n)
  tauto

theorem rowHit_iff (minoes k : Nat) :
    minoes &&& (0x3FF <<< (10 * k)) ≠ 0 ↔ rowOf minoes k ≠ 0 := by
  rw [and_mask_row]
  exact not_congr (shl_eq_zero _ _)

theorem placeRowsRun_invar (cleared minoes field : Nat) (L : List Nat) :
    ∀ (k rows0 nc0 : Nat), k + L.length ≤ 4 →
    placeRowsRun cleared minoes field L (0x3FF <<< (10 * k), rows0, nc0) =
      (0x3FF <<< (10 * (k + (L.filter (fun r => !cleared.testBit r)).length)),
       rows0 ||| prSpecRows cleared minoes L k,
       nc0 ||| prSpecClear cleared field L k) := by
  induction L with
  | nil =>
    intro k rows0 nc0 hk
    simp [placeRowsRun, prSpecRows, prSpecClear]
  | cons r t ih =>
    intro k rows0 nc0 hk
    have hk' : k + t.length ≤ 3 := by simp at hk; omega
    rw [placeRowsRun]
    by_cases h : cleared.testBit r
    · have hstep : placeRowsStep cleared minoes field r (0x3FF <<< (10 * k), rows0, nc0) =
          (0x3FF <<< (10 * k), rows0, nc0 ||| (1 <<< r)) := by
        simp only [placeRowsStep, if_pos h]
      rw [hstep, ih k rows0 (nc0 ||| (1 <<< r)) (by omega)]
      have hb : (!cleared.testBit r) = false := by simp [h]
      simp only [List.filter_cons, hb, Bool.false_eq_true, if_false, prSpecRows,
        prSpecClear, if_pos h, Nat.lor_assoc]
    · have hmask : ((0x3FF <<< (10 * k)) <<< 10) % 2 ^ 64 = 0x3FF <<< (10 * (k + 1)) := by
        rw [← Nat.shiftLeft_add]
        have hlt : (0x3FF : Nat) <<< (10 * k + 10) < 2 ^ 64 := by
          rw [Nat.shiftLeft_eq]
          have h1 : (10 : Nat) * k + 10 ≤ 40 := by omega
          have h2 : (2 : Nat) ^ (10 * k + 10) ≤ 2 ^ 40 :=
            Nat.pow_le_pow_right (by norm_num) h1
          have h3 : (1023 : Nat) * 2 ^ (10 * k + 10) ≤ 1023 * 2 ^ 40 :=
            Nat.mul_le_mul_left _ h2
          omega
        rw [Nat.mod_eq_of_lt hlt]
        all_goals (congr 1 <;> ring)
      have hstep : placeRowsStep cleared minoes field r (0x3FF <<< (10 * k), rows0, nc0) =
          (0x3FF <<< (10 * (k + 1)),
           rows0 ||| (if rowOf minoes k ≠ 0 then 1 <<< r else 0),
           nc0 ||| (if rowOf field k = 1023 then 1 <<< r else 0)) := by
        simp only [placeRowsStep, if_neg h, hmask, Prod.mk.injEq]
        refine ⟨trivial, ?_, ?_⟩
        · by_cases hm : minoes &&& (0x3FF <<< (10 * k)) ≠ 0
          · rw [if_pos hm, if_pos ((rowHit_iff minoes k).mp hm)]
          · rw [if_neg hm, if_neg (fun hc => hm ((rowHit_iff minoes k).mpr hc))]
            simp
        · by_cases hf : field &&& (0x3FF <<< (10 * k)) = 0x3FF <<< (10 * k)
          · rw [if_pos hf, if_pos ((rowFull_iff field k).mp hf)]
          · rw [if_neg hf, if_neg (fun hc => hf ((rowFull_iff field k).mpr hc))]
            simp
      rw [hstep, ih (k + 1) _ _ (by omega)]
      have hb : (!cleared.testBit r) = true := by simp [h]
      simp only [List.filter_cons, hb, if_true, List.length_cons, prSpecRows, prSpecClear,
        if_neg h, Nat.lor_assoc, Prod.mk.injEq]
      exact ⟨by congr 1 <;> ring, trivial⟩

theorem scatterRun_invar (prows C0 : Nat) (L : List Nat) (hL : ∀ r ∈ L, r ≤ 3) :
    ∀ B0, scatterRun prows L (C0, B0) =
      (C0 >>> (10 * (L.filter (fun x => prows.testBit x)).length),
       B0 ||| scatterSpecD prows C0 L) := by
  induction L with
  | nil => intro B0; simp [scatterRun, scatterSpecD]
  | cons r t ih =>
    intro B0
    have hr3 : r ≤ 3 := hL r (List.mem_cons_self r t)
    have ht3 : ∀ x ∈ t, x ≤ 3 := fun x hx => hL x (List.mem_cons_of_mem r hx)
    rw [scatterRun, ih ht3 B0]
    by_cases h : prows.testBit r
    · have hchunk : (0x3FF &&& (C0 >>> (10 * (t.filter (fun x => prows.testBit x)).length)))
          = rowOf C0 (t.filter (fun x => prows.testBit x)).length := by
        rw [Nat.and_comm, rowOf]
      have hmod : ((rowOf C0 (t.filter (fun x => prows.testBit x)).length) <<< (r * 10)) % 2 ^ 64
          = (rowOf C0 (t.filter (fun x => prows.testBit x)).length) <<< (10 * r) := by
        have hb := rowOf_lt C0 (t.filter (fun x => prows.testBit x)).length
        rw [Nat.shiftLeft_eq, Nat.shiftLeft_eq, Nat.mod_eq_of_lt]
        · rw [Nat.mul_comm r 10]
        · have h1 : (2 : Nat) ^ (r * 10) ≤ 2 ^ 30 := Nat.pow_le_pow_right (by norm_num) (by omega)
          have h2 : rowOf C0 (t.filter (fun x => prows.testBit x)).length * 2 ^ (r * 10)
              ≤ 1023 * 2 ^ 30 := Nat.mul_le_mul (by omega) h1
          omega
      have hstep : brokenPieceStep prows r
          (C0 >>> (10 * (t.filter (fun x => prows.testBit x)).length),
           B0 ||| scatterSpecD prows C0 t) =
          (C0 >>> (10 * ((r :: t).filter (fun x => prows.testBit x)).length),
           B0 ||| ((rowOf C0 (t.filter (fun x => prows.testBit x)).length) <<< (10 * r)
             ||| scatterSpecD prows C0 t)) := by
        simp only [brokenPieceStep, if_pos h, hchunk, hmod, Prod.mk.injEq]
        constructor
        · rw [← Nat.shiftRight_add]
          have hfc : ((r :: t).filter (fun x => prows.testBit x)).length =
              (t.filter (fun x => prows.testBit x)).length + 1 := by
            simp [List.filter_cons, h]
          rw [hfc]
          all_goals (congr 1 <;> ring)
        · rw [Nat.lor_assoc, Nat.lor_comm (scatterSpecD prows C0 t)]
      rw [hstep]
      simp only [scatterSpecD, if_pos h]
    · have hstep : brokenPieceStep prows r
          (C0 >>> (10 * (t.filter (fun x => prows.testBit x)).length),
           B0 ||| scatterSpecD prows C0 t) =
          (C0 >>> (10 * (t.filter (fun x => prows.testBit x)).length),
           B0 ||| scatterSpecD prows C0 t) := by
        simp only [brokenPieceStep, if_neg h]
      rw [hstep]
      have hfc : ((r :: t).filter (fun x => prows.testBit x)).length =
          (t.filter (fun x => prows.testBit x)).length := by
        simp [List.filter_cons, h]
      simp only [scatterSpecD, if_neg h, hfc]
      simp

theorem or4_pack (x0 x1 x2 x3 : Nat) (h0 : x0 < 1024) (h1 : x1 < 1024) (h2 : x2 < 1024)
    (h3 : x3 < 1024) :
    x3 <<< 30 ||| (x2 <<< 20 ||| (x1 <<< 10 ||| x0)) = packRows [x0, x1, x2, x3] := by
  have e1 : x1 <<< 10 ||| x0 = 2 ^ 10 * x1 + x0 := by
    rw [Nat.shiftLeft_eq, Nat.mul_comm]
    exact (Nat.mul_add_lt_is_or (show x0 < 2 ^ 10 by omega) x1).symm
  rw [e1]
  have e2 : x2 <<< 20 ||| (2 ^ 10 * x1 + x0) = 2 ^ 20 * x2 + (2 ^ 10 * x1 + x0) := by
    rw [Nat.shiftLeft_eq, Nat.mul_comm]
    exact (Nat.mul_add_lt_is_or (show 2 ^ 10 * x1 + x0 < 2 ^ 20 by omega) x2).symm
  rw [e2]
  have e3 : x3 <<< 30 ||| (2 ^ 20 * x2 + (2 ^ 10 * x1 + x0)) =
      2 ^ 30 * x3 + (2 ^ 20 * x2 + (2 ^ 10 * x1 + x0)) := by
    rw [Nat.shiftLeft_eq, Nat.mul_comm]
    exact (Nat.mul_add_lt_is_or
      (show 2 ^ 20 * x2 + (2 ^ 10 * x1 + x0) < 2 ^ 30 by omega) x3).symm
  rw [e3]
  simp only [packRows]
  ring

theorem grid_unclipped (s : Shape) (o : Orient) :
    ∀ row < 6, ∀ col < 10,
      (PIECE_SHAPES s o <<< (row * 10 + col)) % 2 ^ 64 &&&
          (2 ^ 64 - 1 - BOARD_MASK) = 0 →
      (PIECE_SHAPES s o <<< (row * 10 + col)) % 2 ^ 64 &&& BOARD_MASK ≠ 0 →
      (PIECE_SHAPES s o <<< (row * 10 + col)) % 2 ^ 64 =
          PIECE_SHAPES s o <<< (row * 10 + col) ∧
        PIECE_SHAPES s o <<< (row * 10 + col) < 2 ^ 40 := by
  cases s <;> cases o <;> decide

def rowsFactB (s : Shape) (o : Orient) (row col : Nat) : Bool :=
  decide (row + htOf s o ≤ 4) &&
  ((List.range 4).all fun j =>
    decide (rowOf (PIECE_SHAPES s o <<< (row * 10 + col)) j ≠ 0 ↔
      (row ≤ j ∧ j < row + htOf s o)))

theorem grid_rows (s : Shape) (o : Orient) :
    ∀ row < 6, ∀ col < (PIECE_MAX_COLS s o).toNat + 1,
      (PIECE_SHAPES s o <<< (row * 10 + col)) % 2 ^ 64 &&&
          (2 ^ 64 - 1 - BOARD_MASK) = 0 →
      (PIECE_SHAPES s o <<< (row * 10 + col)) % 2 ^ 64 &&& BOARD_MASK ≠ 0 →
      rowsFactB s o row col = true := by
  cases s <;> cases o <;> decide

theorem rowsFactB_spec (s : Shape) (o : Orient) (row col : Nat)
    (h : rowsFactB s o row col = true) :
    row + htOf s o ≤ 4 ∧
    ∀ j < 4, (rowOf (PIECE_SHAPES s o <<< (row * 10 + col)) j ≠ 0 ↔
      (row ≤ j ∧ j < row + htOf s o)) := by
  simp only [rowsFactB, Bool.and_eq_true, List.all_eq_true, decide_eq_true_eq,
    List.mem_range] at h
  exact h

theorem grid_chunks (s : Shape) (o : Orient) :
    ∀ row < 6, ∀ col < (PIECE_MAX_COLS s o).toNat + 1,
      (PIECE_SHAPES s o <<< (row * 10 + col)) % 2 ^ 64 &&&
          (2 ^ 64 - 1 - BOARD_MASK) = 0 →
      (PIECE_SHAPES s o <<< (row * 10 + col)) % 2 ^ 64 &&& BOARD_MASK ≠ 0 →
      ∀ j < 4, rowOf (PIECE_SHAPES s o <<< col) j =
        rowOf (PIECE_SHAPES s o <<< (row * 10 + col)) (row + j) := by
  cases s <;> cases o <;> decide

theorem testBit_ite_bit (P : Prop) [Decidable P] (r q : Nat) :
    (if P then (1 : Nat) <<< r else 0).testBit q = (decide P && decide (q = r)) := by
  split
  · next h =>
    simp only [decide_eq_true h, Bool.true_and]
    rw [Nat.shiftLeft_eq, Nat.one_mul, Nat.testBit_two_pow]
    simp [eq_comm]
  · next h =>
    simp [decide_eq_false h]

theorem rowOf_shr (x t j : Nat) : rowOf (x >>> (10 * t)) j = rowOf x (t + j) := by
  rw [rowOf, rowOf, ← Nat.shiftRight_add]
  congr 2
  ring

theorem ite_shl (P : Prop) [Decidable P] (x k : Nat) :
    (if P then x <<< k else 0) = (if P then x else 0) <<< k := by
  split <;> simp

theorem scatterSpecD_pack (R C : Nat) :
    scatterSpecD R C [3, 2, 1, 0] = packRows
      [if R.testBit 0 = true then rowOf C 0 else 0,
       if R.testBit 1 = true then
         rowOf C ((List.filter (fun x => R.testBit x) [0]).length) else 0,
       if R.testBit 2 = true then
         rowOf C ((List.filter (fun x => R.testBit x) [1, 0]).length) else 0,
       if R.testBit 3 = true then
         rowOf C ((List.filter (fun x => R.testBit x) [2, 1, 0]).length) else 0] := by
  have hb : ∀ (P : Prop) [Decidable P] (c : Nat), (if P then rowOf C c else 0) < 1024 := by
    intro P _ c
    split
    · exact rowOf_lt C c
    · omega
  simp only [scatterSpecD, List.filter_nil, List.length_nil, Nat.or_zero, ite_shl]
  have h30 : (10 : Nat) * 3 = 30 := by norm_num
  have h20 : (10 : Nat) * 2 = 20 := by norm_num
  have h10 : (10 : Nat) * 1 = 10 := by norm_num
  have h00 : ∀ x : Nat, x <<< (10 * 0) = x := by intro x; norm_num
  rw [h30, h20, h10, h00]
  exact or4_pack _ _ _ _ (hb _ _) (hb _ _) (hb _ _) (hb _ _)

theorem prSpecRows_bits_subset (cleared minoes : Nat) (L : List Nat) :
    ∀ k q, (prSpecRows cleared minoes L k).testBit q = true → q ∈ L := by
  induction L with
  | nil => intro k q h; simp [prSpecRows] at h
  | cons r t ih =>
    intro k q h
    rw [prSpecRows] at h
    split at h
    · exact List.mem_cons_of_mem r (ih k q h)
    · rw [Nat.testBit_or, Bool.or_eq_true, testBit_ite_bit] at h
      rcases h with h | h
      · simp only [Bool.and_eq_true, decide_eq_true_eq] at h
        rw [h.2]
        exact List.mem_cons_self r t
      · exact List.mem_cons_of_mem r (ih (k + 1) q h)

theorem rowsBitsOk_congr (cleared minoes R R' : Nat) (L : List Nat)
    (hb : ∀ q ∈ L, R.testBit q = R'.testBit q) :
    ∀ k, rowsBitsOk cleared minoes R L k → rowsBitsOk cleared minoes R' L k := by
  induction L with
  | nil => intro k h; trivial
  | cons r t ih =>
    intro k h
    have hr := hb r (List.mem_cons_self r t)
    have hbt : ∀ q ∈ t, R.testBit q = R'.testBit q :=
      fun q hq => hb q (List.mem_cons_of_mem r hq)
    rw [rowsBitsOk] at h ⊢
    split at h <;> rename_i hc
    · rw [if_pos hc]
      exact ⟨hr ▸ h.1, ih hbt k h.2⟩
    · rw [if_neg hc]
      exact ⟨hr ▸ h.1, ih hbt (k + 1) h.2⟩

theorem prSpecRows_bitsOk (cleared minoes : Nat) (L : List Nat) (hnd : L.Nodup) :
    ∀ k, rowsBitsOk cleared minoes (prSpecRows cleared minoes L k) L k := by
  induction L with
  | nil => intro k; trivial
  | cons r t ih =>
    intro k
    have hrt : r ∉ t := (List.nodup_cons.mp hnd).1
    have hnd' : t.Nodup := (List.nodup_cons.mp hnd).2
    rw [rowsBitsOk, prSpecRows]
    split
    · refine ⟨?_, ih hnd' k⟩
      by_cases hb : (prSpecRows cleared minoes t k).testBit r = true
      · exact absurd (prSpecRows_bits_subset cleared minoes t k r hb) hrt
      · exact Bool.not_eq_true _ ▸ hb
    · rename_i hc
      constructor
      · rw [Nat.testBit_or, testBit_ite_bit]
        by_cases hb : (prSpecRows cleared minoes t (k + 1)).testBit r = true
        · exact absurd (prSpecRows_bits_subset cleared minoes t (k + 1) r hb) hrt
        · rw [Bool.not_eq_true] at hb
          rw [hb, Bool.or_false]
          constructor
          · intro h
            simp only [Bool.and_eq_true, decide_eq_true_eq] at h
            exact h.1
          · intro h
            simp [h]
      · refine rowsBitsOk_congr cleared minoes (prSpecRows cleared minoes t (k + 1)) _ t ?_
          (k + 1) (ih hnd' (k + 1))
        intro q hq
        rw [Nat.testBit_or, testBit_ite_bit]
        have hqr : ¬(q = r) := fun he => hrt (he ▸ hq)
        simp [hqr]

theorem lock_scatEntries (cleared minoes C lo ht R : Nat)
    (hsup : ∀ k, rowOf minoes k ≠ 0 ↔ (lo ≤ k ∧ k < lo + ht))
    (hC : ∀ j, rowOf C j = rowOf minoes (lo + j)) (L : List Nat) :
    ∀ k i, rowsBitsOk cleared minoes R L k →
      i = min k (lo + ht) - min k lo →
      scatEntries R C L i = pieceBrokenRows cleared minoes L k := by
  induction L with
  | nil => intro k i _ _; rfl
  | cons r t ih =>
    intro k i hok hi
    rw [rowsBitsOk] at hok
    rw [scatEntries, pieceBrokenRows]
    split at hok <;> rename_i hc
    · rw [if_pos hc]
      simp only [hok.1, Bool.false_eq_true, if_false]
      exact congrArg (List.cons 0) (ih k i hok.2 hi)
    · rw [if_neg hc]
      by_cases hm : rowOf minoes k ≠ 0
      · have hb : R.testBit r = true := hok.1.mpr hm
        simp only [hb, if_true]
        have hk := (hsup k).mp hm
        have hCv : rowOf C i = rowOf minoes k := by
          rw [hC i]
          congr 1
          omega
        rw [hCv]
        exact congrArg (List.cons _) (ih (k + 1) (i + 1) hok.2 (by omega))
      · have hb : R.testBit r = false := by
          cases hbit : R.testBit r
          · rfl
          · exact absurd (hok.1.mp hbit) hm
        simp only [hb, Bool.false_eq_true, if_false]
        have hzero : rowOf minoes k = 0 := not_ne_iff.mp hm
        have hnc : ¬(lo ≤ k ∧ k < lo + ht) := fun hcond => hm ((hsup k).mpr hcond)
        rw [hzero]
        exact congrArg (List.cons 0) (ih (k + 1) i hok.2 (by omega))

theorem scatterSpecD_entries (R C : Nat) :
    scatterSpecD R C [3, 2, 1, 0] = packRows (scatEntries R C [0, 1, 2, 3] 0) := by
  rw [scatterSpecD_pack]
  cases h0 : R.testBit 0 <;> cases h1 : R.testBit 1 <;> cases h2 : R.testBit 2 <;>
    cases h3 : R.testBit 3 <;> simp [scatEntries, h0, h1, h2, h3, List.filter]

theorem scatter_eq_broken (cleared minoes lo ht : Nat)
    (hsup : ∀ k, rowOf minoes k ≠ 0 ↔ (lo ≤ k ∧ k < lo + ht)) :
    scatterSpecD (prSpecRows cleared minoes [0, 1, 2, 3] 0) (minoes >>> (10 * lo))
        [3, 2, 1, 0] =
      packRows (pieceBrokenRows cleared minoes [0, 1, 2, 3] 0) := by
  rw [scatterSpecD_entries]
  refine congrArg packRows
    (lock_scatEntries cleared minoes _ lo ht _ hsup (fun j => rowOf_shr minoes lo j)
      [0, 1, 2, 3] 0 0 (prSpecRows_bitsOk cleared minoes _ (by decide) 0) (by omega))

theorem or_shl (a b n : Nat) : (a ||| b) <<< n = a <<< n ||| b <<< n := by
  apply Nat.eq_of_testBit_eq
  intro j
  simp only [Nat.testBit_or, Nat.testBit_shiftLeft, Nat.testBit_or, Bool.and_or_distrib_left]

theorem or_shr (a b n : Nat) : (a ||| b) >>> n = a >>> n ||| b >>> n := by
  apply Nat.eq_of_testBit_eq
  intro j
  simp only [Nat.testBit_or, Nat.testBit_shiftRight, Nat.testBit_or]

theorem and_or_right (a b c : Nat) : (a ||| b) &&& c = (a &&& c) ||| (b &&& c) := by
  apply Nat.eq_of_testBit_eq
  intro j
  simp only [Nat.testBit_or, Nat.testBit_and, Bool.and_or_distrib_right]

theorem rowOf_or (x y i : Nat) : rowOf (x ||| y) i = rowOf x i ||| rowOf y i := by
  rw [rowOf, rowOf, rowOf, or_shr, and_or_right]

theorem rowOf_and (x y i : Nat) : rowOf (x &&& y) i = rowOf x i &&& rowOf y i := by
  apply Nat.eq_of_testBit_eq
  intro j
  simp only [rowOf, Nat.testBit_and, Nat.testBit_shiftRight, Nat.testBit_and]
  cases x.testBit (10 * i + j) <;> cases y.testBit (10 * i + j) <;>
    cases Nat.testBit 1023 j <;> rfl

theorem shl_shr (x a b : Nat) (h : b ≤ a) : (x <<< a) >>> b = x <<< (a - b) := by
  rw [Nat.shiftLeft_eq, Nat.shiftRight_eq_div_pow, Nat.shiftLeft_eq]
  rcases Nat.exists_eq_add_of_le h with ⟨c, rfl⟩
  rw [Nat.add_sub_cancel_left, pow_add, ← Nat.mul_assoc, Nat.mul_right_comm]
  exact Nat.mul_div_cancel _ (by positivity)

theorem and_shr (x y n : Nat) : (x &&& y) >>> n = (x >>> n) &&& (y >>> n) := by
  apply Nat.eq_of_testBit_eq
  intro j
  simp [Nat.testBit_shiftRight, Nat.testBit_and]

theorem testBit_ge_false {x n j : Nat} (hx : x < 2 ^ n) (hj : n ≤ j) :
    x.testBit j = false :=
  Nat.testBit_eq_false_of_lt
    (lt_of_lt_of_le hx (Nat.pow_le_pow_right (by norm_num) hj))

theorem or_full {x : Nat} (hx : x < 1024) : 1023 ||| x = 1023 := by
  apply Nat.eq_of_testBit_eq
  intro j
  rw [Nat.testBit_or]
  by_cases hj : j < 10
  · have h1023 : Nat.testBit 1023 j = true := by interval_cases j <;> decide
    simp [h1023]
  · rw [testBit_ge_false (show (1023 : Nat) < 2 ^ 10 by norm_num) (by omega),
      testBit_ge_false (show x < 2 ^ 10 by omega) (by omega)]
    rfl

theorem and_full {x : Nat} (hx : x < 1024) : 1023 &&& x = x := by
  rw [Nat.and_comm, and1023, Nat.mod_eq_of_lt hx]

theorem rowOf_vanish {x : Nat} (hx : x < 2 ^ 40) {k : Nat} (hk : 4 ≤ k) :
    rowOf x k = 0 := by
  rw [rowOf_eq_div, Nat.div_eq_of_lt
    (lt_of_lt_of_le hx (Nat.pow_le_pow_right (by norm_num) (by omega)))]

theorem pack_rowsOf {u : Nat} (hu : u < 2 ^ 40) : packRows (rowsOf u) = u := by
  simp only [rowsOf, packRows, rowOf_eq_div]
  norm_num
  omega

theorem bits_lt_16 {x : Nat} (h : ∀ q, x.testBit q = true → q < 4) : x < 16 := by
  by_contra hx
  push_neg at hx
  have h4 : x >>> 4 ≠ 0 := by
    rw [Nat.shiftRight_eq_div_pow]
    norm_num
    omega
  obtain ⟨i, hi⟩ := exists_testBit_of_ne_zero h4
  rw [Nat.testBit_shiftRight] at hi
  have := h _ hi
  omega

theorem shl_shr_ge (x a b : Nat) (h : a ≤ b) : (x <<< a) >>> b = x >>> (b - a) := by
  rw [Nat.shiftLeft_eq, Nat.shiftRight_eq_div_pow, Nat.shiftRight_eq_div_pow]
  rcases Nat.exists_eq_add_of_le h with ⟨c, rfl⟩
  rw [Nat.add_sub_cancel_left, pow_add, Nat.mul_comm x (2 ^ a),
    Nat.mul_div_mul_left _ _ (pow_pos (by norm_num) a)]

theorem rowOf_shl_ge (x c j : Nat) (hj : c ≤ j) :
    rowOf (x <<< (10 * c)) j = rowOf x (j - c) := by
  rw [rowOf, rowOf, shl_shr_ge _ _ _ (by omega)]
  have e : 10 * j - 10 * c = 10 * (j - c) := by omega
  rw [e]

theorem rowOf_shl_lt (x c j : Nat) (hj : j < c) : rowOf (x <<< (10 * c)) j = 0 := by
  rw [rowOf, shl_shr x (10 * c) (10 * j) (by omega), and1023, Nat.shiftLeft_eq]
  have e : 10 * c - 10 * j = 10 + (10 * c - 10 * j - 10) := by omega
  rw [e, pow_add]
  have e2 : x * (2 ^ 10 * 2 ^ (10 * c - 10 * j - 10)) =
      1024 * (x * 2 ^ (10 * c - 10 * j - 10)) := by norm_num; ring
  rw [e2, Nat.mul_mod_right]

theorem ite_bound {P : Prop} [Decidable P] {a b n : Nat} (ha : a < n) (hb : b < n) :
    (if P then a else b) < n := by
  split <;> assumption

theorem testBit_one_shl (r q : Nat) : ((1 : Nat) <<< r).testBit q = decide (q = r) := by
  have h := testBit_ite_bit True r q
  simpa using h

theorem natOnes_zero (f : Nat) : natOnes f 0 = 0 := by
  induction f with
  | zero => rfl
  | succ f ih => simp [natOnes, ih]

theorem natOnes_le (f : Nat) : ∀ n, natOnes f n ≤ f := by
  induction f with
  | zero => intro n; simp [natOnes]
  | succ f ih =>
    intro n
    simp only [natOnes]
    have := ih (n / 2)
    omega

theorem natOnes_fuel (f : Nat) : ∀ g n, n < 2 ^ f → f ≤ g → natOnes g n = natOnes f n := by
  induction f with
  | zero =>
    intro g n hn hfg
    have : n = 0 := by simpa using hn
    subst this
    rw [natOnes_zero, natOnes_zero]
  | succ f ih =>
    intro g n hn hfg
    match g, hfg with
    | g + 1, _ =>
      simp only [natOnes]
      have h2 : n / 2 < 2 ^ f := by
        have : (2 : Nat) ^ (f + 1) = 2 * 2 ^ f := by ring
        omega
      rw [ih g (n / 2) h2 (by omega)]

theorem natOnes_horner (b x : Nat) : ∀ a y, y < 2 ^ a →
    natOnes (a + b) (2 ^ a * x + y) = natOnes b x + natOnes a y := by
  intro a
  induction a with
  | zero =>
    intro y hy
    have : y = 0 := by simpa using hy
    subst this
    simp [natOnes_zero]
  | succ a ih =>
    intro y hy
    have epow : (2 : Nat) ^ (a + 1) * x = 2 * (2 ^ a * x) := by ring
    have e1 : (2 ^ (a + 1) * x + y) % 2 = y % 2 := by
      rw [epow]
      omega
    have e2 : (2 ^ (a + 1) * x + y) / 2 = 2 ^ a * x + y / 2 := by
      rw [epow]
      omega
    have e3 : a + 1 + b = (a + b) + 1 := by omega
    rw [e3]
    simp only [natOnes, e1, e2]
    rw [ih (y / 2) (by omega)]
    omega

theorem or_div2 (x y : Nat) : (x ||| y) / 2 = x / 2 ||| y / 2 := by
  have h := or_shr x y 1
  simpa [Nat.shiftRight_succ, Nat.shiftRight_eq_div_pow] using h

theorem and_div2 (x y : Nat) : (x &&& y) / 2 = x / 2 &&& y / 2 := by
  have h := and_shr x y 1
  simpa [Nat.shiftRight_succ, Nat.shiftRight_eq_div_pow] using h

theorem mod2_eq (n : Nat) : n % 2 = if n.testBit 0 = true then 1 else 0 := by
  rw [Nat.testBit_zero]
  rcases Nat.mod_two_eq_zero_or_one n with h | h <;> simp [h]

theorem mod_two_or_disjoint {x y : Nat} (h : x &&& y = 0) :
    (x ||| y) % 2 = x % 2 + y % 2 := by
  have hb : (x &&& y).testBit 0 = false := by simp [h]
  rw [Nat.testBit_and, Bool.and_eq_false_iff] at hb
  rw [mod2_eq, mod2_eq x, mod2_eq y, Nat.testBit_or]
  rcases hb with hb | hb <;> rw [hb] <;> simp

theorem natOnes_or_disjoint (f : Nat) : ∀ x y, x &&& y = 0 → x < 2 ^ f → y < 2 ^ f →
    natOnes f (x ||| y) = natOnes f x + natOnes f y := by
  induction f with
  | zero =>
    intro x y h hx hy
    have hx0 : x = 0 := by simpa using hx
    have hy0 : y = 0 := by simpa using hy
    subst hx0; subst hy0
    rfl
  | succ f ih =>
    intro x y h hx hy
    simp only [natOnes]
    have hd : x / 2 &&& y / 2 = 0 := by rw [← and_div2, h]
    have epow : (2 : Nat) ^ (f + 1) = 2 * 2 ^ f := by ring
    rw [or_div2, mod_two_or_disjoint h, ih (x / 2) (y / 2) hd (by omega) (by omega)]
    omega

theorem natOnes_pack4 {a b c d : Nat} (ha : a < 1024) (hb : b < 1024)
    (hc : c < 1024) (hd : d < 1024) :
    natOnes 40 (packRows [a, b, c, d]) =
      natOnes 10 a + natOnes 10 b + natOnes 10 c + natOnes 10 d := by
  simp only [packRows, Nat.mul_zero, Nat.add_zero]
  have e3 : d + 1024 * 0 = d := by omega
  have h1 : natOnes 40 (a + 1024 * (b + 1024 * (c + 1024 * d))) =
      natOnes 30 (b + 1024 * (c + 1024 * d)) + natOnes 10 a := by
    have := natOnes_horner 30 (b + 1024 * (c + 1024 * d)) 10 a (by norm_num; omega)
    norm_num at this ⊢
    rw [Nat.add_comm a, ← this]
  have h2 : natOnes 30 (b + 1024 * (c + 1024 * d)) =
      natOnes 20 (c + 1024 * d) + natOnes 10 b := by
    have := natOnes_horner 20 (c + 1024 * d) 10 b (by norm_num; omega)
    norm_num at this ⊢
    rw [Nat.add_comm b, ← this]
  have h3 : natOnes 20 (c + 1024 * d) = natOnes 10 d + natOnes 10 c := by
    have := natOnes_horner 10 d 10 c (by norm_num; omega)
    norm_num at this ⊢
    rw [Nat.add_comm c, ← this]
  rw [h1, h2, h3]
  omega

theorem natOnes40_pack (l : List Nat) (h4 : l.length = 4) (hlt : ∀ r ∈ l, r < 1024) :
    natOnes 40 (packRows l) = rowPopSum l := by
  rcases l with _ | ⟨a, _ | ⟨b, _ | ⟨c, _ | ⟨d, _ | ⟨e, t⟩⟩⟩⟩⟩ <;> simp_all
  rw [natOnes_pack4 hlt.1 hlt.2.1 hlt.2.2.1 hlt.2.2.2]
  simp [rowPopSum]
  omega

theorem rowPopSum_perm {l1 l2 : List Nat} (h : l1.Perm l2) : rowPopSum l1 = rowPopSum l2 :=
  (h.map (natOnes 10)).sum_eq

theorem filter_full_replicate (l : List Nat) :
    l.filter (fun r => r == 1023) = List.replicate (l.count 1023) 1023 :=
  List.filter_eq l 1023

theorem sortedRows_perm (l : List Nat) : (sortedRowsSpec l).Perm l := by
  have hlen := length_filter_partition (fun r => r == 1023) l
  have hrep : List.replicate (l.length - (l.filter (fun r => !(r == 1023))).length) 1023 =
      l.filter (fun r => r == 1023) := by
    rw [filter_full_replicate]
    congr 1
    have : (l.filter (fun r => r == 1023)).length = l.count 1023 := by
      rw [List.count_eq_countP, List.countP_eq_length_filter]
    omega
  rw [sortedRowsSpec, hrep]
  exact l.filter_append_perm _

theorem prSpecClear_bits_subset (cleared field : Nat) (L : List Nat) :
    ∀ k q, (prSpecClear cleared field L k).testBit q = true → q ∈ L := by
  induction L with
  | nil => intro k q h; simp [prSpecClear] at h
  | cons r t ih =>
    intro k q h
    rw [prSpecClear] at h
    split at h
    · rw [Nat.testBit_or, Bool.or_eq_true, testBit_one_shl] at h
      rcases h with h | h
      · simp only [decide_eq_true_eq] at h
        rw [h]
        exact List.mem_cons_self r t
      · exact List.mem_cons_of_mem r (ih k q h)
    · rw [Nat.testBit_or, Bool.or_eq_true, testBit_ite_bit] at h
      rcases h with h | h
      · simp only [Bool.and_eq_true, decide_eq_true_eq] at h
        rw [h.2]
        exact List.mem_cons_self r t
      · exact List.mem_cons_of_mem r (ih (k + 1) q h)

theorem clearOk_congr (cleared field R R' : Nat) (L : List Nat)
    (hb : ∀ q ∈ L, R.testBit q = R'.testBit q) :
    ∀ k, clearOk cleared field R L k → clearOk cleared field R' L k := by
  induction L with
  | nil => intro k h; trivial
  | cons r t ih =>
    intro k h
    have hr := hb r (List.mem_cons_self r t)
    have hbt : ∀ q ∈ t, R.testBit q = R'.testBit q :=
      fun q hq => hb q (List.mem_cons_of_mem r hq)
    rw [clearOk] at h ⊢
    split at h <;> rename_i hc
    · rw [if_pos hc]
      exact ⟨hr ▸ h.1, ih hbt k h.2⟩
    · rw [if_neg hc]
      exact ⟨hr ▸ h.1, ih hbt (k + 1) h.2⟩

theorem prSpecClear_bitsOk (cleared field : Nat) (L : List Nat) (hnd : L.Nodup) :
    ∀ k, clearOk cleared field (prSpecClear cleared field L k) L k := by
  induction L with
  | nil => intro k; trivial
  | cons r t ih =>
    intro k
    have hrt : r ∉ t := (List.nodup_cons.mp hnd).1
    have hnd2 : t.Nodup := (List.nodup_cons.mp hnd).2
    rw [clearOk, prSpecClear]
    split
    · constructor
      · rw [Nat.testBit_or, testBit_one_shl]
        simp
      · refine clearOk_congr cleared field (prSpecClear cleared field t k) _ t ?_ k (ih hnd2 k)
        intro q hq
        rw [Nat.testBit_or, testBit_one_shl]
        have hqr : ¬(q = r) := fun he => hrt (he ▸ hq)
        simp [hqr]
    · constructor
      · rw [Nat.testBit_or, testBit_ite_bit]
        by_cases hb : (prSpecClear cleared field t (k + 1)).testBit r = true
        · exact absurd (prSpecClear_bits_subset cleared field t (k + 1) r hb) hrt
        · rw [Bool.not_eq_true] at hb
          rw [hb, Bool.or_false]
          constructor
          · intro h
            simp only [Bool.and_eq_true, decide_eq_true_eq] at h
            exact h.1
          · intro h
            simp [h]
      · refine clearOk_congr cleared field (prSpecClear cleared field t (k + 1)) _ t ?_
          (k + 1) (ih hnd2 (k + 1))
        intro q hq
        rw [Nat.testBit_or, testBit_ite_bit]
        have hqr : ¬(q = r) := fun he => hrt (he ▸ hq)
        simp [hqr]

theorem prSpecClear_lt_16 (cleared field : Nat) :
    prSpecClear cleared field [0, 1, 2, 3] 0 < 16 := by
  apply bits_lt_16
  intro q hq
  have := prSpecClear_bits_subset cleared field [0, 1, 2, 3] 0 q hq
  simp at this
  omega

theorem prSpecRows_lt_16 (cleared minoes : Nat) :
    prSpecRows cleared minoes [0, 1, 2, 3] 0 < 16 := by
  apply bits_lt_16
  intro q hq
  have := prSpecRows_bits_subset cleared minoes [0, 1, 2, 3] 0 q hq
  simp at this
  omega

theorem count4 {x : Nat} (hx : x < 16) :
    countOnes8 x = (if x.testBit 0 = true then 1 else 0)
      + (if x.testBit 1 = true then 1 else 0)
      + (if x.testBit 2 = true then 1 else 0)
      + (if x.testBit 3 = true then 1 else 0) := by
  interval_cases x <;> decide

theorem flc_le4 (b : Nat) : fullLineCount b ≤ 4 := by
  rw [fullLineCount]
  split_ifs <;> norm_num

theorem flc_bot (b : Nat) : ∀ j < fullLineCount b, rowOf b j = 1023 := by
  rw [fullLineCount_rows]
  split_ifs with h0 h1 h2 h3 <;> intro j hj <;> interval_cases j <;>
    first
    | assumption
    | omega

theorem lor_lt_1024 {x y : Nat} (hx : x < 1024) (hy : y < 1024) : x ||| y < 1024 := by
  have h : x ||| y < 2 ^ 10 := Nat.or_lt_two_pow (by omega) (by omega)
  omega

theorem lor_left_comm (a b c : Nat) : a ||| (b ||| c) = b ||| (a ||| c) := by
  rw [← Nat.lor_assoc, Nat.lor_comm a b, Nat.lor_assoc]

theorem pack_or4 {a0 a1 a2 a3 b0 b1 b2 b3 : Nat} (h0 : a0 < 1024) (h1 : a1 < 1024)
    (h2 : a2 < 1024) (h3 : a3 < 1024) (g0 : b0 < 1024) (g1 : b1 < 1024)
    (g2 : b2 < 1024) (g3 : b3 < 1024) :
    packRows [a0 ||| b0, a1 ||| b1, a2 ||| b2, a3 ||| b3] =
      packRows [a0, a1, a2, a3] ||| packRows [b0, b1, b2, b3] := by
  rw [← or4_pack a0 a1 a2 a3 h0 h1 h2 h3, ← or4_pack b0 b1 b2 b3 g0 g1 g2 g3,
    ← or4_pack _ _ _ _ (lor_lt_1024 h0 g0) (lor_lt_1024 h1 g1) (lor_lt_1024 h2 g2)
      (lor_lt_1024 h3 g3),
    or_shl, or_shl, or_shl]
  simp only [Nat.lor_assoc, Nat.lor_comm, lor_left_comm]

theorem eq_zero_of_rows {x : Nat} (hx : x < 2 ^ 40) (h : ∀ k < 4, rowOf x k = 0) :
    x = 0 := by
  have hp := pack_rowsOf hx
  rw [← hp]
  simp [rowsOf, packRows, h 0 (by norm_num), h 1 (by norm_num), h 2 (by norm_num),
    h 3 (by norm_num)]

theorem pack_and4_zero {a0 a1 a2 a3 b0 b1 b2 b3 : Nat} (h0 : a0 < 1024) (h1 : a1 < 1024)
    (h2 : a2 < 1024) (h3 : a3 < 1024) (g0 : b0 < 1024) (g1 : b1 < 1024)
    (g2 : b2 < 1024) (g3 : b3 < 1024) (d0 : a0 &&& b0 = 0) (d1 : a1 &&& b1 = 0)
    (d2 : a2 &&& b2 = 0) (d3 : a3 &&& b3 = 0) :
    packRows [a0, a1, a2, a3] &&& packRows [b0, b1, b2, b3] = 0 := by
  have hA : packRows [a0, a1, a2, a3] < 2 ^ 40 := by
    apply packRows_lt
    intro r hr
    simp at hr
    rcases hr with h | h | h | h <;> omega
  obtain ⟨p0, p1, p2, p3⟩ := rowOf_pack4 a0 a1 a2 a3 h0 h1 h2 h3
  obtain ⟨q0, q1, q2, q3⟩ := rowOf_pack4 b0 b1 b2 b3 g0 g1 g2 g3
  apply eq_zero_of_rows
  · have := Nat.and_le_left (n := packRows [a0, a1, a2, a3]) (m := packRows [b0, b1, b2, b3])
    omega
  · intro k hk
    rw [rowOf_and]
    interval_cases k
    · rw [p0, q0, d0]
    · rw [p1, q1, d1]
    · rw [p2, q2, d2]
    · rw [p3, q3, d3]

theorem newBrokenRows_lt (cleared field : Nat) (L : List Nat) :
    ∀ k x, x ∈ newBrokenRows cleared field L k → x < 1024 := by
  induction L with
  | nil => intro k x hx; simp [newBrokenRows] at hx
  | cons r t ih =>
    intro k x hx
    rw [newBrokenRows] at hx
    split at hx <;> rcases List.mem_cons.mp hx with h | h
    · omega
    · exact ih k x h
    · rw [h]; exact rowOf_lt _ _
    · exact ih (k + 1) x h

theorem newBrokenRows4 (cleared field : Nat) : ∃ z0 z1 z2 z3,
    newBrokenRows cleared field [0, 1, 2, 3] 0 = [z0, z1, z2, z3] := by
  simp only [newBrokenRows]
  split <;> split <;> split <;> split <;> exact ⟨_, _, _, _, rfl⟩

theorem rowsOf_eq_botRows (U field C : Nat)
    (hlow : ∀ j, j < C → rowOf U j = 1023)
    (hhigh : ∀ k, rowOf U (C + k) = rowOf field k) :
    rowsOf U = botRows C field [0, 1, 2, 3] := by
  have part : ∀ j : Nat, rowOf U j = if j < C then 1023 else rowOf field (j - C) := by
    intro j
    split
    · next h => exact hlow j h
    · next h =>
      have hj := hhigh (j - C)
      rw [show C + (j - C) = j by omega] at hj
      exact hj
  simp only [rowsOf, botRows]
  rw [part 0, part 1, part 2, part 3]

theorem zip_broken (B M cleared field : Nat) (hcl : cleared < 16)
    (hfield : ∀ k, rowOf field k = rowOf B (countOnes8 cleared + k) ||| rowOf M k) :
    List.zipWith (fun a b => a ||| b) (brokenRowsSpec cleared B [0, 1, 2, 3])
        (pieceBrokenRows cleared M [0, 1, 2, 3] 0) =
      newBrokenRows cleared field [0, 1, 2, 3] 0 := by
  have hcount := count4 hcl
  by_cases c0 : cleared.testBit 0 <;> by_cases c1 : cleared.testBit 1 <;>
    by_cases c2 : cleared.testBit 2 <;> by_cases c3 : cleared.testBit 3 <;>
    (rw [hcount] at hfield
     simp [c0, c1, c2, c3] at hfield
     simp [brokenRowsSpec, pieceBrokenRows, newBrokenRows, c0, c1, c2, c3, hfield])

theorem filter_nonfull_eq (cleared field : Nat) (hcl : cleared < 16) :
    (botRows (countOnes8 cleared) field [0, 1, 2, 3]).filter (fun r => !(r == 1023)) =
      (newBrokenRows cleared field [0, 1, 2, 3] 0).filter (fun r => !(r == 1023)) := by
  have hcount := count4 hcl
  by_cases c0 : cleared.testBit 0 <;> by_cases c1 : cleared.testBit 1 <;>
    by_cases c2 : cleared.testBit 2 <;> by_cases c3 : cleared.testBit 3 <;>
    (rw [hcount]
     simp [botRows, newBrokenRows, c0, c1, c2, c3, List.filter_cons])

theorem count_full_eq (cleared field : Nat) (hcl : cleared < 16) :
    (botRows (countOnes8 cleared) field [0, 1, 2, 3]).count 1023 =
      (newBrokenRows cleared field [0, 1, 2, 3] 0).count 1023 := by
  have hcount := count4 hcl
  by_cases c0 : cleared.testBit 0 <;> by_cases c1 : cleared.testBit 1 <;>
    by_cases c2 : cleared.testBit 2 <;> by_cases c3 : cleared.testBit 3 <;>
    (rw [hcount]
     simp [botRows, newBrokenRows, c0, c1, c2, c3, List.count_cons]
     try split_ifs <;> omega)

theorem clear_iff4 (cleared field : Nat) (hcl : cleared < 16) (z0 z1 z2 z3 : Nat)
    (hz : newBrokenRows cleared field [0, 1, 2, 3] 0 = [z0, z1, z2, z3]) :
    (z0 = 1023 ↔ (prSpecClear cleared field [0, 1, 2, 3] 0).testBit 0 = true) ∧
    (z1 = 1023 ↔ (prSpecClear cleared field [0, 1, 2, 3] 0).testBit 1 = true) ∧
    (z2 = 1023 ↔ (prSpecClear cleared field [0, 1, 2, 3] 0).testBit 2 = true) ∧
    (z3 = 1023 ↔ (prSpecClear cleared field [0, 1, 2, 3] 0).testBit 3 = true) := by
  have hok := prSpecClear_bitsOk cleared field [0, 1, 2, 3] (by decide) 0
  by_cases c0 : cleared.testBit 0 <;> by_cases c1 : cleared.testBit 1 <;>
    by_cases c2 : cleared.testBit 2 <;> by_cases c3 : cleared.testBit 3 <;>
    (simp [clearOk, c0, c1, c2, c3] at hok
     simp [newBrokenRows, c0, c1, c2, c3] at hz
     obtain ⟨e0, e1, e2, e3⟩ := hz
     subst e0; subst e1; subst e2; subst e3
     simp_all)

theorem filterlen_count {R : Nat} (hR : R < 16) :
    (List.filter (fun x => R.testBit x) [3, 2, 1, 0]).length = countOnes8 R := by
  interval_cases R <;> decide

theorem ctz8_le {R : Nat} (hR : R < 16) (h0 : R ≠ 0) : ctz 8 R ≤ 3 := by
  interval_cases R <;> simp_all <;> decide

theorem shr_eq_zero {x n : Nat} (h : x < 2 ^ n) : x >>> n = 0 := by
  rw [Nat.shiftRight_eq_div_pow]
  exact Nat.div_eq_of_lt h

theorem rows_count (cleared M lo ht : Nat) (hcl : cleared < 16) (hht : 1 ≤ ht)
    (hfit : lo + ht + countOnes8 cleared ≤ 4)
    (hsup : ∀ k, rowOf M k ≠ 0 ↔ (lo ≤ k ∧ k < lo + ht)) :
    countOnes8 (prSpecRows cleared M [0, 1, 2, 3] 0) = ht ∧
    prSpecRows cleared M [0, 1, 2, 3] 0 ≠ 0 := by
  have hcount := count4 hcl
  by_cases c0 : cleared.testBit 0 <;> by_cases c1 : cleared.testBit 1 <;>
    by_cases c2 : cleared.testBit 2 <;> by_cases c3 : cleared.testBit 3 <;>
    (rw [hcount] at hfit
     simp [c0, c1, c2, c3] at hfit
     simp only [prSpecRows, c0, c1, c2, c3, if_true, if_false, hsup]
     have hlo : lo ≤ 3 := by omega
     have hht4 : ht ≤ 4 := by omega
     interval_cases lo <;> interval_cases ht <;> simp_all <;> decide)

theorem grid_ctz (s : Shape) (o : Orient) :
    ∀ lo < 4, ∀ col < (PIECE_MAX_COLS s o).toNat + 1,
      ((PIECE_SHAPES s (Orient.canonical o s) >>>
          ctz 64 (PIECE_SHAPES s (Orient.canonical o s)))
          <<< (ctz 64 (PIECE_SHAPES s o <<< (lo * 10 + col)) % 10)) % 2 ^ 64 =
        PIECE_SHAPES s o <<< col := by
  cases s <;> cases o <;> decide

theorem grid_ht_bound (s : Shape) (o : Orient) :
    ∀ col < (PIECE_MAX_COLS s o).toNat + 1,
      PIECE_SHAPES s o <<< col < 2 ^ (10 * htOf s o) := by
  cases s <;> cases o <;> decide

theorem grid_pop (s : Shape) (o : Orient) : natOnes 64 (PIECE_SHAPES s o) = 4 := by
  cases s <;> cases o <;> decide

theorem htOf_pos (s : Shape) (o : Orient) : 1 ≤ htOf s o := by
  cases s <;> cases o <;> decide

theorem rowsOf_lt (u : Nat) : ∀ r ∈ rowsOf u, r < 1024 := by
  intro r hr
  simp only [rowsOf, List.mem_cons, List.not_mem_nil, or_false] at hr
  rcases hr with h | h | h | h <;> (rw [h]; exact rowOf_lt _ _)

theorem count_le4 {cl : Nat} (hcl : cl < 16) : countOnes8 cl ≤ 4 := by
  interval_cases cl <;> decide

theorem newBrokenRows_len (cleared field : Nat) (L : List Nat) :
    ∀ k, (newBrokenRows cleared field L k).length = L.length := by
  induction L with
  | nil => intro k; rfl
  | cons r t ih =>
    intro k
    rw [newBrokenRows]
    split <;> simp [ih]

theorem botRows_len (C field : Nat) (L : List Nat) :
    (botRows C field L).length = L.length := by
  induction L with
  | nil => rfl
  | cons j t ih => simp [botRows, ih]

theorem pieceBrokenRows_lt (cleared M : Nat) (L : List Nat) :
    ∀ k x, x ∈ pieceBrokenRows cleared M L k → x < 1024 := by
  induction L with
  | nil => intro k x hx; simp [pieceBrokenRows] at hx
  | cons r t ih =>
    intro k x hx
    rw [pieceBrokenRows] at hx
    split at hx <;> rcases List.mem_cons.mp hx with h | h
    · omega
    · exact ih k x h
    · rw [h]; exact rowOf_lt _ _
    · exact ih (k + 1) x h

theorem pieceBrokenRows_length (cleared M : Nat) (L : List Nat) :
    ∀ k, (pieceBrokenRows cleared M L k).length = L.length := by
  induction L with
  | nil => intro k; rfl
  | cons r t ih =>
    intro k
    rw [pieceBrokenRows]
    split <;> simp [ih]

theorem sorted_idem (u : Nat) :
    packRows (sortedRowsSpec (rowsOf (packRows (sortedRowsSpec (rowsOf u))))) =
      packRows (sortedRowsSpec (rowsOf u)) := by
  rw [rowsOf_packRows _ (by rw [sortedRows_length]; rfl)
      (sortedRows_elem_lt _ (rowsOf_lt u)), sortedRowsSpec_idem]

theorem pack_or_list (l1 l2 : List Nat) (h1 : l1.length = 4) (h2 : l2.length = 4)
    (hb1 : ∀ x ∈ l1, x < 1024) (hb2 : ∀ x ∈ l2, x < 1024) :
    packRows (List.zipWith (fun a b => a ||| b) l1 l2) = packRows l1 ||| packRows l2 := by
  rcases l1 with _ | ⟨x0, _ | ⟨x1, _ | ⟨x2, _ | ⟨x3, _ | ⟨x4, t⟩⟩⟩⟩⟩ <;> simp_all
  rcases l2 with _ | ⟨y0, _ | ⟨y1, _ | ⟨y2, _ | ⟨y3, _ | ⟨y4, u⟩⟩⟩⟩⟩ <;> simp_all
  exact pack_or4 hb1.1 hb1.2.1 hb1.2.2.1 hb1.2.2.2 hb2.1 hb2.2.1 hb2.2.2.1 hb2.2.2.2

theorem pack_and_zero_list (l1 l2 : List Nat) (h1 : l1.length = 4) (h2 : l2.length = 4)
    (hb1 : ∀ x ∈ l1, x < 1024) (hb2 : ∀ x ∈ l2, x < 1024)
    (h : List.zipWith (fun a b => a &&& b) l1 l2 = [0, 0, 0, 0]) :
    packRows l1 &&& packRows l2 = 0 := by
  rcases l1 with _ | ⟨x0, _ | ⟨x1, _ | ⟨x2, _ | ⟨x3, _ | ⟨x4, t⟩⟩⟩⟩⟩ <;> simp_all
  rcases l2 with _ | ⟨y0, _ | ⟨y1, _ | ⟨y2, _ | ⟨y3, _ | ⟨y4, u⟩⟩⟩⟩⟩ <;> simp_all
  exact pack_and4_zero hb1.1 hb1.2.1 hb1.2.2.1 hb1.2.2.2 hb2.1 hb2.2.1 hb2.2.2.1
    hb2.2.2.2 h.1 h.2.1 h.2.2.1 h.2.2.2

theorem disj_broken (B M cl : Nat) (hcl : cl < 16)
    (hd : ∀ k, rowOf M k &&& rowOf B (countOnes8 cl + k) = 0) :
    List.zipWith (fun a b => a &&& b) (pieceBrokenRows cl M [0, 1, 2, 3] 0)
      (brokenRowsSpec cl B [0, 1, 2, 3]) = [0, 0, 0, 0] := by
  have hcount := count4 hcl
  by_cases c0 : cl.testBit 0 <;> by_cases c1 : cl.testBit 1 <;>
    by_cases c2 : cl.testBit 2 <;> by_cases c3 : cl.testBit 3 <;>
    (have d0 := hd 0
     have d1 := hd 1
     have d2 := hd 2
     have d3 := hd 3
     rw [hcount] at d0 d1 d2 d3
     simp [c0, c1, c2, c3] at d0 d1 d2 d3
     simp [pieceBrokenRows, brokenRowsSpec, c0, c1, c2, c3, d0, d1, d2, d3])

theorem place_step_master (B cl M : Nat) (hB : B < 2 ^ 40) (hcl : cl < 16)
    (hbot : ∀ j, j < countOnes8 cl → rowOf B j = 1023)
    (hMlt : M < 2 ^ (10 * (4 - countOnes8 cl)))
    (hdisj : (B >>> (10 * countOnes8 cl)) &&& M = 0) :
    packRows (sortedRowsSpec (rowsOf (B ||| (M <<< (10 * countOnes8 cl))))) < 2 ^ 40 ∧
    prSpecClear cl ((B >>> (10 * countOnes8 cl)) ||| M) [0, 1, 2, 3] 0 < 16 ∧
    fullLineCount
        (packRows (sortedRowsSpec (rowsOf (B ||| (M <<< (10 * countOnes8 cl)))))) =
      countOnes8 (prSpecClear cl ((B >>> (10 * countOnes8 cl)) ||| M) [0, 1, 2, 3] 0) ∧
    packRows (brokenRowsSpec
        (prSpecClear cl ((B >>> (10 * countOnes8 cl)) ||| M) [0, 1, 2, 3] 0)
        (packRows (sortedRowsSpec (rowsOf (B ||| (M <<< (10 * countOnes8 cl))))))
        [0, 1, 2, 3]) =
      packRows (brokenRowsSpec cl B [0, 1, 2, 3]) |||
        packRows (pieceBrokenRows cl M [0, 1, 2, 3] 0) ∧
    packRows (pieceBrokenRows cl M [0, 1, 2, 3] 0) &&&
      packRows (brokenRowsSpec cl B [0, 1, 2, 3]) = 0 := by
  set C := countOnes8 cl with hCdef
  set field := (B >>> (10 * C)) ||| M with hfieldDef
  set U := B ||| (M <<< (10 * C)) with hUDef
  have hC4 : C ≤ 4 := count_le4 hcl
  have hMsh : M <<< (10 * C) < 2 ^ 40 := by
    rw [Nat.shiftLeft_eq]
    have h1 : (2 : Nat) ^ (10 * (4 - C)) * 2 ^ (10 * C) = 2 ^ 40 := by
      rw [← pow_add]
      congr 1
      omega
    have hK : 0 < 2 ^ (10 * C) := pow_pos (by norm_num) _
    have h2 : M * 2 ^ (10 * C) ≤ (2 ^ (10 * (4 - C)) - 1) * 2 ^ (10 * C) :=
      Nat.mul_le_mul_right _ (by omega)
    have h3 : (2 ^ (10 * (4 - C)) - 1) * 2 ^ (10 * C) = 2 ^ 40 - 2 ^ (10 * C) := by
      rw [Nat.sub_mul, h1, Nat.one_mul]
    omega
  have hU40 : U < 2 ^ 40 :=
    Nat.or_lt_two_pow (show B < 2 ^ 40 from hB) hMsh
  have hfield : ∀ k, rowOf field k = rowOf B (C + k) ||| rowOf M k := by
    intro k
    rw [hfieldDef, rowOf_or, rowOf_shr]
  have hUlow : ∀ j, j < C → rowOf U j = 1023 := by
    intro j hj
    rw [hUDef, rowOf_or, rowOf_shl_lt _ _ _ hj, Nat.or_zero]
    exact hbot j hj
  have hUhigh : ∀ k, rowOf U (C + k) = rowOf field k := by
    intro k
    rw [hUDef, rowOf_or, rowOf_shl_ge _ _ _ (by omega), hfield k]
    have e : C + k - C = k := by omega
    rw [e]
  have hrowsU : rowsOf U = botRows C field [0, 1, 2, 3] :=
    rowsOf_eq_botRows U field C hUlow hUhigh
  have hflt : ∀ r ∈ rowsOf U, r < 1024 := rowsOf_lt U
  have hsortEq : sortedRowsSpec (rowsOf U) =
      sortedRowsSpec (newBrokenRows cl field [0, 1, 2, 3] 0) := by
    rw [sortedRowsSpec, sortedRowsSpec, hrowsU, filter_nonfull_eq cl field hcl,
      botRows_len, newBrokenRows_len]
  obtain ⟨z0, z1, z2, z3, hz⟩ := newBrokenRows4 cl field
  have hzlt : z0 < 1024 ∧ z1 < 1024 ∧ z2 < 1024 ∧ z3 < 1024 := by
    refine ⟨?_, ?_, ?_, ?_⟩ <;>
      exact newBrokenRows_lt cl field [0, 1, 2, 3] 0 _ (by rw [hz]; simp)
  obtain ⟨h0, h1, h2, h3⟩ := clear_iff4 cl field hcl z0 z1 z2 z3 hz
  have hcl2 : prSpecClear cl field [0, 1, 2, 3] 0 < 16 := prSpecClear_lt_16 cl field
  have hboard2 : packRows (sortedRowsSpec (rowsOf U)) =
      packRows (sortedRowsSpec [z0, z1, z2, z3]) := by
    rw [hsortEq, hz]
  have hbrs := brokenRows_of_sorted z0 z1 z2 z3 (prSpecClear cl field [0, 1, 2, 3] 0)
    hcl2 hzlt.1 hzlt.2.1 hzlt.2.2.1 hzlt.2.2.2 h0 h1 h2 h3
  have hcnt : fullLineCount (packRows (sortedRowsSpec (rowsOf U))) =
      countOnes8 (prSpecClear cl field [0, 1, 2, 3] 0) := by
    rw [fullLineCount_sorted (rowsOf U) (by simp [rowsOf]) hflt]
    have e1 : (List.filter (fun r => r == 1023) (rowsOf U)).length =
        (rowsOf U).count 1023 := by
      rw [List.count_eq_countP, List.countP_eq_length_filter]
    rw [e1, hrowsU, count_full_eq cl field hcl, hz, count4 hcl2]
    simp only [List.count_cons, List.count_nil, beq_iff_eq, h0, h1, h2, h3]
    split_ifs <;> omega
  have hzip : List.zipWith (fun a b => a ||| b) (brokenRowsSpec cl B [0, 1, 2, 3])
      (pieceBrokenRows cl M [0, 1, 2, 3] 0) = [z0, z1, z2, z3] := by
    rw [zip_broken B M cl field hcl hfield, hz]
  have hdrow : ∀ k, rowOf M k &&& rowOf B (C + k) = 0 := by
    intro k
    have := congrArg (fun x => rowOf x k) hdisj
    simp only [rowOf_and, rowOf_shr] at this
    rw [Nat.and_comm]
    calc rowOf B (C + k) &&& rowOf M k = rowOf 0 k := this
      _ = 0 := by simp [rowOf]
  have hpack5 : packRows (brokenRowsSpec (prSpecClear cl field [0, 1, 2, 3] 0)
      (packRows (sortedRowsSpec (rowsOf U))) [0, 1, 2, 3]) =
      packRows (brokenRowsSpec cl B [0, 1, 2, 3]) |||
        packRows (pieceBrokenRows cl M [0, 1, 2, 3] 0) := by
    rw [hboard2, hbrs, ← hzip]
    exact pack_or_list _ _ (by rw [brokenRowsSpec_length]; rfl)
      (by rw [pieceBrokenRows_length]; rfl)
      (brokenRowsSpec_lt cl B [0, 1, 2, 3])
      (fun x hx => pieceBrokenRows_lt cl M [0, 1, 2, 3] 0 x hx)
  have hpack6 : packRows (pieceBrokenRows cl M [0, 1, 2, 3] 0) &&&
      packRows (brokenRowsSpec cl B [0, 1, 2, 3]) = 0 := by
    refine pack_and_zero_list _ _ (by rw [pieceBrokenRows_length]; rfl)
      (by rw [brokenRowsSpec_length]; rfl)
      (fun x hx => pieceBrokenRows_lt cl M [0, 1, 2, 3] 0 x hx)
      (brokenRowsSpec_lt cl B [0, 1, 2, 3]) ?_
    exact disj_broken B M cl hcl hdrow
  exact ⟨sortedRows_lt U, hcl2, hcnt, hpack5, hpack6⟩

theorem fullMask_lt (l : List Nat) : fullMaskSpec l < 2 ^ l.length := by
  induction l with
  | nil => simp [fullMaskSpec]
  | cons r t ih =>
    rw [fullMaskSpec]
    have h1 : (if r = 1023 then 1 else 0) ≤ 1 := by split <;> omega
    simp only [List.length_cons, pow_succ]
    omega

theorem pop_shl_40 {x pos : Nat} (hlt : x <<< pos < 2 ^ 40) (hpos : pos ≤ 40) :
    countOnes64 (x <<< pos) = natOnes 64 x := by
  rw [countOnes64, Nat.shiftLeft_eq] at *
  have hx : x < 2 ^ (40 - pos) := by
    by_contra hc
    push_neg at hc
    have h1 : 2 ^ (40 - pos) * 2 ^ pos ≤ x * 2 ^ pos := Nat.mul_le_mul_right _ hc
    rw [← pow_add] at h1
    have e : 40 - pos + pos = 40 := by omega
    rw [e] at h1
    omega
  have h1 : natOnes 64 (x * 2 ^ pos) = natOnes 40 (x * 2 ^ pos) :=
    natOnes_fuel 40 64 _ (by omega) (by omega)
  have h2 : x * 2 ^ pos = 2 ^ pos * x + 0 := by ring
  have h3 : (40 : Nat) = pos + (40 - pos) := by omega
  rw [h1, h2, h3, natOnes_horner (40 - pos) x pos 0 (pow_pos (by norm_num) pos),
    natOnes_zero, Nat.add_zero]
  exact (natOnes_fuel (40 - pos) 64 x hx (by omega)).symm

theorem pop_sort {u : Nat} (hu : u < 2 ^ 40) :
    countOnes64 (packRows (sortedRowsSpec (rowsOf u))) = countOnes64 u := by
  rw [countOnes64, countOnes64,
    natOnes_fuel 40 64 _ (sortedRows_lt u) (by omega),
    natOnes_fuel 40 64 u hu (by omega),
    natOnes40_pack _ (by rw [sortedRows_length]; rfl)
      (sortedRows_elem_lt _ (rowsOf_lt u))]
  have h2 : natOnes 40 u = rowPopSum (rowsOf u) := by
    conv_lhs => rw [← pack_rowsOf hu]
    exact natOnes40_pack _ (by simp [rowsOf]) (rowsOf_lt u)
  rw [h2]
  exact rowPopSum_perm (sortedRows_perm _)

theorem pop_le40 {b : Nat} (hb : b < 2 ^ 40) : countOnes64 b ≤ 40 := by
  rw [countOnes64, natOnes_fuel 40 64 b hb (by omega)]
  exact natOnes_le 40 b

theorem pop_or_disjoint {x y : Nat} (hx : x < 2 ^ 64) (hy : y < 2 ^ 64)
    (hd : x &&& y = 0) :
    countOnes64 (x ||| y) = countOnes64 x + countOnes64 y :=
  natOnes_or_disjoint 64 x y hd hx hy

theorem maxcols_le (s : Shape) (o : Orient) : (PIECE_MAX_COLS s o).toNat ≤ 9 := by
  cases s <;> cases o <;> decide

theorem placeState_eq (cleared minoes field : Nat) :
    (placeState cleared minoes field).2.1 = prSpecRows cleared minoes [0, 1, 2, 3] 0 ∧
    (placeState cleared minoes field).2.2 = prSpecClear cleared field [0, 1, 2, 3] 0 := by
  have h := placeRowsRun_invar cleared minoes field [0, 1, 2, 3] 0 0 0 (by norm_num)
  have e2 : (0x3FF : Nat) <<< (10 * 0) = 0x3FF := by norm_num
  rw [e2] at h
  have e : placeState cleared minoes field =
      placeRowsRun cleared minoes field [0, 1, 2, 3] (0x3FF, 0, 0) := rfl
  rw [e, h]
  constructor <;> simp

theorem newPiece_board (cl lo col : Nat) (s : Shape) (o : Orient)
    (hcl : cl < 16) (hlo : lo < 4) (hcol : col < (PIECE_MAX_COLS s o).toNat + 1)
    (hfit : lo + htOf s o + countOnes8 cl ≤ 4)
    (hsup : ∀ k, rowOf (PIECE_SHAPES s o <<< (lo * 10 + col)) k ≠ 0 ↔
      (lo ≤ k ∧ k < lo + htOf s o)) :
    BrokenPiece.board
      { lowMino := ctz 64 (PIECE_SHAPES s o <<< (lo * 10 + col)) % 10 +
          ctz 8 (prSpecRows cl (PIECE_SHAPES s o <<< (lo * 10 + col)) [0, 1, 2, 3] 0) * 10,
        shape := s, orientation := Orient.canonical o s,
        rows := prSpecRows cl (PIECE_SHAPES s o <<< (lo * 10 + col)) [0, 1, 2, 3] 0 } =
      some (packRows (pieceBrokenRows cl (PIECE_SHAPES s o <<< (lo * 10 + col))
        [0, 1, 2, 3] 0)) := by
  have hht := htOf_pos s o
  have hRlt : prSpecRows cl (PIECE_SHAPES s o <<< (lo * 10 + col)) [0, 1, 2, 3] 0 < 16 :=
    prSpecRows_lt_16 _ _
  obtain ⟨hcount, hne⟩ := rows_count cl _ lo (htOf s o) hcl hht hfit hsup
  have hmod : (ctz 64 (PIECE_SHAPES s o <<< (lo * 10 + col)) % 10 +
      ctz 8 (prSpecRows cl (PIECE_SHAPES s o <<< (lo * 10 + col)) [0, 1, 2, 3] 0) * 10)
        % 10 =
      ctz 64 (PIECE_SHAPES s o <<< (lo * 10 + col)) % 10 := by omega
  have hshr : (PIECE_SHAPES s o <<< (lo * 10 + col)) >>> (10 * lo) =
      PIECE_SHAPES s o <<< col := by
    rw [shl_shr _ _ _ (by omega)]
    congr 1
    omega
  simp only [BrokenPiece.board, hmod]
  rw [grid_ctz s o lo hlo col hcol]
  have hchain : ∀ c0 : Nat,
      brokenPieceStep (prSpecRows cl (PIECE_SHAPES s o <<< (lo * 10 + col)) [0, 1, 2, 3] 0) 3
        (brokenPieceStep (prSpecRows cl (PIECE_SHAPES s o <<< (lo * 10 + col)) [0, 1, 2, 3] 0) 2
          (brokenPieceStep (prSpecRows cl (PIECE_SHAPES s o <<< (lo * 10 + col)) [0, 1, 2, 3] 0) 1
            (brokenPieceStep (prSpecRows cl (PIECE_SHAPES s o <<< (lo * 10 + col)) [0, 1, 2, 3] 0) 0
              (c0, 0)))) =
      scatterRun (prSpecRows cl (PIECE_SHAPES s o <<< (lo * 10 + col)) [0, 1, 2, 3] 0)
        [3, 2, 1, 0] (c0, 0) := fun c0 => rfl
  rw [hchain, scatterRun_invar _ _ [3, 2, 1, 0] (by norm_num) 0]
  rw [filterlen_count hRlt, hcount]
  rw [shr_eq_zero (grid_ht_bound s o col hcol)]
  rw [if_pos rfl]
  rw [← hshr, Nat.zero_or, scatter_eq_broken cl _ lo (htOf s o) hsup]

theorem bsub_lor_right (x y : Nat) : bsub y (x ||| y) := by
  intro p h
  rw [Nat.testBit_or, h, Bool.or_true]

theorem bsub_xor {pb t x : Nat} (hx : bsub x t) (hd : x &&& pb = 0) :
    bsub x (t ^^^ pb) := by
  intro q hq
  have ht := hx q hq
  have hpb : pb.testBit q = false := by
    have h2 := congrArg (fun z => z.testBit q) hd
    simp only [Nat.testBit_and, Nat.zero_testBit, hq, Bool.true_and] at h2
    exact h2
  rw [Nat.testBit_xor, ht, hpb]
  rfl

theorem and_zero_of_bsub {pb tb x : Nat} (hsub : bsub pb tb) (hd : x &&& tb = 0) :
    x &&& pb = 0 := by
  apply Nat.eq_of_testBit_eq
  intro q
  simp only [Nat.testBit_and, Nat.zero_testBit]
  cases hN : x.testBit q
  · rfl
  · cases hp : pb.testBit q
    · rfl
    · have ht := hsub q hp
      have h2 := congrArg (fun z => z.testBit q) hd
      simp only [Nat.testBit_and, Nat.zero_testBit, hN, ht, Bool.true_and] at h2
      exact h2

def PiecesOk (tb : Nat) (ps : List BrokenPiece) : Prop :=
  (∀ q ∈ ps, ∃ pb, q.board = some pb ∧ bsub pb tb) ∧
  List.Pairwise
    (fun q1 q2 => ∀ pb1 pb2, q1.board = some pb1 → q2.board = some pb2 →
      pb1 &&& pb2 = 0) ps

theorem piecesFit_of_ok (ps : List BrokenPiece) : ∀ tb, PiecesOk tb ps →
    piecesFit tb ps = some true := by
  induction ps with
  | nil => intro tb _; rfl
  | cons q rest ih =>
    intro tb hok
    obtain ⟨hall, hpw⟩ := hok
    obtain ⟨pb, hq, hsub⟩ := hall q (List.mem_cons_self q rest)
    rw [piecesFit, hq]
    show (if tb &&& pb = pb then piecesFit (tb ^^^ pb) rest else some false) = some true
    rw [if_pos ((land_eq_iff tb pb).mpr hsub)]
    apply ih
    obtain ⟨hhead, htail⟩ := List.pairwise_cons.mp hpw
    constructor
    · intro q2 hq2
      obtain ⟨pb2, e2, sub2⟩ := hall q2 (List.mem_cons_of_mem q hq2)
      have hdisj : pb &&& pb2 = 0 := hhead q2 hq2 pb pb2 hq e2
      refine ⟨pb2, e2, bsub_xor sub2 ?_⟩
      rw [Nat.and_comm]
      exact hdisj
    · exact htail

theorem piecesOk_perm {ps1 ps2 : List BrokenPiece} (hp : ps1.Perm ps2) {tb : Nat}
    (h : PiecesOk tb ps1) : PiecesOk tb ps2 := by
  obtain ⟨hall, hpw⟩ := h
  refine ⟨fun q hq => hall q (hp.mem_iff.mpr hq), ?_⟩
  refine (hp.pairwise_iff ?_).mp hpw
  intro q1 q2 h12 pb1 pb2 e1 e2
  rw [Nat.and_comm]
  exact h12 pb2 pb1 e2 e1

theorem piecesOk_extend {tb NPB : Nat} {ps : List BrokenPiece} (q : BrokenPiece)
    (hq : q.board = some NPB) (hd : NPB &&& tb = 0) (h : PiecesOk tb ps) :
    PiecesOk (tb ||| NPB) (q :: ps) := by
  obtain ⟨hall, hpw⟩ := h
  constructor
  · intro q2 hq2
    rcases List.mem_cons.mp hq2 with h2 | h2
    · exact ⟨NPB, h2 ▸ hq, bsub_lor_right tb NPB⟩
    · obtain ⟨pb, e, sub⟩ := hall q2 h2
      exact ⟨pb, e, bsub_trans sub (bsub_lor_left tb NPB)⟩
  · rw [List.pairwise_cons]
    refine ⟨?_, hpw⟩
    intro q2 hq2 pb1 pb2 e1 e2
    obtain ⟨pb, e, sub⟩ := hall q2 hq2
    have hpb1 : pb1 = NPB := by
      rw [hq] at e1
      exact (Option.some.inj e1).symm
    have hpb2 : pb2 = pb := by
      rw [e] at e2
      exact (Option.some.inj e2).symm
    subst hpb1
    subst hpb2
    exact and_zero_of_bsub sub hd

theorem pop_asBits (s : Shape) (o : Orient) (pos : Nat) (hpos : pos ≤ 40)
    (hlt : PIECE_SHAPES s o <<< pos < 2 ^ 40) :
    countOnes64 (PIECE_SHAPES s o <<< pos) = 4 := by
  rw [pop_shl_40 hlt hpos]
  exact grid_pop s o

def Rep (bb : BrokenBoard) : Prop :=
  bb.board < 2 ^ 40 ∧ bb.clearedRows < 16 ∧
  bb.board = (BrokenBoard.fromGarbage bb.board).board ∧
  fullLineCount bb.board = countOnes8 bb.clearedRows ∧
  (∀ q ∈ bb.pieces, q.lowMino < 64 ∧ q.rows < 16) ∧
  4 * bb.pieces.length ≤ countOnes64 bb.board ∧
  PiecesOk bb.toBrokenBitboard bb.pieces

theorem Rep_empty : Rep BrokenBoard.empty := by
  refine ⟨by norm_num [BrokenBoard.empty], by norm_num [BrokenBoard.empty], by decide,
    by decide, ?_, ?_, ?_⟩
  · intro q hq
    simp [BrokenBoard.empty] at hq
  · simp [BrokenBoard.empty]
  · exact ⟨fun q hq => absurd hq (by simp [BrokenBoard.empty]), by
      simp [BrokenBoard.empty]⟩

theorem Rep_fromGarbage (g : Nat) : Rep (BrokenBoard.fromGarbage g) := by
  obtain ⟨hb, hc⟩ := fromGarbage_spec g
  have hpieces : (BrokenBoard.fromGarbage g).pieces = [] := rfl
  refine ⟨?_, ?_, ?_, ?_, ?_, ?_, ?_⟩
  · rw [hb]
    exact sortedRows_lt g
  · rw [hc]
    have h := fullMask_lt (rowsOf g)
    simpa [rowsOf] using h
  · obtain ⟨hb2, _⟩ := fromGarbage_spec ((BrokenBoard.fromGarbage g).board)
    rw [hb2, hb, sorted_idem]
  · rw [hb, hc, fullLineCount_sorted _ (by simp [rowsOf]) (rowsOf_lt g),
      countOnes8_fullMask _ (by simp [rowsOf])]
  · rw [hpieces]
    intro q hq
    simp at hq
  · rw [hpieces]
    simp
  · rw [hpieces]
    exact ⟨fun q hq => absurd hq (by simp), List.Pairwise.nil⟩

theorem Rep_place (bb : BrokenBoard) (p : Piece) (hrep : Rep bb)
    (hib : p.inBounds = true) (hcp : p.canPlace bb.board = true)
    (hdj : bb.board &&& p.asBits = 0) : Rep (bb.place p) := by
  obtain ⟨h40, h16, hnorm, hcnt, hfields, hpop, hok⟩ := hrep
  simp only [Piece.inBounds, Bool.and_eq_true, decide_eq_true_eq] at hib
  obtain ⟨⟨⟨hc0, hcle⟩, hr0⟩, hrle⟩ := hib
  simp only [Piece.canPlace, Bool.and_eq_true, decide_eq_true_eq] at hcp
  obtain ⟨⟨hmask, hhigh⟩, hdown⟩ := hcp
  set s := p.shape with hs
  set o := p.orientation with ho
  set row := p.row.toNat with hrowdef
  set col := p.col.toNat with hcoldef
  have hpos : (p.row * 10 + p.col).toNat = row * 10 + col := by omega
  have hrow5 : row ≤ 5 := by omega
  have hcolle2 : col ≤ (PIECE_MAX_COLS s o).toNat := Int.toNat_le_toNat hcle
  have hcol10 : col < 10 := by
    have := maxcols_le s o
    omega
  have hbits0 : p.asBits = (PIECE_SHAPES s o <<< (row * 10 + col)) % 2 ^ 64 := by
    rw [Piece.asBits, hpos]
  rw [hbits0] at hmask hhigh hdj
  obtain ⟨hbits_eq, hbits40⟩ := grid_unclipped s o row (by omega) col hcol10 hhigh hmask
  rw [hbits_eq] at hdj
  obtain ⟨hht4, hjsup⟩ := rowsFactB_spec s o row col
    (grid_rows s o row (by omega) col (by omega) hhigh hmask)
  have hht1 := htOf_pos s o
  have hC4 : countOnes8 bb.clearedRows ≤ 4 := count_le4 h16
  have hbot : ∀ j, j < countOnes8 bb.clearedRows → rowOf bb.board j = 1023 := by
    intro j hj
    exact flc_bot bb.board j (by omega)
  have hrowC : countOnes8 bb.clearedRows ≤ row := by
    by_contra hlt
    push_neg at hlt
    have hrow4 : row < 4 := by omega
    have hfull := hbot row hlt
    have hnz : rowOf (PIECE_SHAPES s o <<< (row * 10 + col)) row ≠ 0 :=
      (hjsup row hrow4).mpr ⟨le_refl row, by omega⟩
    have hzero := congrArg (fun x => rowOf x row) hdj
    simp only [rowOf_and] at hzero
    rw [hfull, and_full (rowOf_lt _ _)] at hzero
    have hz0 : rowOf 0 row = 0 := by simp [rowOf]
    exact hnz (by rw [hzero, hz0])
  set C := countOnes8 bb.clearedRows with hCdef
  set lo := row - C with hlodef
  have hmask40 : BOARD_MASK = 2 ^ 40 - 1 := by norm_num [BOARD_MASK]
  have hasBoard : p.asBoard = PIECE_SHAPES s o <<< (row * 10 + col) := by
    rw [Piece.asBoard, hbits0, hbits_eq, hmask40, Nat.and_pow_two_sub_one_eq_mod,
      Nat.mod_eq_of_lt hbits40]
  have hM_eq : p.asBoard >>> (C * 10) = PIECE_SHAPES s o <<< (lo * 10 + col) := by
    rw [hasBoard, Nat.mul_comm C 10, shl_shr _ _ _ (by omega)]
    congr 1
    omega
  set M := PIECE_SHAPES s o <<< (lo * 10 + col) with hMdef
  have hsup : ∀ k, rowOf M k ≠ 0 ↔ (lo ≤ k ∧ k < lo + htOf s o) := by
    intro k
    have hMr : rowOf M k = rowOf (PIECE_SHAPES s o <<< (row * 10 + col)) (C + k) := by
      rw [← hM_eq, Nat.mul_comm C 10, rowOf_shr, hasBoard]
    rcases Nat.lt_or_ge (C + k) 4 with h4 | h4
    · rw [hMr, hjsup (C + k) h4]
      omega
    · rw [hMr, rowOf_vanish hbits40 (by omega)]
      constructor
      · intro h
        exact absurd rfl h
      · intro hk
        omega
  have hfit : lo + htOf s o + C ≤ 4 := by omega
  have hMlt : M < 2 ^ (10 * (4 - C)) := by
    have h1 : M = (PIECE_SHAPES s o <<< col) <<< (10 * lo) := by
      rw [hMdef, ← Nat.shiftLeft_add]
      congr 1
      omega
    rw [h1, Nat.shiftLeft_eq]
    have h2 := grid_ht_bound s o col (by omega)
    have h3 : (2 : Nat) ^ (10 * htOf s o) * 2 ^ (10 * lo) ≤ 2 ^ (10 * (4 - C)) := by
      rw [← pow_add]
      exact Nat.pow_le_pow_right (by norm_num) (by omega)
    have h4 : PIECE_SHAPES s o <<< col * 2 ^ (10 * lo) <
        2 ^ (10 * htOf s o) * 2 ^ (10 * lo) :=
      (Nat.mul_lt_mul_right (pow_pos (by norm_num) (10 * lo))).mpr h2
    omega
  have hdisj_up : (bb.board >>> (10 * C)) &&& M = 0 := by
    have e : (bb.board >>> (10 * C)) &&& M =
        (bb.board &&& (PIECE_SHAPES s o <<< (row * 10 + col))) >>> (10 * C) := by
      rw [and_shr]
      congr 1
      rw [← hasBoard, Nat.mul_comm 10 C]
      exact hM_eq.symm
    rw [e, hdj, Nat.zero_shiftRight]
  obtain ⟨m40x, mcl16x, mcntx, morx, mandx⟩ :=
    place_step_master bb.board bb.clearedRows M h40 h16 hbot hMlt hdisj_up
  have m40 : packRows (sortedRowsSpec (rowsOf (bb.board ||| M <<< (10 * C)))) <
      2 ^ 40 := m40x
  have mcl16 : prSpecClear bb.clearedRows ((bb.board >>> (10 * C)) ||| M)
      [0, 1, 2, 3] 0 < 16 := mcl16x
  have mcnt : fullLineCount
      (packRows (sortedRowsSpec (rowsOf (bb.board ||| M <<< (10 * C))))) =
      countOnes8 (prSpecClear bb.clearedRows ((bb.board >>> (10 * C)) ||| M)
        [0, 1, 2, 3] 0) := mcntx
  have mor : packRows (brokenRowsSpec
      (prSpecClear bb.clearedRows ((bb.board >>> (10 * C)) ||| M) [0, 1, 2, 3] 0)
      (packRows (sortedRowsSpec (rowsOf (bb.board ||| M <<< (10 * C)))))
      [0, 1, 2, 3]) =
      packRows (brokenRowsSpec bb.clearedRows bb.board [0, 1, 2, 3]) |||
        packRows (pieceBrokenRows bb.clearedRows M [0, 1, 2, 3] 0) := morx
  have mand : packRows (pieceBrokenRows bb.clearedRows M [0, 1, 2, 3] 0) &&&
      packRows (brokenRowsSpec bb.clearedRows bb.board [0, 1, 2, 3]) = 0 := mandx
  -- the components of the placed board
  have hPboard : (bb.place p).board = Piece.place p bb.board := rfl
  have hPclear : (bb.place p).clearedRows =
      (placeState bb.clearedRows (p.asBoard >>> (C * 10))
        ((bb.board >>> (C * 10)) ||| (p.asBoard >>> (C * 10)))).2.2 := rfl
  have hPpieces : (bb.place p).pieces = sortPieces (placeNewPiece bb p :: bb.pieces) := rfl
  obtain ⟨hpr, hpc⟩ := placeState_eq bb.clearedRows (p.asBoard >>> (C * 10))
    ((bb.board >>> (C * 10)) ||| (p.asBoard >>> (C * 10)))
  have hCm : C * 10 = 10 * C := Nat.mul_comm C 10
  have hbits_M : PIECE_SHAPES s o <<< (row * 10 + col) = M <<< (10 * C) := by
    rw [hMdef, ← Nat.shiftLeft_add]
    congr 1
    omega
  have hbitsM40 : M <<< (10 * C) < 2 ^ 40 := by
    rw [← hbits_M]
    exact hbits40
  have hboard2 : (bb.place p).board =
      packRows (sortedRowsSpec (rowsOf (bb.board ||| M <<< (10 * C)))) := by
    rw [hPboard, Piece.place, hbits0, hbits_eq, hbits_M,
      sortFullRows_spec _ (lor_lt_two_pow h40 hbitsM40)]
  have hclear2 : (bb.place p).clearedRows =
      prSpecClear bb.clearedRows ((bb.board >>> (10 * C)) ||| M) [0, 1, 2, 3] 0 := by
    rw [hPclear, hpc, hM_eq, hCm]
  have hprR : (placeState bb.clearedRows (p.asBoard >>> (C * 10))
      ((bb.board >>> (C * 10)) ||| (p.asBoard >>> (C * 10)))).2.1 =
      prSpecRows bb.clearedRows M [0, 1, 2, 3] 0 := by
    rw [hpr, hM_eq]
  obtain ⟨hRcount, hRne⟩ := rows_count bb.clearedRows M lo (htOf s o) h16 hht1 hfit hsup
  have hR16 : prSpecRows bb.clearedRows M [0, 1, 2, 3] 0 < 16 := prSpecRows_lt_16 _ _
  have hctz3 : ctz 8 (prSpecRows bb.clearedRows M [0, 1, 2, 3] 0) ≤ 3 := ctz8_le hR16 hRne
  have hnewP : placeNewPiece bb p =
      { lowMino := ctz 64 M % 10 + ctz 8 (prSpecRows bb.clearedRows M [0, 1, 2, 3] 0) * 10,
        shape := s, orientation := Orient.canonical o s,
        rows := prSpecRows bb.clearedRows M [0, 1, 2, 3] 0 } := by
    simp only [placeNewPiece]
    rw [← hCdef, hprR, hM_eq]
  have hNPB2 : (placeNewPiece bb p).board =
      some (packRows (pieceBrokenRows bb.clearedRows M [0, 1, 2, 3] 0)) := by
    rw [hnewP]
    exact newPiece_board bb.clearedRows lo col s o h16 (by omega) (by omega) hfit hsup
  have hlen2 : (bb.place p).pieces.length = bb.pieces.length + 1 := by
    rw [hPpieces, (sortPieces_perm _).length_eq]
    rfl
  have hmem2 : ∀ q, q ∈ (bb.place p).pieces ↔
      (q = placeNewPiece bb p ∨ q ∈ bb.pieces) := by
    intro q
    rw [hPpieces, (sortPieces_perm _).mem_iff, List.mem_cons]
  have htb : (bb.place p).toBrokenBitboard =
      bb.toBrokenBitboard ||| packRows (pieceBrokenRows bb.clearedRows M [0, 1, 2, 3] 0) := by
    rw [toBroken_eq_spec, hclear2, hboard2, mor, ← toBroken_eq_spec bb]
  have hdisj_tb : packRows (pieceBrokenRows bb.clearedRows M [0, 1, 2, 3] 0) &&&
      bb.toBrokenBitboard = 0 := by
    rw [toBroken_eq_spec bb]
    exact mand
  refine ⟨?_, ?_, ?_, ?_, ?_, ?_, ?_⟩
  · rw [hboard2]
    exact m40
  · rw [hclear2]
    exact mcl16
  · obtain ⟨hb2, _⟩ := fromGarbage_spec ((bb.place p).board)
    rw [hb2]
    conv_lhs => rw [hboard2]
    rw [hboard2, sorted_idem]
  · rw [hboard2, hclear2]
    exact mcnt
  · intro q hq
    rcases (hmem2 q).mp hq with h | h
    · subst h
      rw [hnewP]
      refine ⟨?_, hR16⟩
      have hm10 : ctz 64 M % 10 < 10 := Nat.mod_lt _ (by norm_num)
      simp only
      omega
    · exact hfields q h
  · rw [hlen2, hboard2]
    have hpopsort : countOnes64 (packRows (sortedRowsSpec
        (rowsOf (bb.board ||| M <<< (10 * C))))) =
        countOnes64 (bb.board ||| M <<< (10 * C)) :=
      pop_sort (lor_lt_two_pow h40 hbitsM40)
    have hdj2 : bb.board &&& M <<< (10 * C) = 0 := by
      rw [← hbits_M]
      exact hdj
    have hpopor : countOnes64 (bb.board ||| M <<< (10 * C)) =
        countOnes64 bb.board + countOnes64 (M <<< (10 * C)) :=
      pop_or_disjoint (by omega) (by omega) hdj2
    have hpop4 : countOnes64 (M <<< (10 * C)) = 4 := by
      rw [← hbits_M]
      exact pop_asBits s o (row * 10 + col) (by omega) hbits40
    omega
  · rw [hPpieces, htb]
    refine piecesOk_perm (sortPieces_perm _).symm ?_
    exact piecesOk_extend _ hNPB2 hdisj_tb hok

theorem Rep_constructible (bb : BrokenBoard) (h : Constructible bb) : Rep bb := by
  induction h with
  | empty => exact Rep_empty
  | garbage g => exact Rep_fromGarbage g
  | place bb2 p hc hib hcp hdj ih => exact Rep_place bb2 p ih hib hcp hdj

theorem isValid_of_Rep (bb : BrokenBoard) (h : Rep bb) : bb.isValid = some true := by
  obtain ⟨h40, h16, hnorm, hcnt, hfields, hpop, hok⟩ := h
  rw [BrokenBoard.isValid, if_pos hnorm, if_pos hcnt]
  exact piecesFit_of_ok bb.pieces bb.toBrokenBitboard hok

/-- C2: every `BrokenBoard` constructible by a sequence of legal `place`
calls (starting from `empty` or `from_garbage`, with each placed piece in
bounds, placeable, and non-overlapping as `Piece::place` documents) both
validates and round-trips through the bit-stream codec: `is_valid` returns
`true` without panicking, `decode (encode bb) = Some bb` without panicking,
and the encoding is, in order, an 8-bit magic equal to 4, 40 bits of board,
a 4-bit cleared-row mask, then 15 bits per piece (6 `low_mino`, 3 `shape`,
2 `orientation`, 4 `rows`), with total length between 52 and 202 bits. -/
theorem C2_round_trip (bb : BrokenBoard) (h : Constructible bb) :
    bb.isValid = some true ∧
    BrokenBoard.decode (BrokenBoard.encode bb) = some (some bb) ∧
    BrokenBoard.encode bb = storeLE 8 4 ++ storeLE 40 bb.board ++
      storeLE 4 bb.clearedRows ++ (bb.pieces.map encodePiece).flatten ∧
    (∀ q ∈ bb.pieces, encodePiece q = storeLE 6 q.lowMino ++ storeLE 3 q.shape.toNat ++
      storeLE 2 q.orientation.toNat ++ storeLE 4 q.rows) ∧
    (BrokenBoard.encode bb).length = 52 + 15 * bb.pieces.length ∧
    52 ≤ (BrokenBoard.encode bb).length ∧ (BrokenBoard.encode bb).length ≤ 202 := by
  obtain ⟨h40, h16, hnorm, hcnt, hfields, hpop, hok⟩ := Rep_constructible bb h
  have hval := isValid_of_Rep bb ⟨h40, h16, hnorm, hcnt, hfields, hpop, hok⟩
  have hlen10 : bb.pieces.length ≤ 10 := by
    have := pop_le40 h40
    omega
  obtain ⟨henc, hlen, hge, hle, hdec⟩ :=
    decode_encode_of_valid bb h40 h16 hfields hlen10 hval
  exact ⟨hval, hdec, henc, fun q hq => rfl, hlen, hge, hle⟩

/-- Witness for C2 at a concrete constructible board: the empty board with
one legally placed O piece. -/
theorem C2_round_trip_witness :
    (BrokenBoard.empty.place
      { shape := .O, col := 0, row := 0, orientation := .North }).isValid = some true ∧
    BrokenBoard.decode (BrokenBoard.encode (BrokenBoard.empty.place
      { shape := .O, col := 0, row := 0, orientation := .North })) =
      some (some (BrokenBoard.empty.place
        { shape := .O, col := 0, row := 0, orientation := .North })) := by
  have h := C2_round_trip
    (BrokenBoard.empty.place
      { shape := .O, col := 0, row := 0, orientation := .North })
    (Constructible.place BrokenBoard.empty
      ({ shape := .O, col := 0, row := 0, orientation := .North } : Piece)
      Constructible.empty (by decide) (by decide) (by decide))
  exact ⟨h.1, h.2.1⟩

end T4
